import Mathlib

/-!
Verification development for the maze_generator repository.

This file gives a shallow embedding of the maze generation core
(coordinates, directions, the connectivity graph, the Maze facade with its
isomorphism based equality, the BFS goal selection, and the four generator
algorithms: recursive backtracking, Ellers algorithm, Prims algorithm and
the growing tree family), together with theorems settling the frozen claims
about the specification.

Modelling conventions:
- Machine integers (i32) are modelled as Int.  The claims quantify over
  positive widths and heights where no i32 overflow is relevant.
- The ChaCha random number generator owned by each generator is abstracted
  as a stream of draws, a function from Nat (the index of the draw) to Nat.
  A call of gen_range(0, n) with n greater than 0 is modelled as taking the
  next draw modulo n, which ranges over exactly the values 0 .. n-1 that the
  source call can produce; gen_bool(0.5) is modelled as the parity of the
  next draw.  Universally quantified theorems over all streams therefore
  cover every behaviour the seeded generator can exhibit, and the pure
  function of the stream models the determinism of a fixed seed.
- The petgraph GraphMap is modelled as a list of undirected edges in
  insertion order; add_edge is a no-op when the edge is already present,
  exactly as for GraphMap with unit edge weights.
- Rust Result values are modelled with Except, and the release-mode
  behaviour of the source is modelled (debug_assert! statements compile to
  nothing in release builds).
-/

namespace Mazegen

/-- Two dimensional coordinates used for addressing fields in a maze
(struct Coordinates in src/prelude/coordinates.rs). -/
structure Coordinates where
  x : Int
  y : Int
deriving DecidableEq, Repr

instance : Inhabited Coordinates := ⟨⟨0, 0⟩⟩

/-- The four cardinal directions (enum Direction in src/prelude/direction.rs). -/
inductive Direction where
  | North
  | East
  | South
  | West
deriving DecidableEq, Repr

/-- Direction::opposite. -/
def Direction.opposite : Direction → Direction
  | .North => .South
  | .East => .West
  | .South => .North
  | .West => .East

/-- Direction::all, in the fixed source order North, East, South, West. -/
def Direction.all : List Direction := [.North, .East, .South, .West]

/-- Coordinates::next: the neighbouring coordinates in a given direction
(North decrements y, South increments y, East increments x, West
decrements x). -/
def Coordinates.next (c : Coordinates) (d : Direction) : Coordinates :=
  { x := c.x + (match d with | .East => 1 | .West => -1 | _ => 0)
  , y := c.y + (match d with | .North => -1 | .South => 1 | _ => 0) }

/-- The connectivity graph: type MazeGraph = GraphMap of Coordinates with
unit edge weights, modelled as the list of undirected edges in insertion
order. -/
abbrev MazeGraph : Type := List (Coordinates × Coordinates)

/-- GraphMap::contains_edge for an undirected graph: the edge is present in
either orientation. -/
def MazeGraph.contains_edge (g : MazeGraph) (a b : Coordinates) : Bool :=
  g.any (fun e => (e.1 = a ∧ e.2 = b) ∨ (e.1 = b ∧ e.2 = a))

/-- GraphMap::add_edge with unit weight: inserts the undirected edge when it
is not yet present, otherwise leaves the graph unchanged. -/
def MazeGraph.add_edge (g : MazeGraph) (a b : Coordinates) : MazeGraph :=
  if g.contains_edge a b then g else g ++ [(a, b)]

/-- GraphMap::neighbors: all neighbours of a node, in the insertion order of
their edges. -/
def MazeGraph.neighbors (g : MazeGraph) (c : Coordinates) : List Coordinates :=
  g.filterMap (fun e => if e.1 = c then some e.2 else if e.2 = c then some e.1 else none)

/-- The number of (undirected) edges of the graph. -/
def MazeGraph.edgeCount (g : MazeGraph) : Nat :=
  g.length

/-- The nodes of the graph in insertion order (each add_edge call adds first
its source then its target as nodes). -/
def MazeGraph.nodes (g : MazeGraph) : List Coordinates :=
  g.foldl
    (fun acc e =>
      let acc1 := if e.1 ∈ acc then acc else acc ++ [e.1]
      if e.2 ∈ acc1 then acc1 else acc1 ++ [e.2])
    []

/-- Adjacency as a proposition. -/
def MazeGraph.Adj (g : MazeGraph) (a b : Coordinates) : Prop :=
  g.contains_edge a b = true

/-- Reachability along graph edges. -/
def MazeGraph.Reachable (g : MazeGraph) (a b : Coordinates) : Prop :=
  Relation.ReflTransGen g.Adj a b

/-- The possible roles of a field (enum FieldType in src/prelude/field.rs). -/
inductive FieldType where
  | Start
  | Goal
  | Normal
deriving DecidableEq, Repr

/-- Representation of a single field (struct Field in src/prelude/field.rs). -/
structure Field where
  passages : List Direction
  field_type : FieldType
  coordinates : Coordinates
deriving DecidableEq, Repr

/-- Field::has_passage. -/
def Field.has_passage (f : Field) (d : Direction) : Bool :=
  f.passages.contains d

/-- The public maze type (struct Maze in src/prelude/maze.rs). -/
structure Maze where
  graph : MazeGraph
  start : Coordinates
  goal : Coordinates
  size : Int × Int
deriving DecidableEq

/-- Maze::are_coordinates_inside. -/
def Maze.are_coordinates_inside (m : Maze) (c : Coordinates) : Bool :=
  c.x ≥ 0 && c.x < m.size.1 && c.y ≥ 0 && c.y < m.size.2

/-- Maze::get_field: for in-bounds coordinates, builds the Field view with
the passage directions and the role (start has precedence over goal, which
has precedence over normal); otherwise returns none. -/
def Maze.get_field (m : Maze) (c : Coordinates) : Option Field :=
  if m.are_coordinates_inside c then
    let passages := Direction.all.filter (fun d => m.graph.contains_edge c (c.next d))
    let ft : FieldType :=
      if m.start = c then .Start
      else if m.goal = c then .Goal
      else .Normal
    some ⟨passages, ft, c⟩
  else
    none

/-- Checks whether mapping the i-th node of n1 to the i-th node of p
preserves adjacency in both directions (the witness check performed by the
petgraph isomorphism search). -/
def isoUnder (g1 g2 : MazeGraph) (n1 p : List Coordinates) : Bool :=
  (List.range n1.length).all fun i =>
    (List.range n1.length).all fun j =>
      g1.contains_edge (n1.getD i default) (n1.getD j default)
        == g2.contains_edge (p.getD i default) (p.getD j default)

/-- petgraph::algo::is_isomorphic on the graphs obtained by into_graph:
structure-only graph isomorphism, ignoring the node weights (the
coordinates).  Modelled as a search over all orderings of the node set of
the second graph. -/
def is_isomorphic (g1 g2 : MazeGraph) : Bool :=
  let n1 := g1.nodes
  let n2 := g2.nodes
  n1.length = n2.length && n2.permutations.any (fun p => isoUnder g1 g2 n1 p)

/-- The PartialEq implementation of Maze: start, goal and size must agree
and the graphs must be isomorphic (as unlabeled graphs, because
petgraph::algo::is_isomorphic ignores node weights). -/
def mazeEq (m1 m2 : Maze) : Bool :=
  m1.start = m2.start && m1.goal = m2.goal && m1.size = m2.size &&
    is_isomorphic m1.graph m2.graph

/-- Unlabeled graph isomorphism as a proposition: some function maps the
node list of the first graph to a permutation of the node list of the
second graph while preserving adjacency in both directions. -/
def UnlabeledIso (g1 g2 : MazeGraph) : Prop :=
  ∃ f : Coordinates → Coordinates,
    (g1.nodes.map f).Perm g2.nodes ∧
    ∀ a ∈ g1.nodes, ∀ b ∈ g1.nodes,
      g2.contains_edge (f a) (f b) = g1.contains_edge a b

/-- Isomorphism as labeled graphs with nodes identified by coordinate: the
identity on coordinates must preserve adjacency, so the two graphs must
relate exactly the same pairs of coordinates. -/
def LabeledIso (g1 g2 : MazeGraph) : Prop :=
  ∀ a b, g1.contains_edge a b = g2.contains_edge a b

/-- One dequeue step state of the breadth-first traversal used by
find_suitable_goal: the queue, the already_visited set (as a list) and the
last dequeued coordinates. -/
def bfsLoop (g : MazeGraph) :
    Nat → List Coordinates → List Coordinates → Coordinates → Coordinates
  | 0, _, _, last => last
  | _ + 1, [], _, last => last
  | fuel + 1, i :: rest, visited, _ =>
      bfsLoop g fuel
        (rest ++ (g.neighbors i).filter (fun c => ¬ (c ∈ visited)))
        (visited ++ [i]) i

/-- EllersGenerator::find_suitable_goal (the identical code is cloned in
PrimsGenerator::find_suitable_goal): breadth-first traversal whose queue is
initialised with the neighbours of start; the start itself is never added
to already_visited; returns the last dequeued coordinates.  The source
loop terminates on the graphs produced by the generators; the fuel is
chosen large enough that it is never exhausted on the instances evaluated
in this development. -/
def find_suitable_goal (g : MazeGraph) (start : Coordinates) : Coordinates :=
  bfsLoop g ((g.edgeCount + 1) * (g.edgeCount + 1) * 4 + 4) (g.neighbors start) [] start

/-- Generic generator error (enum GenericGeneratorError in
src/prelude/mod.rs): the only variant is InternalError carrying a message;
there is no invalid-input variant in the source. -/
inductive GenericGeneratorError where
  | InternalError (msg : String)
deriving DecidableEq, Repr

instance {ε α : Type} [DecidableEq ε] [DecidableEq α] :
    DecidableEq (Except ε α) := fun x y =>
  match x, y with
  | .ok a, .ok b =>
      if h : a = b then isTrue (by rw [h])
      else isFalse (by intro hc; cases hc; exact h rfl)
  | .error a, .error b =>
      if h : a = b then isTrue (by rw [h])
      else isFalse (by intro hc; cases hc; exact h rfl)
  | .ok _, .error _ => isFalse (by intro hc; cases hc)
  | .error _, .ok _ => isFalse (by intro hc; cases hc)

/-- are_coordinates_inside as a predicate on an explicit size, used by the
generators through the partially built maze they carry. -/
def insideBounds (w h : Int) (c : Coordinates) : Bool :=
  c.x ≥ 0 && c.x < w && c.y ≥ 0 && c.y < h

/-- The transient working state of PrimsGenerator: the frontier and visited
lists together with the graph of the maze being carved. -/
structure PrimsState where
  frontier : List Coordinates
  visited : List Coordinates
  graph : MazeGraph
deriving DecidableEq, Repr

/-- PrimsGenerator::mark_cell: pushes the cell to visited when absent,
removes its first occurrence from the frontier when present (the source
looks up the position of the cell and removes at that index, which is
exactly erasing the first occurrence; the internal-error branch fires only
when the position lookup fails although contains succeeded), then pushes
every in-bounds neighbour that is in neither the frontier nor visited. -/
def mark_cell (w h : Int) (st : PrimsState) (c : Coordinates) :
    Except GenericGeneratorError PrimsState := do
  let visited := if c ∈ st.visited then st.visited else st.visited ++ [c]
  let frontier ←
    if c ∈ st.frontier then
      match st.frontier.findIdx? (· == c) with
      | some _ => pure (st.frontier.erase c)
      | none =>
          throw (.InternalError "Could not find coordinates in frontier list")
    else pure st.frontier
  let frontier := Direction.all.foldl
    (fun fr d =>
      let n := c.next d
      if insideBounds w h n && ¬ (n ∈ fr) && ¬ (n ∈ visited) then fr ++ [n]
      else fr)
    frontier
  pure ⟨frontier, visited, st.graph⟩

/-- PrimsGenerator::find_visited_neighbours: the in-bounds neighbours of the
cell that are already visited, in direction order. -/
def find_visited_neighbours (w h : Int) (visited : List Coordinates)
    (c : Coordinates) : List Coordinates :=
  Direction.all.foldl
    (fun acc d =>
      let n := c.next d
      if insideBounds w h n && n ∈ visited then acc ++ [n] else acc)
    []

/-- The while loop of PrimsGenerator::carve_passages_from.  One iteration:
choose a random frontier cell, compute its visited neighbours; when some
exist, choose one at random, knock down the wall (add_edge) and mark the
frontier cell; when none exist, the source prints a message and clears the
frontier, which makes the loop exit with Ok and leaves the maze incomplete.
The fuel only bounds the number of iterations; it is chosen large enough to
never be exhausted. -/
def prims_loop (rng : Nat → Nat) (w h : Int) :
    Nat → Nat → PrimsState → Except GenericGeneratorError (Nat × PrimsState)
  | 0, k, st => .ok (k, st)
  | fuel + 1, k, st =>
    if st.frontier.isEmpty then .ok (k, st)
    else
      let next := st.frontier.getD (rng k % st.frontier.length) default
      let nbs := find_visited_neighbours w h st.visited next
      if nbs.isEmpty then
        prims_loop rng w h fuel (k + 1) ⟨[], st.visited, st.graph⟩
      else do
        let ncell := nbs.getD (rng (k + 1) % nbs.length) default
        let st1 : PrimsState := ⟨st.frontier, st.visited, st.graph.add_edge next ncell⟩
        let st2 ← mark_cell w h st1 next
        prims_loop rng w h fuel (k + 2) st2

/-- PrimsGenerator::carve_passages_from: mark the start cell and run the
frontier loop. -/
def carve_passages_from (rng : Nat → Nat) (w h : Int) (fuel k : Nat)
    (st : PrimsState) (start : Coordinates) :
    Except GenericGeneratorError (Nat × PrimsState) := do
  let st1 ← mark_cell w h st start
  prims_loop rng w h fuel k st1

/-- The Generator implementation for PrimsGenerator, assuming the Maze::new
construction succeeded: build a fresh maze of the requested size with start
(0,0), carve, then select the goal with the breadth-first procedure.  No
validation of width or height is performed by the source (Maze::new only
debug_asserts positivity, which release builds compile away); the graph
capacity computation of Maze::new, which can panic, is modelled by
prims_generate_run below. -/
def prims_generate (rng : Nat → Nat) (w h : Int) :
    Except GenericGeneratorError Maze :=
  let start : Coordinates := ⟨0, 0⟩
  match carve_passages_from rng w h ((w * h).toNat + 2) 0 ⟨[], [], []⟩ start with
  | .error e => .error e
  | .ok (_, st) =>
      .ok ⟨st.graph, start, find_suitable_goal st.graph start, (w, h)⟩

/-- A product of i32 values as Rust computes it in release mode: two
sided-complement wraparound into the range from -2^31 inclusive to 2^31
exclusive. -/
def i32_wrap (n : Int) : Int := (n + 2 ^ 31) % 2 ^ 32 - 2 ^ 31

/-- PrimsGenerator::generate including the Maze::new construction: Maze::new
calls GraphMap::with_capacity((width * height) as usize, 0), where the cast
sign-extends the i32 product, so a negative product becomes a capacity of
at least 2^63 on which the arena allocation panics with capacity overflow
(in release builds too).  The panic is modelled as none; for a nonnegative
wrapped product the capacity only preallocates, the allocation is assumed
to succeed and generation proceeds as prims_generate. -/
def prims_generate_run (rng : Nat → Nat) (w h : Int) :
    Option (Except GenericGeneratorError Maze) :=
  if i32_wrap (w * h) < 0 then none
  else some (prims_generate rng w h)

/-- The transient working state of GrowingTreeGenerator: the cell stack and
visited list together with the graph of the maze being carved. -/
structure GtState where
  cellstack : List Coordinates
  visited : List Coordinates
  graph : MazeGraph
deriving DecidableEq, Repr

/-- GrowingTreeGenerator::find_unvisited_neighbours: the in-bounds
neighbours of the cell that are not yet visited, in direction order. -/
def find_unvisited_neighbours (w h : Int) (visited : List Coordinates)
    (c : Coordinates) : List Coordinates :=
  Direction.all.foldl
    (fun acc d =>
      let n := c.next d
      if insideBounds w h n && ¬ (n ∈ visited) then acc ++ [n] else acc)
    []

instance : Inhabited Direction := ⟨.North⟩

/-- The while loop of GrowingTreeGenerator::carve_passages_from.  One
iteration: compute the unvisited neighbours of the current cell; when none
exist, remove the current cell from the stack if present, stop if the stack
became empty, and otherwise select the new current cell according to the
selection method (1: pop the tail, 2: random index without removal, any
other value: remove index 0); when some exist, choose one at random, add the
edge, push it, mark it visited and make it current, tracking the longest
stack and the cell reached at that peak as the goal. -/
def gt_loop (rng : Nat → Nat) (sel : Int) (w h : Int) :
    Nat → Nat → GtState → Coordinates → Coordinates → Nat → GtState × Coordinates
  | 0, _, st, _, goal, _ => (st, goal)
  | fuel + 1, k, st, current, goal, maxq =>
    if st.cellstack.isEmpty then (st, goal)
    else
      let nbs := find_unvisited_neighbours w h st.visited current
      if nbs.isEmpty then
        let stack1 :=
          if current ∈ st.cellstack then st.cellstack.erase current
          else st.cellstack
        if stack1.isEmpty then
          gt_loop rng sel w h fuel k ⟨stack1, st.visited, st.graph⟩ current goal maxq
        else if sel = 1 then
          gt_loop rng sel w h fuel k ⟨stack1.dropLast, st.visited, st.graph⟩
            (stack1.getLastD default) goal maxq
        else if sel = 2 then
          gt_loop rng sel w h fuel (k + 1) ⟨stack1, st.visited, st.graph⟩
            (stack1.getD (rng k % stack1.length) default) goal maxq
        else
          gt_loop rng sel w h fuel k ⟨stack1.tail, st.visited, st.graph⟩
            (stack1.headD default) goal maxq
      else
        let next := nbs.getD (rng k % nbs.length) default
        let graph := st.graph.add_edge current next
        let stack1 := st.cellstack ++ [next]
        let visited := st.visited ++ [next]
        let gm : Coordinates × Nat :=
          if stack1.length > maxq then (next, stack1.length) else (goal, maxq)
        gt_loop rng sel w h fuel (k + 1) ⟨stack1, visited, graph⟩ next gm.1 gm.2

/-- GrowingTreeGenerator::carve_passages_from: clear the stack, push the
start cell, mark it visited, run the loop; returns the final state and the
goal coordinates. -/
def gt_carve_passages_from (rng : Nat → Nat) (sel : Int) (w h : Int)
    (fuel : Nat) (start : Coordinates) : GtState × Coordinates :=
  gt_loop rng sel w h fuel 0 ⟨[start], [start], []⟩ start start 0

/-- The Generator implementation for GrowingTreeGenerator: note that it
returns the Maze directly, with no error channel at all, and that the goal
is the inline peak-stack cell, not a BFS result. -/
def gt_generate (rng : Nat → Nat) (sel : Int) (w h : Int) : Maze :=
  let start : Coordinates := ⟨0, 0⟩
  let r := gt_carve_passages_from rng sel w h (2 * (w * h).toNat + 4) start
  ⟨r.1.graph, start, r.2, (w, h)⟩

/-- The bit-flag passage set of one recursive-backtracking cell (RbField in
src/recursive_backtracking.rs), modelled as the list of open directions in
the order they were added. -/
structure RbField where
  passages : List Direction
deriving DecidableEq, Repr

instance : Inhabited RbField := ⟨⟨[]⟩⟩

/-- RbField::add_passage: set the flag for the direction. -/
def RbField.add_passage (f : RbField) (d : Direction) : RbField :=
  if d ∈ f.passages then f else ⟨f.passages ++ [d]⟩

/-- RbField::is_untouched: no passage flag set. -/
def RbField.is_untouched (f : RbField) : Bool :=
  f.passages.isEmpty

/-- RbField::has_passage. -/
def RbField.has_passage (f : RbField) (d : Direction) : Bool :=
  f.passages.contains d

/-- The recursive-backtracking grid (RbGrid): a row-major vector of fields
of length width times height, with size, start and goal. -/
structure RbGrid where
  size : Int × Int
  start : Coordinates
  goal : Coordinates
  data : List RbField
deriving DecidableEq, Repr

/-- RbGrid::coords2index: y * width + x. -/
def RbGrid.coords2index (grid : RbGrid) (c : Coordinates) : Int :=
  c.y * grid.size.1 + c.x

/-- util::are_coordinates_inside for the grid. -/
def RbGrid.are_coordinates_inside (grid : RbGrid) (c : Coordinates) : Bool :=
  insideBounds grid.size.1 grid.size.2 c

/-- RbGrid::get_field: Ok for in-bounds coordinates (modelled as some),
Err outside. -/
def RbGrid.get_field (grid : RbGrid) (c : Coordinates) : Option RbField :=
  if grid.are_coordinates_inside c then
    some (grid.data.getD (grid.coords2index c).toNat default)
  else none

/-- RbGrid::set_field: replaces the field at the coordinates; the source
panics for out-of-bounds coordinates and every call site passes in-bounds
coordinates. -/
def RbGrid.set_field (grid : RbGrid) (c : Coordinates) (f : RbField) : RbGrid :=
  { grid with data := grid.data.set (grid.coords2index c).toNat f }

/-- Swap two positions of a direction list. -/
def listSwap (l : List Direction) (i j : Nat) : List Direction :=
  let a := l.getD i default
  let b := l.getD j default
  (l.set i b).set j a

/-- Direction::gen_random_order: a Fisher-Yates shuffle of the four
directions; the rand shuffle runs i = 3, 2, 1 and swaps position i with a
uniformly drawn position in 0 .. i.  Returns the shuffled list and the
next draw index. -/
def gen_random_order (rng : Nat → Nat) (k : Nat) : List Direction × Nat :=
  let l1 := listSwap Direction.all 3 (rng k % 4)
  let l2 := listSwap l1 2 (rng (k + 1) % 3)
  let l3 := listSwap l2 1 (rng (k + 2) % 2)
  (l3, k + 3)

/-- RbGenerator::carve_passages_from: iterate over the directions in the
shuffled order; for each direction whose neighbour is inside the grid and
untouched, open the two half-passages and recurse into the neighbour (the
recursive call first draws its own shuffled order).  The fuel bounds the
recursion depth and is chosen large enough to never be exhausted. -/
def rb_carve (rng : Nat → Nat) :
    Nat → List Direction → Nat → RbGrid → Coordinates → Nat × RbGrid
  | 0, _, k, grid, _ => (k, grid)
  | _ + 1, [], k, grid, _ => (k, grid)
  | fuel + 1, d :: ds, k, grid, c =>
    match grid.get_field (c.next d) with
    | some f =>
      if f.is_untouched then
        let grid1 := grid.set_field (c.next d) (f.add_passage d.opposite)
        let cf := (grid1.get_field c).getD default
        let grid2 := grid1.set_field c (cf.add_passage d)
        let dk := gen_random_order rng k
        let r := rb_carve rng fuel dk.1 dk.2 grid2 (c.next d)
        rb_carve rng fuel ds r.1 r.2 c
      else rb_carve rng fuel ds k grid c
    | none => rb_carve rng fuel ds k grid c

/-- The Generator implementation for RbGenerator: build the all-walls grid
with start and goal (0,0) and carve from (0,0); the grid is returned
directly (this generator computes no goal). -/
def rb_generate (rng : Nat → Nat) (w h : Int) : RbGrid :=
  let grid : RbGrid :=
    ⟨(w, h), ⟨0, 0⟩, ⟨0, 0⟩, List.replicate (w.toNat * h.toNat) ⟨[]⟩⟩
  let dk := gen_random_order rng 0
  (rb_carve rng (5 * (w * h).toNat + 5) dk.1 dk.2 grid ⟨0, 0⟩).2

/-- The total number of open half-passages of the grid; each undirected
edge of the connectivity graph contributes two half-passages. -/
def RbGrid.passageTotal (grid : RbGrid) : Nat :=
  (grid.data.map (fun f => f.passages.length)).sum

/-- Adjacency of the recursive-backtracking grid: an open passage from a to
its neighbour b. -/
def RbGrid.Adj (grid : RbGrid) (a b : Coordinates) : Prop :=
  grid.are_coordinates_inside a = true ∧
    ∃ d, b = a.next d ∧
      ((grid.get_field a).getD default).has_passage d = true

/-- Reachability along open passages of the grid. -/
def RbGrid.Reach (grid : RbGrid) (a b : Coordinates) : Prop :=
  Relation.ReflTransGen grid.Adj a b

/-- The per-set state of EllersGenerator (type EllersSet = BTreeSet of
Coordinates), modelled as a duplicate-free list; inserting a missing
element adds it at the head.  The only order-sensitive use of a set is the
iteration over its bottom-most fields, which feeds a uniformly random
choice, so the list order does not affect the family of reachable
behaviours that the universally quantified theorems cover. -/
abbrev EllersSet : Type := List Coordinates

/-- BTreeSet::insert. -/
def setInsert (c : Coordinates) (s : EllersSet) : EllersSet :=
  if c ∈ s then s else c :: s

/-- BTreeSet::union collected into a new set. -/
def setUnion (s1 s2 : EllersSet) : EllersSet :=
  s2.foldl (fun acc c => setInsert c acc) s1

/-- EllersGenerator::join_sets_of_fields: find the sets containing the two
fields (an InternalError when either is in no set), and when they differ,
store their union at the first position, empty the second position, and
record the graph edge.  The source locates each position by searching for
the first set equal to the found set, which is the first set containing the
field. -/
def join_sets_of_fields (sets : List EllersSet) (g : MazeGraph)
    (f1 f2 : Coordinates) :
    Except GenericGeneratorError (List EllersSet × MazeGraph) := do
  let some i1 := sets.findIdx? (fun s => s.contains f1)
    | throw (.InternalError "Expected to find coordinates")
  let some i2 := sets.findIdx? (fun s => s.contains f2)
    | throw (.InternalError "Expected to find coordinates")
  let s1 := sets.getD i1 []
  let s2 := sets.getD i2 []
  if s1 = s2 then pure (sets, g)
  else pure ((sets.set i1 (setUnion s1 s2)).set i2 [], g.add_edge f1 f2)

/-- EllersGenerator::init_fields_first_row: one singleton set per column of
row 0. -/
def init_fields_first_row (w : Int) : List EllersSet :=
  (List.range w.toNat).map (fun (x : Nat) => [(⟨(x : Int), 0⟩ : Coordinates)])

/-- EllersGenerator::randomly_join_fields: left to right over the adjacent
pairs of the current row, draw one boolean each and join on heads. -/
def randomly_join_fields (rng : Nat → Nat) (y : Int) (sets : List EllersSet)
    (g : MazeGraph) (k : Nat) :
    Except GenericGeneratorError (List EllersSet × MazeGraph × Nat) :=
  (List.range (sets.length - 1)).foldlM
    (fun (acc : List EllersSet × MazeGraph × Nat) (ix : Nat) => do
      let (sets, g, k) := acc
      if rng k % 2 = 0 then
        let (sets1, g1) ← join_sets_of_fields sets g ⟨(ix : Int), y⟩ ⟨(ix : Int) + 1, y⟩
        pure (sets1, g1, k + 1)
      else pure (sets, g, k + 1))
    (sets, g, k)

/-- EllersGenerator::create_downward_connections: for every non-empty set,
filter its members on the current row; when that filter is empty the source
computes gen_range(1, 0), which panics in the rand crate (modelled as a
thrown error, since a panic is observably not a normal return); otherwise
the connection count is the literal 1 and one member is chosen uniformly,
its southern neighbour is inserted into the same set and the edge is
recorded. -/
def create_downward_connections (rng : Nat → Nat) (y : Int)
    (sets : List EllersSet) (g : MazeGraph) (k : Nat) :
    Except GenericGeneratorError (List EllersSet × MazeGraph × Nat) :=
  (List.range sets.length).foldlM
    (fun (acc : List EllersSet × MazeGraph × Nat) i => do
      let (sets, g, k) := acc
      let s := sets.getD i []
      if s.isEmpty then pure (sets, g, k)
      else
        let bottom := s.filter (fun c => c.y = y)
        if bottom.isEmpty then
          throw (.InternalError "gen_range called with low >= high")
        else
          let c := bottom.getD (rng k % bottom.length) default
          pure (sets.set i (setInsert (c.next .South) s),
                g.add_edge c (c.next .South), k + 1))
    (sets, g, k)

/-- EllersGenerator::flesh_out_next_row: every coordinate of the next row
not in any set is inserted into the first currently-empty set slot (an
InternalError when no empty slot exists). -/
def flesh_out_next_row (y : Int) (sets : List EllersSet) :
    Except GenericGeneratorError (List EllersSet) :=
  (List.range sets.length).foldlM
    (fun (sets : List EllersSet) (ix : Nat) => do
      let c : Coordinates := ⟨(ix : Int), y + 1⟩
      if sets.any (fun s => s.contains c) then pure sets
      else
        match sets.findIdx? (fun s => s.isEmpty) with
        | some ie => pure (sets.set ie (setInsert c (sets.getD ie [])))
        | none => throw (.InternalError "No empty set found"))
    sets

/-- EllersGenerator::join_last_rows: unconditionally join every adjacent
pair of the last row.  The source iterates 0 .. sets.len() - 1 on usize,
which underflows for an empty set list (width 0); the theorems only
consider width at least 1 where no underflow occurs. -/
def join_last_rows (y : Int) (sets : List EllersSet) (g : MazeGraph) :
    Except GenericGeneratorError (List EllersSet × MazeGraph) :=
  (List.range (sets.length - 1)).foldlM
    (fun (acc : List EllersSet × MazeGraph) (ix : Nat) =>
      join_sets_of_fields acc.1 acc.2 ⟨(ix : Int), y⟩ ⟨(ix : Int) + 1, y⟩)
    (sets, g)

/-- The Generator implementation for EllersGenerator: initialise the first
row, process rows 0 .. height-2, finalise the last row, and wrap the graph
in a maze with start (0,0) and the BFS-selected goal. -/
def ellers_generate (rng : Nat → Nat) (w h : Int) :
    Except GenericGeneratorError Maze := do
  let init : List EllersSet × MazeGraph × Nat := (init_fields_first_row w, [], 0)
  let r ← (List.range (h - 1).toNat).foldlM
    (fun (acc : List EllersSet × MazeGraph × Nat) (y : Nat) => do
      let (sets, g, k) := acc
      let (sets, g, k) ← randomly_join_fields rng (y : Int) sets g k
      let (sets, g, k) ← create_downward_connections rng (y : Int) sets g k
      let sets ← flesh_out_next_row (y : Int) sets
      pure (sets, g, k))
    init
  let r2 ← join_last_rows (h - 1) r.1 r.2.1
  let start : Coordinates := ⟨0, 0⟩
  pure ⟨r2.2, start, find_suitable_goal r2.2 start, (w, h)⟩

/-- The cells of the grid as a duplicate-free list. -/
def cellsList (w h : Int) : List Coordinates :=
  (List.range w.toNat).flatMap
    (fun x => (List.range h.toNat).map (fun y => ⟨Int.ofNat x, Int.ofNat y⟩))

/-- The loop invariant of the frontier loop of Prims algorithm. -/
structure PrimInv (w h : Int) (st : PrimsState) : Prop where
  vis_nodup : st.visited.Nodup
  fr_nodup : st.frontier.Nodup
  start_vis : (⟨0, 0⟩ : Coordinates) ∈ st.visited
  vis_inb : ∀ v ∈ st.visited, insideBounds w h v = true
  fr_inb : ∀ u ∈ st.frontier, insideBounds w h u = true
  fr_unvis : ∀ u ∈ st.frontier, ¬ u ∈ st.visited
  fr_adj : ∀ u ∈ st.frontier, ∃ d, insideBounds w h (u.next d) = true ∧
    u.next d ∈ st.visited
  graph_vis : ∀ e ∈ st.graph, e.1 ∈ st.visited ∧ e.2 ∈ st.visited
  count : st.graph.edgeCount + 1 = st.visited.length
  reach : ∀ v ∈ st.visited, st.graph.Reachable ⟨0, 0⟩ v
  boundary : ∀ u, insideBounds w h u = true → ¬ u ∈ st.visited →
    ∀ d, u.next d ∈ st.visited → u ∈ st.frontier

/-- The field stored at some coordinates, with the all-walls field as the
default outside the grid. -/
def RbGrid.fieldAt (grid : RbGrid) (c : Coordinates) : RbField :=
  (grid.get_field c).getD default

/-- How many fields of the grid still have no passage. -/
def RbGrid.untouchedCount (grid : RbGrid) : Nat :=
  grid.data.countP (fun f => f.is_untouched)

/-- How many fields of the grid have at least one passage. -/
def RbGrid.touchedCount (grid : RbGrid) : Nat :=
  grid.data.countP (fun f => !f.is_untouched)

/-- All in-bounds neighbours of the cell have been carved into. -/
def RbSat (w h : Int) (grid : RbGrid) (u : Coordinates) : Prop :=
  ∀ d, insideBounds w h (u.next d) = true →
    (grid.fieldAt (u.next d)).is_untouched = false

/-- The loop invariant of carve_passages_from: well-formed sizes, symmetric
half-passages pointing at in-bounds cells, every carved cell reachable from
the origin, and the passage count exactly twice the number of carved cells
minus two (an all-walls grid being the degenerate case). -/
structure RbInv (w h : Int) (grid : RbGrid) : Prop where
  size : grid.size = (w, h)
  dlen : grid.data.length = w.toNat * h.toNat
  sym : ∀ c, insideBounds w h c = true → ∀ d,
    (grid.fieldAt c).has_passage d = true →
    insideBounds w h (c.next d) = true ∧
      (grid.fieldAt (c.next d)).has_passage d.opposite = true
  reach : ∀ c, insideBounds w h c = true →
    (grid.fieldAt c).is_untouched = false → grid.Reach ⟨0, 0⟩ c
  zero_case : (grid.fieldAt ⟨0, 0⟩).is_untouched = true →
    grid.touchedCount = 0 ∧ grid.passageTotal = 0
  count2 : (grid.fieldAt ⟨0, 0⟩).is_untouched = false →
    grid.passageTotal + 2 = 2 * grid.touchedCount

/-- The body of the fold of create_downward_connections, as a named
function so that the fold can be reasoned about one step at a time. -/
def downward_step (rng : Nat → Nat) (y : Int)
    (acc : List EllersSet × MazeGraph × Nat) (i : Nat) :
    Except GenericGeneratorError (List EllersSet × MazeGraph × Nat) := do
  let (sets, g, k) := acc
  let s := sets.getD i []
  if s.isEmpty then pure (sets, g, k)
  else
    let bottom := s.filter (fun c => c.y = y)
    if bottom.isEmpty then
      throw (.InternalError "gen_range called with low >= high")
    else
      let c := bottom.getD (rng k % bottom.length) default
      pure (sets.set i (setInsert (c.next .South) s),
            g.add_edge c (c.next .South), k + 1)

/-- The family invariant of the Ellers row state: sets is a width-long list
of slots holding pairwise disjoint duplicate-free sets whose union is
exactly the rows 0..y of the grid, every nonempty slot has a member on row
y, members of one slot are connected in the graph, every edge joins two
members of one slot, and the number of edges plus the number of nonempty
slots equals the number of members. -/
structure EllerInv (w y : Int) (sets : List EllersSet) (g : MazeGraph) :
    Prop where
  len : sets.length = w.toNat
  nodup : ∀ i, i < sets.length → (sets.getD i []).Nodup
  disj : ∀ i j : Nat, i < sets.length → j < sets.length → i ≠ j →
    ∀ c, c ∈ sets.getD i [] → ¬ c ∈ sets.getD j []
  mem_iff : ∀ c : Coordinates,
    (∃ i, i < sets.length ∧ c ∈ sets.getD i []) ↔
      (0 ≤ c.x ∧ c.x < w ∧ 0 ≤ c.y ∧ c.y ≤ y)
  bottom : ∀ i, i < sets.length → sets.getD i [] ≠ [] →
    ∃ c ∈ sets.getD i [], c.y = y
  conn : ∀ i, i < sets.length → ∀ a ∈ sets.getD i [], ∀ b ∈ sets.getD i [],
    g.Reachable a b
  edge_set : ∀ e ∈ g, ∃ i, i < sets.length ∧
    e.1 ∈ sets.getD i [] ∧ e.2 ∈ sets.getD i []
  count : g.edgeCount + (sets.countP (fun s => !s.isEmpty)) =
    (sets.map List.length).sum

/-- The body of the fold of randomly_join_fields, as a named function. -/
def rjf_step (rng : Nat → Nat) (y : Int)
    (acc : List EllersSet × MazeGraph × Nat) (ix : Nat) :
    Except GenericGeneratorError (List EllersSet × MazeGraph × Nat) := do
  let (sets, g, k) := acc
  if rng k % 2 = 0 then
    let (sets1, g1) ← join_sets_of_fields sets g ⟨(ix : Int), y⟩
      ⟨(ix : Int) + 1, y⟩
    pure (sets1, g1, k + 1)
  else pure (sets, g, k + 1)

/-- The body of the fold of join_last_rows, as a named function. -/
def jlr_step (y : Int) (acc : List EllersSet × MazeGraph) (ix : Nat) :
    Except GenericGeneratorError (List EllersSet × MazeGraph) :=
  join_sets_of_fields acc.1 acc.2 ⟨(ix : Int), y⟩ ⟨(ix : Int) + 1, y⟩

/-- The state between the vertical pass and the row fleshing of Ellers
algorithm: like EllerInv at row y except that members may reach into row
y+1, only rows up to y are complete, and nonempty slots hold a row y+1
member. -/
structure EllerMid (w y : Int) (sets : List EllersSet) (g : MazeGraph) :
    Prop where
  len : sets.length = w.toNat
  nodup : ∀ i, i < sets.length → (sets.getD i []).Nodup
  disj : ∀ i j : Nat, i < sets.length → j < sets.length → i ≠ j →
    ∀ c, c ∈ sets.getD i [] → ¬ c ∈ sets.getD j []
  mem_sub : ∀ c : Coordinates, (∃ i, i < sets.length ∧ c ∈ sets.getD i []) →
    (0 ≤ c.x ∧ c.x < w ∧ 0 ≤ c.y ∧ c.y ≤ y + 1)
  mem_sup : ∀ c : Coordinates, (0 ≤ c.x ∧ c.x < w ∧ 0 ≤ c.y ∧ c.y ≤ y) →
    ∃ i, i < sets.length ∧ c ∈ sets.getD i []
  bottom : ∀ i, i < sets.length → sets.getD i [] ≠ [] →
    ∃ c ∈ sets.getD i [], c.y = y + 1
  conn : ∀ i, i < sets.length → ∀ a ∈ sets.getD i [], ∀ b ∈ sets.getD i [],
    g.Reachable a b
  edge_set : ∀ e ∈ g, ∃ i, i < sets.length ∧
    e.1 ∈ sets.getD i [] ∧ e.2 ∈ sets.getD i []
  count : g.edgeCount + (sets.countP (fun s => !s.isEmpty)) =
    (sets.map List.length).sum

/-- The invariant carried through the vertical pass, parametrised by the
list of slot indices still to be processed. -/
structure DownInv (w y : Int) (L : List Nat) (sets : List EllersSet)
    (g : MazeGraph) : Prop where
  len : sets.length = w.toNat
  nodup : ∀ i, i < sets.length → (sets.getD i []).Nodup
  disj : ∀ i j : Nat, i < sets.length → j < sets.length → i ≠ j →
    ∀ c, c ∈ sets.getD i [] → ¬ c ∈ sets.getD j []
  mem_sub : ∀ c : Coordinates, (∃ i, i < sets.length ∧ c ∈ sets.getD i []) →
    (0 ≤ c.x ∧ c.x < w ∧ 0 ≤ c.y ∧ c.y ≤ y + 1)
  mem_sup : ∀ c : Coordinates, (0 ≤ c.x ∧ c.x < w ∧ 0 ≤ c.y ∧ c.y ≤ y) →
    ∃ i, i < sets.length ∧ c ∈ sets.getD i []
  conn : ∀ i, i < sets.length → ∀ a ∈ sets.getD i [], ∀ b ∈ sets.getD i [],
    g.Reachable a b
  edge_set : ∀ e ∈ g, ∃ i, i < sets.length ∧
    e.1 ∈ sets.getD i [] ∧ e.2 ∈ sets.getD i []
  count : g.edgeCount + (sets.countP (fun s => !s.isEmpty)) =
    (sets.map List.length).sum
  unproc : ∀ i ∈ L, ∀ m ∈ sets.getD i [], m.y ≤ y
  shadow : ∀ j, j < sets.length → ∀ m ∈ sets.getD j [], m.y = y + 1 →
    (⟨m.x, y⟩ : Coordinates) ∈ sets.getD j []
  procd : ∀ j, j < sets.length → ¬ j ∈ L → sets.getD j [] ≠ [] →
    ∃ m ∈ sets.getD j [], m.y = y + 1
  row_bot : ∀ i ∈ L, sets.getD i [] ≠ [] → ∃ c ∈ sets.getD i [], c.y = y

/-- The body of the fold of flesh_out_next_row, as a named function. -/
def flesh_step (y : Int) (sets : List EllersSet) (ix : Nat) :
    Except GenericGeneratorError (List EllersSet) := do
  let c : Coordinates := ⟨(ix : Int), y + 1⟩
  if sets.any (fun s => s.contains c) then pure sets
  else
    match sets.findIdx? (fun s => s.isEmpty) with
    | some ie => pure (sets.set ie (setInsert c (sets.getD ie [])))
    | none => throw (.InternalError "No empty set found")

/-- The body of the row loop of the Ellers generator, as a named
function. -/
def ellers_row_fun (rng : Nat → Nat)
    (acc : List EllersSet × MazeGraph × Nat) (y : Nat) :
    Except GenericGeneratorError (List EllersSet × MazeGraph × Nat) := do
  let (sets, g, k) := acc
  let (sets, g, k) ← randomly_join_fields rng (y : Int) sets g k
  let (sets, g, k) ← create_downward_connections rng (y : Int) sets g k
  let sets ← flesh_out_next_row (y : Int) sets
  pure (sets, g, k)

/-- How many in-bounds cells were not yet visited. -/
def gtUnvisited (w h : Int) (visited : List Coordinates) : Nat :=
  (cellsList w h).countP (fun c => !visited.contains c)

/-- The loop invariant of the growing-tree carve loop: visited cells are
duplicate-free and in-bounds, the stack holds visited cells without
duplicates, every visited cell that still has an unvisited in-bounds
neighbour is on the stack, the origin is visited, the carved graph is a
tree on the visited cells (edge count one less than the cell count, all
cells reachable from the origin, all edge ends visited). -/
structure GtInv (w h : Int) (st : GtState) : Prop where
  vnodup : st.visited.Nodup
  vin : ∀ v, v ∈ st.visited → insideBounds w h v = true
  sub : ∀ c, c ∈ st.cellstack → c ∈ st.visited
  snodup : st.cellstack.Nodup
  pinv : ∀ v, v ∈ st.visited →
    ∀ d, insideBounds w h (v.next d) = true → ¬ v.next d ∈ st.visited →
      v ∈ st.cellstack
  start_mem : (⟨0, 0⟩ : Coordinates) ∈ st.visited
  count : st.graph.edgeCount + 1 = st.visited.length
  reach : ∀ v, v ∈ st.visited → st.graph.Reachable ⟨0, 0⟩ v
  epts : ∀ e, e ∈ st.graph → e.1 ∈ st.visited ∧ e.2 ∈ st.visited

theorem contains_edge_symm (g : MazeGraph) (a b : Coordinates) :
    g.contains_edge a b = g.contains_edge b a := by
  unfold MazeGraph.contains_edge
  congr 1
  funext e
  exact decide_eq_decide.mpr or_comm

theorem contains_edge_append (g1 g2 : MazeGraph) (a b : Coordinates) :
    MazeGraph.contains_edge (g1 ++ g2) a b =
      (g1.contains_edge a b || g2.contains_edge a b) := by
  unfold MazeGraph.contains_edge
  exact List.any_append

theorem contains_edge_iff_mem (g : MazeGraph) (a b : Coordinates) :
    g.contains_edge a b = true ↔ ((a, b) ∈ g ∨ (b, a) ∈ g) := by
  unfold MazeGraph.contains_edge
  rw [List.any_eq_true]
  constructor
  · rintro ⟨e, he, hp⟩
    simp only [decide_eq_true_eq] at hp
    rcases hp with ⟨h1, h2⟩ | ⟨h1, h2⟩
    · left; rw [← h1, ← h2, Prod.mk.eta]; exact he
    · right; rw [← h1, ← h2, Prod.mk.eta]; exact he
  · rintro (hm | hm) <;> exact ⟨_, hm, by simp⟩

theorem add_edge_contains (g : MazeGraph) (a b : Coordinates) :
    (g.add_edge a b).contains_edge a b = true := by
  unfold MazeGraph.add_edge
  by_cases hc : g.contains_edge a b = true
  · simp [hc]
  · simp only [hc, Bool.false_eq_true, if_false]
    rw [contains_edge_append]
    have : MazeGraph.contains_edge [(a, b)] a b = true := by
      rw [contains_edge_iff_mem]; left; simp
    simp [this]

theorem contains_edge_add_edge_of (g : MazeGraph) (a b x y : Coordinates)
    (h : g.contains_edge x y = true) :
    (g.add_edge a b).contains_edge x y = true := by
  unfold MazeGraph.add_edge
  by_cases hc : g.contains_edge a b = true
  · simp [hc, h]
  · simp only [hc, Bool.false_eq_true, if_false]
    rw [contains_edge_append, h]
    simp

theorem contains_edge_add_edge_elim (g : MazeGraph) (a b x y : Coordinates)
    (h : (g.add_edge a b).contains_edge x y = true) :
    g.contains_edge x y = true ∨
      ((x = a ∧ y = b) ∨ (x = b ∧ y = a)) := by
  unfold MazeGraph.add_edge at h
  by_cases hc : g.contains_edge a b = true
  · rw [hc] at h; simp at h; exact Or.inl h
  · simp only [hc, Bool.false_eq_true, if_false] at h
    rw [contains_edge_append] at h
    rcases Bool.or_eq_true_iff.mp h with h1 | h1
    · exact Or.inl h1
    · right
      rw [contains_edge_iff_mem] at h1
      rcases h1 with h2 | h2 <;> simp at h2
      · exact Or.inl ⟨h2.1, h2.2⟩
      · exact Or.inr ⟨h2.2, h2.1⟩

theorem mem_add_edge_elim (g : MazeGraph) (a b : Coordinates)
    (e : Coordinates × Coordinates) (h : e ∈ g.add_edge a b) :
    e ∈ g ∨ e = (a, b) := by
  unfold MazeGraph.add_edge at h
  by_cases hc : g.contains_edge a b = true
  · rw [hc] at h; simp at h; exact Or.inl h
  · simp only [hc, Bool.false_eq_true, if_false, List.mem_append,
      List.mem_singleton] at h
    exact h

theorem add_edge_edgeCount (g : MazeGraph) (a b : Coordinates)
    (h : g.contains_edge a b = false) :
    (g.add_edge a b).edgeCount = g.edgeCount + 1 := by
  unfold MazeGraph.add_edge MazeGraph.edgeCount
  rw [h]
  simp

theorem adj_symm (g : MazeGraph) {a b : Coordinates} (h : g.Adj a b) :
    g.Adj b a := by
  unfold MazeGraph.Adj at h ⊢
  rw [contains_edge_symm]
  exact h

theorem reachable_refl (g : MazeGraph) (a : Coordinates) : g.Reachable a a :=
  Relation.ReflTransGen.refl

theorem reachable_symm (g : MazeGraph) {a b : Coordinates}
    (h : g.Reachable a b) : g.Reachable b a := by
  induction h with
  | refl => exact Relation.ReflTransGen.refl
  | tail _ hadj ih =>
      exact Relation.ReflTransGen.trans
        (Relation.ReflTransGen.single (adj_symm g hadj)) ih

theorem reachable_trans (g : MazeGraph) {a b c : Coordinates}
    (h1 : g.Reachable a b) (h2 : g.Reachable b c) : g.Reachable a c :=
  Relation.ReflTransGen.trans h1 h2

theorem reachable_add_edge_of (g : MazeGraph) (a b : Coordinates)
    {x y : Coordinates} (h : g.Reachable x y) :
    (g.add_edge a b).Reachable x y := by
  induction h with
  | refl => exact Relation.ReflTransGen.refl
  | tail _ hadj ih =>
      exact Relation.ReflTransGen.tail ih
        (contains_edge_add_edge_of g a b _ _ hadj)

theorem reachable_add_edge_new (g : MazeGraph) (a b : Coordinates) :
    (g.add_edge a b).Reachable a b :=
  Relation.ReflTransGen.single (add_edge_contains g a b)

theorem insideBounds_iff (w h : Int) (c : Coordinates) :
    insideBounds w h c = true ↔
      (0 ≤ c.x ∧ c.x < w ∧ 0 ≤ c.y ∧ c.y < h) := by
  simp [insideBounds, Bool.and_eq_true, decide_eq_true_eq, and_assoc, ge_iff_le]

theorem next_opposite (c : Coordinates) (d : Direction) :
    (c.next d).next d.opposite = c := by
  cases d <;> (unfold Coordinates.next Direction.opposite; cases c; simp)

theorem insideBounds_mk (w h a b : Int) :
    insideBounds w h ⟨a, b⟩ = true ↔ (0 ≤ a ∧ a < w ∧ 0 ≤ b ∧ b < h) :=
  insideBounds_iff w h ⟨a, b⟩

theorem mem_cellsList (w h : Int) (c : Coordinates) :
    c ∈ cellsList w h ↔ insideBounds w h c = true := by
  obtain ⟨cx, cy⟩ := c
  rw [insideBounds_iff]
  unfold cellsList
  simp only [List.mem_flatMap, List.mem_map, List.mem_range,
    Coordinates.mk.injEq]
  constructor
  · rintro ⟨x, hx, y, hy, hxx, hyy⟩
    rw [Int.ofNat_eq_natCast] at hxx
    rw [Int.ofNat_eq_natCast] at hyy
    refine ⟨?_, ?_, ?_, ?_⟩ <;> omega
  · rintro ⟨h1, h2, h3, h4⟩
    refine ⟨cx.toNat, by omega, cy.toNat, by omega, ?_, ?_⟩ <;>
      rw [Int.ofNat_eq_natCast] <;> omega

theorem nodup_map_range (n : Nat) (g : Nat → Coordinates)
    (hg : ∀ a b : Nat, g a = g b → a = b) :
    ((List.range n).map g).Nodup :=
  (List.nodup_range n).map hg

theorem cellsList_nodup (w h : Int) : (cellsList w h).Nodup := by
  unfold cellsList
  rw [List.nodup_flatMap]
  constructor
  · intro x _
    refine nodup_map_range _ _ ?_
    intro a b hab
    have h2 := congrArg Coordinates.y hab
    simp only [Int.ofNat_eq_natCast] at h2
    exact_mod_cast h2
  · have hp : (List.range w.toNat).Pairwise (· < ·) := List.pairwise_lt_range _
    refine hp.imp ?_
    intro x1 x2 hlt c hc1 hc2
    simp only [List.mem_map, List.mem_range] at hc1 hc2
    obtain ⟨y1, _, rfl⟩ := hc1
    obtain ⟨y2, _, hc⟩ := hc2
    have h2 := congrArg Coordinates.x hc
    simp only [Int.ofNat_eq_natCast] at h2
    omega

theorem length_flatMap_range {α : Type} (f : Nat → List α) (m : Nat)
    (hf : ∀ x, (f x).length = m) :
    ∀ n, ((List.range n).flatMap f).length = n * m := by
  intro n
  induction n with
  | zero => simp
  | succ k ih =>
      rw [List.range_succ, List.flatMap_append, List.length_append, ih]
      simp [hf]
      ring

theorem cellsList_length (w h : Int) :
    (cellsList w h).length = w.toNat * h.toNat := by
  unfold cellsList
  exact length_flatMap_range _ h.toNat (fun x => by simp) w.toNat

theorem Direction.mem_all (d : Direction) : d ∈ Direction.all := by
  cases d <;> decide

/-- A set of cells containing the origin and closed under taking in-bounds
neighbours contains every in-bounds cell: the grid graph is connected. -/
theorem grid_closure (w h : Int) (S : Coordinates → Prop) (h0 : S ⟨0, 0⟩)
    (hstep : ∀ c, insideBounds w h c = true → S c →
      ∀ d, insideBounds w h (c.next d) = true → S (c.next d)) :
    ∀ c, insideBounds w h c = true → S c := by
  have key : ∀ n : Nat, ∀ cx cy : Int, 0 ≤ cx → cx < w → 0 ≤ cy → cy < h →
      (cx + cy).toNat = n → S ⟨cx, cy⟩ := by
    intro n
    induction n using Nat.strong_induction_on with
    | _ n ih =>
      intro cx cy h1 h2 h3 h4 hn
      by_cases hy0 : cy = 0
      · by_cases hx0 : cx = 0
        · subst hx0; subst hy0; exact h0
        · have hpred : S ⟨cx - 1, cy⟩ := by
            apply ih (cx - 1 + cy).toNat (by omega) (cx - 1) cy <;> first
              | omega
              | rfl
          have hnext : (⟨cx - 1, cy⟩ : Coordinates).next .East = ⟨cx, cy⟩ := by
            simp only [Coordinates.next, Coordinates.mk.injEq]
            omega
          have hr := hstep ⟨cx - 1, cy⟩
            (by rw [insideBounds_mk]; exact ⟨by omega, by omega, h3, h4⟩)
            hpred Direction.East
            (by rw [hnext, insideBounds_mk]; exact ⟨h1, h2, h3, h4⟩)
          rwa [hnext] at hr
      · have hpred : S ⟨cx, cy - 1⟩ := by
          apply ih (cx + (cy - 1)).toNat (by omega) cx (cy - 1) <;> first
            | omega
            | rfl
        have hnext : (⟨cx, cy - 1⟩ : Coordinates).next .South = ⟨cx, cy⟩ := by
          simp only [Coordinates.next, Coordinates.mk.injEq]
          omega
        have hr := hstep ⟨cx, cy - 1⟩
          (by rw [insideBounds_mk]; exact ⟨h1, h2, by omega, by omega⟩)
          hpred Direction.South
          (by rw [hnext, insideBounds_mk]; exact ⟨h1, h2, h3, h4⟩)
        rwa [hnext] at hr
  intro c hc
  obtain ⟨cx, cy⟩ := c
  rw [insideBounds_iff] at hc
  exact key (cx + cy).toNat cx cy hc.1 hc.2.1 hc.2.2.1 hc.2.2.2 rfl

theorem nodup_subset_length_le (l1 l2 : List Coordinates) (h1 : l1.Nodup)
    (hsub : l1 ⊆ l2) : l1.length ≤ l2.length :=
  (h1.subperm hsub).length_le

theorem nodup_both_subset_length_eq (l1 l2 : List Coordinates)
    (h1 : l1.Nodup) (h2 : l2.Nodup) (hs1 : l1 ⊆ l2) (hs2 : l2 ⊆ l1) :
    l1.length = l2.length :=
  Nat.le_antisymm (nodup_subset_length_le l1 l2 h1 hs1)
    (nodup_subset_length_le l2 l1 h2 hs2)

theorem getD_mem_of_lt (l : List Coordinates) (i : Nat) (d : Coordinates)
    (h : i < l.length) : l.getD i d ∈ l := by
  rw [List.getD_eq_getElem l d h]
  exact List.getElem_mem h

theorem mem_find_visited_neighbours (w h : Int) (vis : List Coordinates)
    (c u : Coordinates) :
    u ∈ find_visited_neighbours w h vis c ↔
      (∃ d, u = c.next d) ∧ insideBounds w h u = true ∧ u ∈ vis := by
  unfold find_visited_neighbours
  have key : ∀ (ds : List Direction) (acc : List Coordinates),
      u ∈ ds.foldl (fun acc d =>
        let n := c.next d
        if insideBounds w h n && n ∈ vis then acc ++ [n] else acc) acc ↔
      u ∈ acc ∨ ((∃ d ∈ ds, u = c.next d) ∧ insideBounds w h u = true ∧ u ∈ vis) := by
    intro ds
    induction ds with
    | nil => intro acc; simp
    | cons d ds ihd =>
        intro acc
        rw [List.foldl_cons, ihd]
        simp only [List.mem_cons]
        by_cases hcond : (insideBounds w h (c.next d) && (c.next d) ∈ vis) = true
        · simp only [hcond, if_true, List.mem_append, List.mem_singleton]
          rcases Bool.and_eq_true_iff.mp hcond with ⟨hb1, hb2⟩
          constructor
          · rintro ((hu | rfl) | hrest)
            · exact Or.inl hu
            · exact Or.inr ⟨⟨d, Or.inl rfl, rfl⟩, hb1, by simpa using hb2⟩
            · obtain ⟨⟨d2, hd2, hud⟩, hi, hv⟩ := hrest
              exact Or.inr ⟨⟨d2, Or.inr hd2, hud⟩, hi, hv⟩
          · rintro (hu | ⟨⟨d2, (rfl | hd2), hud⟩, hi, hv⟩)
            · exact Or.inl (Or.inl hu)
            · exact Or.inl (Or.inr hud)
            · exact Or.inr ⟨⟨d2, hd2, hud⟩, hi, hv⟩
        · simp only [hcond, if_false]
          constructor
          · rintro (hu | hrest)
            · exact Or.inl hu
            · obtain ⟨⟨d2, hd2, hud⟩, hi, hv⟩ := hrest
              exact Or.inr ⟨⟨d2, Or.inr hd2, hud⟩, hi, hv⟩
          · rintro (hu | ⟨⟨d2, (rfl | hd2), hud⟩, hi, hv⟩)
            · exact Or.inl hu
            · exfalso
              apply hcond
              rw [Bool.and_eq_true_iff]
              subst hud
              exact ⟨hi, by simpa using hv⟩
            · exact Or.inr ⟨⟨d2, hd2, hud⟩, hi, hv⟩
  rw [key Direction.all []]
  simp only [List.not_mem_nil, false_or]
  constructor
  · rintro ⟨⟨d, _, hud⟩, hi, hv⟩
    exact ⟨⟨d, hud⟩, hi, hv⟩
  · rintro ⟨⟨d, hud⟩, hi, hv⟩
    exact ⟨⟨d, Direction.mem_all d, hud⟩, hi, hv⟩

theorem nodup_append_singleton (l : List Coordinates) (n : Coordinates)
    (h1 : l.Nodup) (h2 : ¬ n ∈ l) : (l ++ [n]).Nodup := by
  rw [List.nodup_append]
  refine ⟨h1, List.nodup_singleton n, ?_⟩
  intro a ha hb
  rw [List.mem_singleton] at hb
  subst hb
  exact h2 ha

theorem findIdx_some_of_mem (l : List Coordinates) (c : Coordinates)
    (h : c ∈ l) : ∃ i, l.findIdx? (· == c) = some i := by
  induction l with
  | nil => cases h
  | cons a as ih =>
      rw [List.findIdx?_cons]
      by_cases hac : a == c
      · exact ⟨0, by simp [hac]⟩
      · simp only [hac, Bool.false_eq_true, if_false]
        rcases List.mem_cons.mp h with rfl | hmem
        · simp at hac
        · obtain ⟨i, hi⟩ := ih hmem
          exact ⟨i + 1, by simp [hi]⟩

theorem mark_fold_mono (w h : Int) (vis : List Coordinates) (c : Coordinates) :
    ∀ (ds : List Direction) (fr : List Coordinates),
      fr ⊆ ds.foldl (fun fr d =>
        let n := c.next d
        if insideBounds w h n && ¬ (n ∈ fr) && ¬ (n ∈ vis) then fr ++ [n]
        else fr) fr := by
  intro ds
  induction ds with
  | nil => intro fr u hu; exact hu
  | cons d ds ih =>
      intro fr u hu
      rw [List.foldl_cons]
      apply ih
      dsimp only
      by_cases hcond : (insideBounds w h (c.next d) && ¬ ((c.next d) ∈ fr) &&
          ¬ ((c.next d) ∈ vis)) = true
      · rw [if_pos hcond]; exact List.mem_append_left _ hu
      · rw [if_neg (by simpa using hcond)]; exact hu

theorem mark_fold_mem (w h : Int) (vis : List Coordinates) (c : Coordinates) :
    ∀ (ds : List Direction) (fr : List Coordinates) (u : Coordinates),
      u ∈ ds.foldl (fun fr d =>
        let n := c.next d
        if insideBounds w h n && ¬ (n ∈ fr) && ¬ (n ∈ vis) then fr ++ [n]
        else fr) fr ↔
      u ∈ fr ∨ (∃ d ∈ ds, u = c.next d ∧ insideBounds w h u = true ∧ ¬ u ∈ vis) := by
  intro ds
  induction ds with
  | nil => intro fr u; simp
  | cons d ds ih =>
      intro fr u
      rw [List.foldl_cons]
      dsimp only
      constructor
      · intro hu
        rcases (ih _ u).mp hu with hstep | ⟨d2, hd2, hud, hin, hnv⟩
        · by_cases hcond : (insideBounds w h (c.next d) && ¬ ((c.next d) ∈ fr)
              && ¬ ((c.next d) ∈ vis)) = true
          · rw [if_pos hcond] at hstep
            rcases List.mem_append.mp hstep with hfr | hn
            · exact Or.inl hfr
            · rw [List.mem_singleton] at hn
              subst hn
              rcases Bool.and_eq_true_iff.mp hcond with ⟨hc1, hc3⟩
              rcases Bool.and_eq_true_iff.mp hc1 with ⟨hc1a, _⟩
              refine Or.inr ⟨d, List.mem_cons_self d ds, rfl, hc1a, ?_⟩
              simpa using hc3
          · rw [if_neg (by simpa using hcond)] at hstep
            exact Or.inl hstep
        · exact Or.inr ⟨d2, List.mem_cons_of_mem d hd2, hud, hin, hnv⟩
      · intro hu
        rcases hu with hfr | ⟨d2, hd2, hud, hin, hnv⟩
        · apply (ih _ u).mpr
          left
          by_cases hcond : (insideBounds w h (c.next d) && ¬ ((c.next d) ∈ fr)
              && ¬ ((c.next d) ∈ vis)) = true
          · rw [if_pos hcond]; exact List.mem_append_left _ hfr
          · rw [if_neg (by simpa using hcond)]; exact hfr
        · rcases List.mem_cons.mp hd2 with rfl | hd2tail
          · by_cases hufr : u ∈ fr
            · apply (ih _ u).mpr
              left
              by_cases hcond : (insideBounds w h (c.next d2) && ¬ ((c.next d2) ∈ fr)
                  && ¬ ((c.next d2) ∈ vis)) = true
              · rw [← hud, if_pos (by rw [← hud] at hcond; exact hcond)]
                exact List.mem_append_left _ hufr
              · rw [← hud, if_neg (by rw [← hud] at hcond; simpa using hcond)]
                exact hufr
            · have hcond : (insideBounds w h (c.next d2) && ¬ ((c.next d2) ∈ fr)
                  && ¬ ((c.next d2) ∈ vis)) = true := by
                rw [← hud]
                rw [Bool.and_eq_true_iff, Bool.and_eq_true_iff]
                refine ⟨⟨hin, ?_⟩, ?_⟩ <;> simp [hufr, hnv]
              apply (ih _ u).mpr
              left
              rw [← hud, if_pos (by rw [← hud] at hcond; exact hcond)]
              exact List.mem_append_right _ (List.mem_singleton_self u)
          · apply (ih _ u).mpr
            exact Or.inr ⟨d2, hd2tail, hud, hin, hnv⟩

theorem mark_fold_nodup (w h : Int) (vis : List Coordinates) (c : Coordinates) :
    ∀ (ds : List Direction) (fr : List Coordinates), fr.Nodup →
      (ds.foldl (fun fr d =>
        let n := c.next d
        if insideBounds w h n && ¬ (n ∈ fr) && ¬ (n ∈ vis) then fr ++ [n]
        else fr) fr).Nodup := by
  intro ds
  induction ds with
  | nil => intro fr hnd; exact hnd
  | cons d ds ih =>
      intro fr hnd
      rw [List.foldl_cons]
      apply ih
      dsimp only
      by_cases hcond : (insideBounds w h (c.next d) && ¬ ((c.next d) ∈ fr) &&
          ¬ ((c.next d) ∈ vis)) = true
      · rw [if_pos hcond]
        rcases Bool.and_eq_true_iff.mp hcond with ⟨hc1, _⟩
        rcases Bool.and_eq_true_iff.mp hc1 with ⟨_, hc2⟩
        exact nodup_append_singleton fr _ hnd (by simpa using hc2)
      · rw [if_neg (by simpa using hcond)]
        exact hnd

theorem mark_cell_spec (w h : Int) (st : PrimsState) (c : Coordinates)
    (hcf : c ∈ st.frontier) (hcv : ¬ c ∈ st.visited)
    (hnd : st.frontier.Nodup) :
    ∃ st', mark_cell w h st c = .ok st' ∧
      st'.visited = st.visited ++ [c] ∧
      st'.graph = st.graph ∧
      st'.frontier.Nodup ∧
      (∀ u, u ∈ st'.frontier ↔ u ∈ st.frontier.erase c ∨
        (insideBounds w h u = true ∧ ¬ u ∈ st.visited ++ [c] ∧ ∃ d, u = c.next d)) := by
  obtain ⟨i, hi⟩ := findIdx_some_of_mem st.frontier c hcf
  unfold mark_cell
  simp only [hcv, if_neg, if_false, hcf, if_pos, if_true, hi]
  refine ⟨_, rfl, rfl, rfl, ?_, ?_⟩
  · exact mark_fold_nodup w h _ c Direction.all _ (hnd.erase c)
  · intro u
    rw [mark_fold_mem w h _ c Direction.all _ u]
    constructor
    · rintro (hu | ⟨d2, _, hud, hin, hnv⟩)
      · exact Or.inl hu
      · exact Or.inr ⟨hin, hnv, d2, hud⟩
    · rintro (hu | ⟨hin, hnv, d2, hud⟩)
      · exact Or.inl hu
      · exact Or.inr ⟨d2, Direction.mem_all d2, hud, hin, hnv⟩

theorem visited_le_cells (w h : Int) (st : PrimsState) (inv : PrimInv w h st) :
    st.visited.length ≤ w.toNat * h.toNat := by
  have hle := nodup_subset_length_le st.visited (cellsList w h) inv.vis_nodup
    (fun u hu => (mem_cellsList w h u).mpr (inv.vis_inb u hu))
  rwa [cellsList_length] at hle

theorem prims_loop_spec (rng : Nat → Nat) (w h : Int) :
    ∀ (fuel k : Nat) (st : PrimsState), PrimInv w h st →
      w.toNat * h.toNat + 1 ≤ fuel + st.visited.length →
      ∃ k' st', prims_loop rng w h fuel k st = .ok (k', st') ∧
        PrimInv w h st' ∧ st'.frontier = [] := by
  intro fuel
  induction fuel with
  | zero =>
      intro k st inv hbound
      exfalso
      have hle := visited_le_cells w h st inv
      omega
  | succ fuel ih =>
      intro k st inv hbound
      by_cases hfr : st.frontier.isEmpty = true
      · refine ⟨k, st, ?_, inv, List.isEmpty_iff.mp hfr⟩
        unfold prims_loop
        rw [hfr]
        simp
      · have hfrne : st.frontier ≠ [] := by
          intro hc; rw [hc] at hfr; exact hfr rfl
        have hlen : 0 < st.frontier.length := List.length_pos.mpr hfrne
        set next := st.frontier.getD (rng k % st.frontier.length) default with hnext
        have hnextmem : next ∈ st.frontier :=
          getD_mem_of_lt _ _ _ (Nat.mod_lt _ hlen)
        have hnext_inb : insideBounds w h next = true := inv.fr_inb next hnextmem
        have hnext_unvis : ¬ next ∈ st.visited := inv.fr_unvis next hnextmem
        obtain ⟨dw, hdw_in, hdw_vis⟩ := inv.fr_adj next hnextmem
        set nbs := find_visited_neighbours w h st.visited next with hnbs
        have hnbsne : nbs ≠ [] := by
          intro hc
          have : next.next dw ∈ nbs :=
            (mem_find_visited_neighbours w h st.visited next _).mpr
              ⟨⟨dw, rfl⟩, hdw_in, hdw_vis⟩
          rw [hc] at this
          cases this
        have hnbslen : 0 < nbs.length := List.length_pos.mpr hnbsne
        have hnbs_empty : nbs.isEmpty = false := by
          cases hbe : nbs.isEmpty
          · rfl
          · exact absurd (List.isEmpty_iff.mp hbe) hnbsne
        set ncell := nbs.getD (rng (k + 1) % nbs.length) default with hncell
        have hncellmem : ncell ∈ nbs := getD_mem_of_lt _ _ _ (Nat.mod_lt _ hnbslen)
        obtain ⟨⟨dn, hdn⟩, hncell_inb, hncell_vis⟩ :=
          (mem_find_visited_neighbours w h st.visited next ncell).mp hncellmem
        have hfresh : st.graph.contains_edge next ncell = false := by
          cases hce : st.graph.contains_edge next ncell
          · rfl
          · exfalso
            rcases (contains_edge_iff_mem _ _ _).mp hce with hm | hm
            · exact hnext_unvis (inv.graph_vis _ hm).1
            · exact hnext_unvis (inv.graph_vis _ hm).2
        set g2 : MazeGraph := st.graph.add_edge next ncell with hg2
        set st1 : PrimsState := ⟨st.frontier, st.visited, g2⟩ with hst1
        obtain ⟨st2, hmark, hvis2, hgr2, hnd2, hmem2⟩ :=
          mark_cell_spec w h st1 next hnextmem hnext_unvis inv.fr_nodup
        have inv2 : PrimInv w h st2 := by
          have hvis2' : st2.visited = st.visited ++ [next] := hvis2
          have hgr2' : st2.graph = g2 := hgr2
          refine ⟨?_, hnd2, ?_, ?_, ?_, ?_, ?_, ?_, ?_, ?_, ?_⟩
          · rw [hvis2']
            exact nodup_append_singleton _ _ inv.vis_nodup hnext_unvis
          · rw [hvis2']
            exact List.mem_append_left _ inv.start_vis
          · rw [hvis2']
            intro v hv
            rcases List.mem_append.mp hv with hv | hv
            · exact inv.vis_inb v hv
            · rw [List.mem_singleton] at hv
              subst hv
              exact hnext_inb
          · intro u hu
            rcases (hmem2 u).mp hu with hu1 | ⟨hin, _, _⟩
            · exact inv.fr_inb u (List.erase_subset _ _ hu1)
            · exact hin
          · intro u hu
            rw [hvis2']
            rcases (hmem2 u).mp hu with hu1 | ⟨_, hnv, _⟩
            · have hne : u ≠ next := by
                intro hc
                subst hc
                exact (inv.fr_nodup.not_mem_erase) hu1
              have humem : u ∈ st.frontier := List.erase_subset _ _ hu1
              intro hc
              rcases List.mem_append.mp hc with hc1 | hc1
              · exact inv.fr_unvis u humem hc1
              · rw [List.mem_singleton] at hc1
                exact hne hc1
            · exact hnv
          · intro u hu
            rw [hvis2']
            rcases (hmem2 u).mp hu with hu1 | ⟨hin, hnv, d2, hud⟩
            · obtain ⟨d3, hd3i, hd3v⟩ := inv.fr_adj u (List.erase_subset _ _ hu1)
              exact ⟨d3, hd3i, List.mem_append_left _ hd3v⟩
            · refine ⟨d2.opposite, ?_, ?_⟩
              · rw [hud, next_opposite]
                exact hnext_inb
              · rw [hud, next_opposite]
                exact List.mem_append_right _ (List.mem_singleton_self next)
          · intro e he
            rw [hvis2']
            rw [hgr2'] at he
            rcases mem_add_edge_elim _ _ _ _ he with he1 | he1
            · obtain ⟨h1, h2⟩ := inv.graph_vis e he1
              exact ⟨List.mem_append_left _ h1, List.mem_append_left _ h2⟩
            · subst he1
              exact ⟨List.mem_append_right _ (List.mem_singleton_self next),
                List.mem_append_left _ hncell_vis⟩
          · rw [hvis2', hgr2', hg2]
            rw [add_edge_edgeCount _ _ _ hfresh, List.length_append]
            simp only [List.length_singleton]
            have hcount := inv.count
            omega
          · intro v hv
            rw [hgr2', hg2]
            rw [hvis2'] at hv
            rcases List.mem_append.mp hv with hv1 | hv1
            · exact reachable_add_edge_of _ _ _ (inv.reach v hv1)
            · rw [List.mem_singleton] at hv1
              subst hv1
              refine reachable_trans _
                (reachable_add_edge_of _ _ _ (inv.reach ncell hncell_vis)) ?_
              exact reachable_symm _ (reachable_add_edge_new st.graph next ncell)
          · intro u hin hunv d hud
            rw [hvis2'] at hud hunv
            have hune : u ≠ next := by
              intro hc
              subst hc
              exact hunv (List.mem_append_right _ (List.mem_singleton_self next))
            rcases List.mem_append.mp hud with hv1 | hv1
            · have hold : u ∈ st.frontier := by
                apply inv.boundary u hin ?_ d hv1
                intro hc
                exact hunv (List.mem_append_left _ hc)
              apply (hmem2 u).mpr
              left
              exact (List.mem_erase_of_ne hune).mpr hold
            · rw [List.mem_singleton] at hv1
              apply (hmem2 u).mpr
              by_cases hufr : u ∈ st.frontier
              · left
                exact (List.mem_erase_of_ne hune).mpr hufr
              · right
                refine ⟨hin, hunv, d.opposite, ?_⟩
                rw [← hv1, next_opposite]
        have hstep : prims_loop rng w h (fuel + 1) k st =
            prims_loop rng w h fuel (k + 2) st2 := by
          rw [prims_loop]
          rw [if_neg hfr]
          simp only [← hnext, ← hnbs, hnbs_empty, Bool.false_eq_true, if_false,
            ← hncell]
          rw [← hg2, ← hst1, hmark]
          rfl
        rw [hstep]
        apply ih (k + 2) st2 inv2
        rw [hvis2, List.length_append]
        simp only [List.length_singleton]
        omega

theorem mark_cell_init (w h : Int) (c : Coordinates) :
    ∃ fr, mark_cell w h ⟨[], [], []⟩ c = .ok ⟨fr, [c], []⟩ ∧
      fr.Nodup ∧
      (∀ u, u ∈ fr ↔ insideBounds w h u = true ∧ ¬ u ∈ [c] ∧
        ∃ d, u = c.next d) := by
  refine ⟨Direction.all.foldl (fun fr d =>
      let n := c.next d
      if insideBounds w h n && ¬ (n ∈ fr) && ¬ (n ∈ [c]) then fr ++ [n]
      else fr) [], ?_, ?_, ?_⟩
  · rfl
  · exact mark_fold_nodup w h [c] c Direction.all [] List.nodup_nil
  · intro u
    rw [mark_fold_mem w h [c] c Direction.all [] u]
    simp only [List.not_mem_nil, false_or]
    constructor
    · rintro ⟨d, _, hud, hin, hnv⟩
      exact ⟨hin, hnv, d, hud⟩
    · rintro ⟨hin, hnv, d, hud⟩
      exact ⟨d, Direction.mem_all d, hud, hin, hnv⟩

theorem prims_carve_spec (rng : Nat → Nat) (w h : Int) (hw : 0 < w)
    (hh : 0 < h) (fuel k : Nat) (hfuel : w.toNat * h.toNat ≤ fuel) :
    ∃ k' st', carve_passages_from rng w h fuel k ⟨[], [], []⟩ ⟨0, 0⟩ =
        .ok (k', st') ∧
      st'.graph.edgeCount + 1 = w.toNat * h.toNat ∧
      (∀ c, insideBounds w h c = true → c ∈ st'.visited) ∧
      (∀ v ∈ st'.visited, insideBounds w h v = true) ∧
      (∀ c, insideBounds w h c = true → st'.graph.Reachable ⟨0, 0⟩ c) := by
  have hstart_inb : insideBounds w h ⟨0, 0⟩ = true := by
    rw [insideBounds_mk]
    omega
  obtain ⟨fr, hmc, hnd, hmem⟩ := mark_cell_init w h ⟨0, 0⟩
  have inv1 : PrimInv w h ⟨fr, [⟨0, 0⟩], []⟩ := by
    refine ⟨List.nodup_singleton _, hnd, List.mem_singleton_self _,
      ?_, ?_, ?_, ?_, ?_, rfl, ?_, ?_⟩
    · intro v hv
      rw [List.mem_singleton] at hv
      subst hv
      exact hstart_inb
    · intro u hu
      exact ((hmem u).mp hu).1
    · intro u hu
      exact ((hmem u).mp hu).2.1
    · intro u hu
      obtain ⟨_, _, d, hud⟩ := (hmem u).mp hu
      refine ⟨d.opposite, ?_, ?_⟩
      · rw [hud, next_opposite]
        exact hstart_inb
      · rw [hud, next_opposite]
        exact List.mem_singleton_self _
    · intro e he
      cases he
    · intro v hv
      rw [List.mem_singleton] at hv
      subst hv
      exact reachable_refl _ _
    · intro u hin hunv d hud
      rw [List.mem_singleton] at hud
      apply (hmem u).mpr
      refine ⟨hin, hunv, d.opposite, ?_⟩
      rw [← hud, next_opposite]
  obtain ⟨k', st', hloop, inv', hfr'⟩ :=
    prims_loop_spec rng w h fuel k ⟨fr, [⟨0, 0⟩], []⟩ inv1 (by
      simp only [List.length_singleton]
      omega)
  have hcarve : carve_passages_from rng w h fuel k ⟨[], [], []⟩ ⟨0, 0⟩ =
      .ok (k', st') := by
    unfold carve_passages_from
    rw [hmc]
    exact hloop
  have hall : ∀ c, insideBounds w h c = true → c ∈ st'.visited := by
    apply grid_closure w h (fun c => c ∈ st'.visited) inv'.start_vis
    intro c hcin hcv d hdin
    by_contra hdv
    have hfr := inv'.boundary (c.next d) hdin hdv d.opposite
      (by rw [next_opposite]; exact hcv)
    rw [hfr'] at hfr
    cases hfr
  have hlen : st'.visited.length = w.toNat * h.toNat := by
    have := nodup_both_subset_length_eq st'.visited (cellsList w h)
      inv'.vis_nodup (cellsList_nodup w h)
      (fun u hu => (mem_cellsList w h u).mpr (inv'.vis_inb u hu))
      (fun u hu => hall u ((mem_cellsList w h u).mp hu))
    rwa [cellsList_length] at this
  refine ⟨k', st', hcarve, ?_, hall, inv'.vis_inb, ?_⟩
  · rw [inv'.count, hlen]
  · intro c hc
    exact inv'.reach c (hall c hc)

theorem int_toNat_mul (w h : Int) (hw : 0 ≤ w) (hh : 0 ≤ h) :
    (w * h).toNat = w.toNat * h.toNat := by
  have hw2 : w = (w.toNat : Int) := (Int.toNat_of_nonneg hw).symm
  have hh2 : h = (h.toNat : Int) := (Int.toNat_of_nonneg hh).symm
  conv_lhs => rw [hw2, hh2]
  rw [← Int.natCast_mul]
  exact Int.toNat_natCast _

/-- Prims generate on a positive size succeeds and returns a spanning tree
on the grid rooted at the start: exactly width*height minus one edges, every
in-bounds cell reachable from the start through the graph. -/
theorem prims_generate_spec (rng : Nat → Nat) (w h : Int) (hw : 0 < w)
    (hh : 0 < h) :
    ∃ m, prims_generate rng w h = .ok m ∧
      m.start = ⟨0, 0⟩ ∧ m.size = (w, h) ∧
      m.graph.edgeCount + 1 = w.toNat * h.toNat ∧
      (∀ c, insideBounds w h c = true → m.graph.Reachable ⟨0, 0⟩ c) ∧
      m.goal = find_suitable_goal m.graph ⟨0, 0⟩ := by
  have hfuel : w.toNat * h.toNat ≤ (w * h).toNat + 2 := by
    rw [int_toNat_mul w h (le_of_lt hw) (le_of_lt hh)]
    omega
  obtain ⟨k', st', hcarve, hcount, hall, hvinb, hreach⟩ :=
    prims_carve_spec rng w h hw hh ((w * h).toNat + 2) 0 hfuel
  refine ⟨⟨st'.graph, ⟨0, 0⟩, find_suitable_goal st'.graph ⟨0, 0⟩, (w, h)⟩,
    ?_, rfl, rfl, hcount, hreach, rfl⟩
  unfold prims_generate
  simp only [hcarve]

theorem getD_set_self {α : Type} {dflt : α} (l : List α) (i : Nat) (a : α)
    (hi : i < l.length) : (l.set i a).getD i dflt = a := by
  induction l generalizing i with
  | nil => cases hi
  | cons x xs ih =>
      cases i with
      | zero => rfl
      | succ j =>
          simp only [List.set_cons_succ, List.getD_cons_succ]
          exact ih j (by simpa using hi)

theorem getD_set_ne {α : Type} {dflt : α} (l : List α) (i j : Nat) (a : α)
    (hne : i ≠ j) : (l.set i a).getD j dflt = l.getD j dflt := by
  induction l generalizing i j with
  | nil => simp [List.set_nil]
  | cons x xs ih =>
      cases i with
      | zero =>
          cases j with
          | zero => exact absurd rfl hne
          | succ j2 => rfl
      | succ i2 =>
          cases j with
          | zero => rfl
          | succ j2 =>
              simp only [List.set_cons_succ, List.getD_cons_succ]
              exact ih i2 j2 (by intro hc; exact hne (by rw [hc]))

theorem setInsert_mem (c : Coordinates) (s : EllersSet) (x : Coordinates) :
    x ∈ setInsert c s ↔ x = c ∨ x ∈ s := by
  unfold setInsert
  by_cases hc : c ∈ s
  · rw [if_pos hc]
    constructor
    · exact fun hx => Or.inr hx
    · rintro (rfl | hx)
      · exact hc
      · exact hx
  · rw [if_neg hc, List.mem_cons]

theorem mem_getD_of_lt_length {α : Type} {dflt : α} (l : List α) (i : Nat)
    (hi : i < l.length) : l.getD i dflt ∈ l := by
  rw [List.getD_eq_getElem l dflt hi]
  exact List.getElem_mem hi

theorem opposite_opposite (d : Direction) : d.opposite.opposite = d := by
  cases d <;> rfl

theorem next_ne (c : Coordinates) (d : Direction) : c.next d ≠ c := by
  intro hc
  have hx := congrArg Coordinates.x hc
  have hy := congrArg Coordinates.y hc
  unfold Coordinates.next at hx hy
  cases d <;> simp at hx hy

theorem has_passage_iff_mem (f : RbField) (d : Direction) :
    f.has_passage d = true ↔ d ∈ f.passages := by
  unfold RbField.has_passage
  simp

theorem untouched_false_iff (f : RbField) :
    f.is_untouched = false ↔ ∃ d, f.has_passage d = true := by
  unfold RbField.is_untouched
  constructor
  · intro h
    rcases hp : f.passages with _ | ⟨d, rest⟩
    · rw [hp] at h; simp at h
    · exact ⟨d, by rw [has_passage_iff_mem, hp]; exact List.mem_cons_self d rest⟩
  · rintro ⟨d, hd⟩
    rw [has_passage_iff_mem] at hd
    rcases hp : f.passages with _ | _
    · rw [hp] at hd; cases hd
    · simp

theorem add_passage_mem (f : RbField) (d d2 : Direction) :
    (f.add_passage d).has_passage d2 = true ↔
      (d2 = d ∨ f.has_passage d2 = true) := by
  unfold RbField.add_passage
  by_cases hd : d ∈ f.passages
  · rw [if_pos hd]
    constructor
    · exact fun h => Or.inr h
    · rintro (rfl | h)
      · rw [has_passage_iff_mem]; exact hd
      · exact h
  · rw [if_neg hd]
    rw [has_passage_iff_mem, has_passage_iff_mem]
    simp [List.mem_append, or_comm]

theorem add_passage_passages (f : RbField) (d : Direction)
    (h : f.has_passage d = false) :
    (f.add_passage d).passages = f.passages ++ [d] := by
  unfold RbField.add_passage
  rw [if_neg]
  intro hc
  have h2 := (has_passage_iff_mem f d).mpr hc
  rw [h] at h2
  cases h2

theorem coords2index_bounds (w h : Int) (c : Coordinates)
    (hc : insideBounds w h c = true) :
    0 ≤ c.y * w + c.x ∧ c.y * w + c.x < w * h := by
  rw [insideBounds_iff] at hc
  obtain ⟨h1, h2, h3, h4⟩ := hc
  constructor
  · have hyw : 0 ≤ c.y * w := mul_nonneg h3 (by omega)
    omega
  · have e1 : (c.y + 1) * w = c.y * w + w := by ring
    have e2 : (c.y + 1) * w ≤ h * w := by
      apply mul_le_mul_of_nonneg_right
      · omega
      · omega
    have e3 : h * w = w * h := by ring
    omega

theorem coords2index_inj (w h : Int) (a b : Coordinates)
    (ha : insideBounds w h a = true) (hb : insideBounds w h b = true)
    (heq : a.y * w + a.x = b.y * w + b.x) : a = b := by
  rw [insideBounds_iff] at ha hb
  obtain ⟨ha1, ha2, ha3, ha4⟩ := ha
  obtain ⟨hb1, hb2, hb3, hb4⟩ := hb
  have hy : a.y = b.y := by
    by_contra hne
    rcases lt_or_gt_of_ne hne with hlt | hlt
    · have e1 : (a.y + 1) * w = a.y * w + w := by ring
      have e2 : (a.y + 1) * w ≤ b.y * w := by
        apply mul_le_mul_of_nonneg_right <;> omega
      omega
    · have e1 : (b.y + 1) * w = b.y * w + w := by ring
      have e2 : (b.y + 1) * w ≤ a.y * w := by
        apply mul_le_mul_of_nonneg_right <;> omega
      omega
  have hx : a.x = b.x := by
    have hw2 : a.y * w = b.y * w := by rw [hy]
    omega
  cases a; cases b
  simp only [Coordinates.mk.injEq]
  exact ⟨hx, hy⟩

theorem index_lt_len (w h : Int) (grid : RbGrid)
    (hlen : grid.data.length = w.toNat * h.toNat) (c : Coordinates)
    (hc : insideBounds w h c = true) :
    (c.y * w + c.x).toNat < grid.data.length := by
  obtain ⟨hnn, hlt⟩ := coords2index_bounds w h c hc
  have hnneg : 0 ≤ w := by
    rw [insideBounds_iff] at hc; omega
  have hhneg : 0 ≤ h := by
    rw [insideBounds_iff] at hc; omega
  have := int_toNat_mul w h hnneg hhneg
  omega

theorem fieldAt_eq (w h : Int) (grid : RbGrid) (hsz : grid.size = (w, h))
    (c : Coordinates) (hc : insideBounds w h c = true) :
    grid.fieldAt c = grid.data.getD (c.y * w + c.x).toNat default := by
  unfold RbGrid.fieldAt RbGrid.get_field RbGrid.are_coordinates_inside
  rw [hsz]
  rw [if_pos hc]
  unfold RbGrid.coords2index
  rw [hsz]
  rfl

theorem set_field_size (grid : RbGrid) (c : Coordinates) (f : RbField) :
    (grid.set_field c f).size = grid.size := rfl

theorem set_field_dlen (grid : RbGrid) (c : Coordinates) (f : RbField) :
    (grid.set_field c f).data.length = grid.data.length := by
  unfold RbGrid.set_field
  simp

theorem fieldAt_set_self (w h : Int) (grid : RbGrid)
    (hsz : grid.size = (w, h)) (hlen : grid.data.length = w.toNat * h.toNat)
    (c : Coordinates) (hc : insideBounds w h c = true) (f : RbField) :
    (grid.set_field c f).fieldAt c = f := by
  rw [fieldAt_eq w h _ (by rw [set_field_size]; exact hsz) c hc]
  unfold RbGrid.set_field RbGrid.coords2index
  simp only
  rw [hsz]
  simp only
  exact getD_set_self _ _ _ (index_lt_len w h grid hlen c hc)

theorem fieldAt_set_other (w h : Int) (grid : RbGrid)
    (hsz : grid.size = (w, h)) (c u : Coordinates)
    (hc : insideBounds w h c = true) (hu : insideBounds w h u = true)
    (hne : u ≠ c) (f : RbField) :
    (grid.set_field c f).fieldAt u = grid.fieldAt u := by
  rw [fieldAt_eq w h _ (by rw [set_field_size]; exact hsz) u hu,
    fieldAt_eq w h grid hsz u hu]
  unfold RbGrid.set_field RbGrid.coords2index
  simp only
  rw [hsz]
  simp only
  apply getD_set_ne
  intro hcon
  apply hne
  apply coords2index_inj w h u c hu hc
  obtain ⟨hnnc, _⟩ := coords2index_bounds w h c hc
  obtain ⟨hnnu, _⟩ := coords2index_bounds w h u hu
  omega

theorem fieldAt_set_out (w h : Int) (grid : RbGrid)
    (hsz : grid.size = (w, h)) (c u : Coordinates)
    (hu : insideBounds w h u = false) (f : RbField) :
    (grid.set_field c f).fieldAt u = grid.fieldAt u := by
  unfold RbGrid.fieldAt RbGrid.get_field RbGrid.are_coordinates_inside
  rw [set_field_size, hsz]
  simp only
  rw [hu]
  simp

theorem get_field_eq_some (w h : Int) (grid : RbGrid)
    (hsz : grid.size = (w, h)) (c : Coordinates)
    (hc : insideBounds w h c = true) :
    grid.get_field c = some (grid.fieldAt c) := by
  unfold RbGrid.fieldAt RbGrid.get_field RbGrid.are_coordinates_inside
  rw [hsz]
  simp only
  rw [if_pos hc]
  simp

theorem get_field_eq_none (w h : Int) (grid : RbGrid)
    (hsz : grid.size = (w, h)) (c : Coordinates)
    (hc : insideBounds w h c = false) :
    grid.get_field c = none := by
  unfold RbGrid.get_field RbGrid.are_coordinates_inside
  rw [hsz]
  simp only
  rw [hc]
  simp

theorem rb_adj_of (w h : Int) (grid : RbGrid) (hsz : grid.size = (w, h))
    (a : Coordinates) (ha : insideBounds w h a = true) (d : Direction)
    (hp : (grid.fieldAt a).has_passage d = true) :
    grid.Adj a (a.next d) := by
  refine ⟨?_, d, rfl, hp⟩
  unfold RbGrid.are_coordinates_inside
  rw [hsz]
  exact ha

theorem rb_reach_mono (g1 g2 : RbGrid) (hsz : g2.size = g1.size)
    (hmono : ∀ u d, (g1.fieldAt u).has_passage d = true →
      (g2.fieldAt u).has_passage d = true) :
    ∀ a b, g1.Reach a b → g2.Reach a b := by
  intro a b hr
  refine Relation.ReflTransGen.mono ?_ hr
  rintro u v ⟨hin, d, rfl, hp⟩
  refine ⟨?_, d, rfl, hmono u d hp⟩
  unfold RbGrid.are_coordinates_inside at hin ⊢
  rw [hsz]
  exact hin

theorem rb_sum_set (l : List RbField) :
    ∀ (i : Nat) (f : RbField), i < l.length →
      ((l.set i f).map (fun x => x.passages.length)).sum +
          (l.getD i default).passages.length =
        (l.map (fun x => x.passages.length)).sum + f.passages.length := by
  induction l with
  | nil => intro i f hi; cases hi
  | cons x xs ih =>
      intro i f hi
      cases i with
      | zero => simp [List.set_cons_zero, List.getD_cons_zero]; omega
      | succ j =>
          simp only [List.set_cons_succ, List.getD_cons_succ, List.map_cons,
            List.sum_cons]
          have := ih j f (by simpa using hi)
          omega

theorem rb_countP_set (l : List RbField) (p : RbField → Bool) :
    ∀ (i : Nat) (f : RbField), i < l.length →
      (l.set i f).countP p + (if p (l.getD i default) then 1 else 0) =
        l.countP p + (if p f then 1 else 0) := by
  induction l with
  | nil => intro i f hi; cases hi
  | cons x xs ih =>
      intro i f hi
      cases i with
      | zero =>
          simp only [List.set_cons_zero, List.getD_cons_zero,
            List.countP_cons]
          by_cases hx : p x <;> by_cases hf : p f <;> simp [hx, hf] <;> omega
      | succ j =>
          simp only [List.set_cons_succ, List.getD_cons_succ,
            List.countP_cons]
          have := ih j f (by simpa using hi)
          simp only [List.getD_eq_getElem?_getD] at this ⊢
          by_cases hx : p x <;> simp [hx] <;> omega

theorem touched_countP_pos (w h : Int) (grid : RbGrid)
    (hsz : grid.size = (w, h)) (hlen : grid.data.length = w.toNat * h.toNat)
    (c : Coordinates) (hc : insideBounds w h c = true)
    (ht : (grid.fieldAt c).is_untouched = false) :
    0 < grid.touchedCount := by
  unfold RbGrid.touchedCount
  rw [List.countP_pos]
  refine ⟨grid.fieldAt c, ?_, by simp [ht]⟩
  rw [fieldAt_eq w h grid hsz c hc]
  exact mem_getD_of_lt_length _ _ (index_lt_len w h grid hlen c hc)

theorem gen_random_order_length (rng : Nat → Nat) (k : Nat) :
    (gen_random_order rng k).1.length = 4 := by
  unfold gen_random_order listSwap
  simp [Direction.all]

theorem gen_random_order_mem (rng : Nat → Nat) (k : Nat) (d : Direction) :
    d ∈ (gen_random_order rng k).1 := by
  unfold gen_random_order
  have h1 : rng k % 4 = 0 ∨ rng k % 4 = 1 ∨ rng k % 4 = 2 ∨ rng k % 4 = 3 := by
    omega
  have h2 : rng (k + 1) % 3 = 0 ∨ rng (k + 1) % 3 = 1 ∨ rng (k + 1) % 3 = 2 := by
    omega
  have h3 : rng (k + 2) % 2 = 0 ∨ rng (k + 2) % 2 = 1 := by omega
  rcases h1 with h1 | h1 | h1 | h1 <;> rcases h2 with h2 | h2 | h2 <;>
    rcases h3 with h3 | h3 <;> rw [h1, h2, h3] <;> dsimp only <;> cases d <;>
    decide

theorem rb_carve_nil (rng : Nat → Nat) (fuel : Nat) (k : Nat)
    (grid : RbGrid) (c : Coordinates) :
    rb_carve rng (fuel + 1) [] k grid c = (k, grid) := rfl

theorem rb_carve_none (rng : Nat → Nat) (fuel : Nat) (d : Direction)
    (ds : List Direction) (k : Nat) (grid : RbGrid) (c : Coordinates)
    (hgf : grid.get_field (c.next d) = none) :
    rb_carve rng (fuel + 1) (d :: ds) k grid c =
      rb_carve rng fuel ds k grid c := by
  rw [rb_carve, hgf]

theorem rb_carve_skip (rng : Nat → Nat) (fuel : Nat) (d : Direction)
    (ds : List Direction) (k : Nat) (grid : RbGrid) (c : Coordinates)
    (f : RbField) (hgf : grid.get_field (c.next d) = some f)
    (hft : f.is_untouched = false) :
    rb_carve rng (fuel + 1) (d :: ds) k grid c =
      rb_carve rng fuel ds k grid c := by
  rw [rb_carve, hgf]
  dsimp only
  rw [if_neg (by simp [hft])]

theorem rb_carve_go (rng : Nat → Nat) (fuel : Nat) (d : Direction)
    (ds : List Direction) (k : Nat) (grid : RbGrid) (c : Coordinates)
    (f : RbField) (hgf : grid.get_field (c.next d) = some f)
    (hft : f.is_untouched = true) :
    rb_carve rng (fuel + 1) (d :: ds) k grid c =
      (let grid1 := grid.set_field (c.next d) (f.add_passage d.opposite)
       let grid2 := grid1.set_field c
         (((grid1.get_field c).getD default).add_passage d)
       let r := rb_carve rng fuel (gen_random_order rng k).1
         (gen_random_order rng k).2 grid2 (c.next d)
       rb_carve rng fuel ds r.1 r.2 c) := by
  rw [rb_carve, hgf]
  dsimp only
  rw [if_pos hft]

theorem rb_carve_spec (rng : Nat → Nat) (w h : Int) :
    ∀ (fuel : Nat) (A : Coordinates → Prop) (ds : List Direction) (k : Nat)
      (grid : RbGrid) (c : Coordinates),
      RbInv w h grid →
      insideBounds w h c = true →
      A c →
      (c = ⟨0, 0⟩ ∨ (grid.fieldAt c).is_untouched = false) →
      (∀ u, insideBounds w h u = true →
        (grid.fieldAt u).is_untouched = false → A u ∨ RbSat w h grid u) →
      5 * grid.untouchedCount + ds.length + 1 ≤ fuel →
      RbInv w h (rb_carve rng fuel ds k grid c).2 ∧
        (∀ u d2, (grid.fieldAt u).has_passage d2 = true →
          ((rb_carve rng fuel ds k grid c).2.fieldAt u).has_passage d2
            = true) ∧
        (rb_carve rng fuel ds k grid c).2.untouchedCount
          ≤ grid.untouchedCount ∧
        (∀ d2, d2 ∈ ds → insideBounds w h (c.next d2) = true →
          ((rb_carve rng fuel ds k grid c).2.fieldAt (c.next d2)).is_untouched
            = false) ∧
        (∀ u, insideBounds w h u = true →
          ((rb_carve rng fuel ds k grid c).2.fieldAt u).is_untouched = false →
          A u ∨ RbSat w h (rb_carve rng fuel ds k grid c).2 u) := by
  intro fuel
  induction fuel with
  | zero =>
      intro A ds k grid c hinv hc hA hcs hH1 hfuel
      exact absurd hfuel (by omega)
  | succ fuel ih =>
      intro A ds k grid c hinv hc hA hcs hH1 hfuel
      cases ds with
      | nil =>
          rw [rb_carve_nil]
          exact ⟨hinv, fun u d2 hp => hp, le_refl _,
            fun d2 hd2 => absurd hd2 (List.not_mem_nil d2), hH1⟩
      | cons d ds =>
          have hfuel2 : 5 * grid.untouchedCount + ds.length + 1 ≤ fuel := by
            simp only [List.length_cons] at hfuel
            omega
          rcases hgf : grid.get_field (c.next d) with _ | f
          · -- the neighbour is outside the grid
            rw [rb_carve_none rng fuel d ds k grid c hgf]
            have hnb : insideBounds w h (c.next d) = false := by
              rcases hx : insideBounds w h (c.next d) with _ | _
              · rfl
              · rw [get_field_eq_some w h grid hinv.size _ hx] at hgf
                cases hgf
            obtain ⟨hi1, hi2, hi3, hi4, hi5⟩ :=
              ih A ds k grid c hinv hc hA hcs hH1 hfuel2
            refine ⟨hi1, hi2, hi3, ?_, hi5⟩
            intro d2 hd2 hin
            rcases List.mem_cons.mp hd2 with rfl | hmem
            · rw [hnb] at hin; cases hin
            · exact hi4 d2 hmem hin
          · rcases hft : f.is_untouched with _ | _
            · -- the neighbour was already carved into
              rw [rb_carve_skip rng fuel d ds k grid c f hgf hft]
              have hnb : insideBounds w h (c.next d) = true := by
                rcases hx : insideBounds w h (c.next d) with _ | _
                · rw [get_field_eq_none w h grid hinv.size _ hx] at hgf
                  cases hgf
                · rfl
              have hfeq : grid.fieldAt (c.next d) = f := by
                have h2 := get_field_eq_some w h grid hinv.size (c.next d) hnb
                rw [hgf] at h2
                exact (Option.some_inj.mp h2).symm
              obtain ⟨hi1, hi2, hi3, hi4, hi5⟩ :=
                ih A ds k grid c hinv hc hA hcs hH1 hfuel2
              refine ⟨hi1, hi2, hi3, ?_, hi5⟩
              intro d2 hd2 hin
              rcases List.mem_cons.mp hd2 with rfl | hmem
              · obtain ⟨d3, hd3⟩ := (untouched_false_iff f).mp hft
                rw [untouched_false_iff]
                exact ⟨d3, hi2 _ d3 (by rw [hfeq]; exact hd3)⟩
              · exact hi4 d2 hmem hin
            · -- the untouched neighbour: carve and recurse
              have hnb : insideBounds w h (c.next d) = true := by
                rcases hx : insideBounds w h (c.next d) with _ | _
                · rw [get_field_eq_none w h grid hinv.size _ hx] at hgf
                  cases hgf
                · rfl
              have hfeq : grid.fieldAt (c.next d) = f := by
                have h2 := get_field_eq_some w h grid hinv.size (c.next d) hnb
                rw [hgf] at h2
                exact (Option.some_inj.mp h2).symm
              set n := c.next d with hn
              have hnec : n ≠ c := by rw [hn]; exact next_ne c d
              have hcne : c ≠ n := fun e => hnec e.symm
              set grid1 := grid.set_field n (f.add_passage d.opposite) with hg1
              set cf := (grid1.get_field c).getD default with hcf
              set grid2 := grid1.set_field c (cf.add_passage d) with hg2
              set dk := gen_random_order rng k with hdk
              have hstep : rb_carve rng (fuel + 1) (d :: ds) k grid c =
                  rb_carve rng fuel ds
                    (rb_carve rng fuel dk.1 dk.2 grid2 n).1
                    (rb_carve rng fuel dk.1 dk.2 grid2 n).2 c :=
                rb_carve_go rng fuel d ds k grid c f hgf hft
              have hsz1 : grid1.size = (w, h) := by
                rw [hg1, set_field_size]; exact hinv.size
              have hlen1 : grid1.data.length = w.toNat * h.toNat := by
                rw [hg1, set_field_dlen]; exact hinv.dlen
              have hsz2 : grid2.size = (w, h) := by
                rw [hg2, set_field_size]; exact hsz1
              have hlen2 : grid2.data.length = w.toNat * h.toNat := by
                rw [hg2, set_field_dlen]; exact hlen1
              have hfp : f.passages = [] := by
                unfold RbField.is_untouched at hft
                rcases hp : f.passages with _ | ⟨a, l⟩
                · rfl
                · rw [hp] at hft; simp at hft
              have hfadd : f.add_passage d.opposite = ⟨[d.opposite]⟩ := by
                unfold RbField.add_passage
                rw [hfp]
                simp
              have hcf_eq : cf = grid.fieldAt c := by
                rw [hcf]
                show grid1.fieldAt c = grid.fieldAt c
                rw [hg1]
                exact fieldAt_set_other w h grid hinv.size n c hnb hc hcne _
              have hf1_n : grid1.fieldAt n = f.add_passage d.opposite := by
                rw [hg1]
                exact fieldAt_set_self w h grid hinv.size hinv.dlen n hnb _
              have hf2_n : grid2.fieldAt n = f.add_passage d.opposite := by
                rw [hg2]
                rw [fieldAt_set_other w h grid1 hsz1 c n hc hnb hnec _]
                exact hf1_n
              have hf2_c : grid2.fieldAt c = cf.add_passage d := by
                rw [hg2]
                exact fieldAt_set_self w h grid1 hsz1 hlen1 c hc _
              have hf2_other : ∀ u, u ≠ c → u ≠ n →
                  grid2.fieldAt u = grid.fieldAt u := by
                intro u hu1 hu2
                by_cases hub : insideBounds w h u = true
                · rw [hg2, fieldAt_set_other w h grid1 hsz1 c u hc hub hu1 _,
                    hg1, fieldAt_set_other w h grid hinv.size n u hnb hub hu2 _]
                · have hub2 : insideBounds w h u = false := by
                    rcases hx : insideBounds w h u with _ | _
                    · rfl
                    · exact absurd hx hub
                  rw [hg2, fieldAt_set_out w h grid1 hsz1 c u hub2 _,
                    hg1, fieldAt_set_out w h grid hinv.size n u hub2 _]
              have hcd : (grid.fieldAt c).has_passage d = false := by
                rcases hx : (grid.fieldAt c).has_passage d with _ | _
                · rfl
                · exfalso
                  have hsym := hinv.sym c hc d hx
                  have ht2 : (grid.fieldAt n).is_untouched = false := by
                    rw [untouched_false_iff]
                    refine ⟨d.opposite, ?_⟩
                    rw [hn]
                    exact hsym.2
                  rw [hfeq, hft] at ht2
                  cases ht2
              have hcfd : cf.has_passage d = false := by
                rw [hcf_eq]; exact hcd
              have hcf2_pass : (cf.add_passage d).passages =
                  cf.passages ++ [d] := add_passage_passages cf d hcfd
              have hn2_t : (grid2.fieldAt n).is_untouched = false := by
                rw [hf2_n, hfadd]; rfl
              have hc2_t : (grid2.fieldAt c).is_untouched = false := by
                rw [hf2_c, untouched_false_iff]
                exact ⟨d, by rw [add_passage_mem]; exact Or.inl rfl⟩
              have hmono2 : ∀ u d2, (grid.fieldAt u).has_passage d2 = true →
                  (grid2.fieldAt u).has_passage d2 = true := by
                intro u d2 hp
                by_cases hu1 : u = c
                · rw [hu1] at hp ⊢
                  rw [hf2_c, add_passage_mem]
                  exact Or.inr (by rw [hcf_eq]; exact hp)
                · by_cases hu2 : u = n
                  · rw [hu2] at hp
                    rw [hfeq] at hp
                    unfold RbField.has_passage at hp
                    rw [hfp] at hp
                    simp at hp
                  · rw [hf2_other u hu1 hu2]
                    exact hp
              have hidx_n : (n.y * w + n.x).toNat < grid.data.length :=
                index_lt_len w h grid hinv.dlen n hnb
              have hidx_c1 : (c.y * w + c.x).toNat < grid1.data.length :=
                index_lt_len w h grid1 hlen1 c hc
              have hdata1 : grid1.data = grid.data.set (n.y * w + n.x).toNat
                  (f.add_passage d.opposite) := by
                rw [hg1]
                show grid.data.set (grid.coords2index n).toNat _ = _
                unfold RbGrid.coords2index
                rw [hinv.size]
              have hdata2 : grid2.data = grid1.data.set (c.y * w + c.x).toNat
                  (cf.add_passage d) := by
                rw [hg2]
                show grid1.data.set (grid1.coords2index c).toNat _ = _
                unfold RbGrid.coords2index
                rw [hsz1]
              have hgd_n : grid.data.getD (n.y * w + n.x).toNat default
                  = f := by
                rw [← fieldAt_eq w h grid hinv.size n hnb]
                exact hfeq
              have hgd_c1 : grid1.data.getD (c.y * w + c.x).toNat default
                  = cf := by
                rw [← fieldAt_eq w h grid1 hsz1 c hc]
                exact hcf.symm
              have hnewc_t : (cf.add_passage d).is_untouched = false := by
                unfold RbField.is_untouched
                rw [hcf2_pass]
                simp
              have hnf_t : (f.add_passage d.opposite).is_untouched = false := by
                rw [hfadd]; rfl
              have hpt2e : grid2.passageTotal = grid.passageTotal + 2 := by
                have h1 := rb_sum_set grid.data (n.y * w + n.x).toNat
                  (f.add_passage d.opposite) hidx_n
                rw [hgd_n] at h1
                have h2 := rb_sum_set grid1.data (c.y * w + c.x).toNat
                  (cf.add_passage d) hidx_c1
                rw [hgd_c1] at h2
                have hl0 : f.passages.length = 0 := by rw [hfp]; rfl
                have hl1 : (f.add_passage d.opposite).passages.length = 1 := by
                  simp [hfadd]
                have hlc : (cf.add_passage d).passages.length =
                    cf.passages.length + 1 := by
                  rw [hcf2_pass]; simp
                unfold RbGrid.passageTotal
                rw [hdata2, hdata1]
                rw [hdata1] at h2
                omega
              have huc1 : grid1.untouchedCount + 1 = grid.untouchedCount := by
                have h1 := rb_countP_set grid.data (fun f2 => f2.is_untouched)
                  (n.y * w + n.x).toNat (f.add_passage d.opposite) hidx_n
                rw [hgd_n] at h1
                simp only [hft, hnf_t] at h1
                norm_num at h1
                unfold RbGrid.untouchedCount
                rw [hdata1]
                omega
              have htc1 : grid1.touchedCount = grid.touchedCount + 1 := by
                have h1 := rb_countP_set grid.data (fun f2 => !f2.is_untouched)
                  (n.y * w + n.x).toNat (f.add_passage d.opposite) hidx_n
                rw [hgd_n] at h1
                simp only [hft, hnf_t] at h1
                norm_num at h1
                unfold RbGrid.touchedCount
                rw [hdata1]
                omega
              have huc2a : cf.is_untouched = true →
                  grid2.untouchedCount + 1 = grid1.untouchedCount := by
                intro hcu
                have h1 := rb_countP_set grid1.data (fun f2 => f2.is_untouched)
                  (c.y * w + c.x).toNat (cf.add_passage d) hidx_c1
                rw [hgd_c1] at h1
                simp only [hcu, hnewc_t] at h1
                norm_num at h1
                unfold RbGrid.untouchedCount
                rw [hdata2]
                omega
              have huc2b : cf.is_untouched = false →
                  grid2.untouchedCount = grid1.untouchedCount := by
                intro hcu
                have h1 := rb_countP_set grid1.data (fun f2 => f2.is_untouched)
                  (c.y * w + c.x).toNat (cf.add_passage d) hidx_c1
                rw [hgd_c1] at h1
                simp only [hcu, hnewc_t] at h1
                norm_num at h1
                unfold RbGrid.untouchedCount
                rw [hdata2]
                omega
              have htc2a : cf.is_untouched = true →
                  grid2.touchedCount = grid1.touchedCount + 1 := by
                intro hcu
                have h1 := rb_countP_set grid1.data (fun f2 => !f2.is_untouched)
                  (c.y * w + c.x).toNat (cf.add_passage d) hidx_c1
                rw [hgd_c1] at h1
                simp only [hcu, hnewc_t] at h1
                norm_num at h1
                unfold RbGrid.touchedCount
                rw [hdata2]
                omega
              have htc2b : cf.is_untouched = false →
                  grid2.touchedCount = grid1.touchedCount := by
                intro hcu
                have h1 := rb_countP_set grid1.data (fun f2 => !f2.is_untouched)
                  (c.y * w + c.x).toNat (cf.add_passage d) hidx_c1
                rw [hgd_c1] at h1
                simp only [hcu, hnewc_t] at h1
                norm_num at h1
                unfold RbGrid.touchedCount
                rw [hdata2]
                omega
              have huc2le : grid2.untouchedCount + 1 ≤ grid.untouchedCount := by
                rcases hcu : cf.is_untouched with _ | _
                · have := huc2b hcu; omega
                · have := huc2a hcu; omega
              have hstart2 : (grid2.fieldAt ⟨0, 0⟩).is_untouched = false := by
                by_cases hsc : c = ⟨0, 0⟩
                · rw [← hsc]; exact hc2_t
                · rcases hcs with hc0 | hct
                  · exact absurd hc0 hsc
                  · rcases hx : (grid.fieldAt ⟨0, 0⟩).is_untouched with _ | _
                    · obtain ⟨d3, hd3⟩ := (untouched_false_iff _).mp hx
                      rw [untouched_false_iff]
                      exact ⟨d3, hmono2 _ _ hd3⟩
                    · exfalso
                      have hz := hinv.zero_case hx
                      have hpos := touched_countP_pos w h grid hinv.size
                        hinv.dlen c hc hct
                      omega
              have hcount2 : grid2.passageTotal + 2 = 2 * grid2.touchedCount := by
                rcases hcu : cf.is_untouched with _ | _
                · have ht2 := htc2b hcu
                  have hct : (grid.fieldAt c).is_untouched = false := by
                    rw [← hcf_eq]; exact hcu
                  have hst_g : (grid.fieldAt ⟨0, 0⟩).is_untouched = false := by
                    rcases hx : (grid.fieldAt ⟨0, 0⟩).is_untouched with _ | _
                    · rfl
                    · exfalso
                      have hz := hinv.zero_case hx
                      have hpos := touched_countP_pos w h grid hinv.size
                        hinv.dlen c hc hct
                      omega
                  have hc2g := hinv.count2 hst_g
                  omega
                · have ht2 := htc2a hcu
                  have hc0 : c = ⟨0, 0⟩ := by
                    rcases hcs with h0 | hct
                    · exact h0
                    · exfalso
                      rw [← hcf_eq] at hct
                      rw [hcu] at hct
                      cases hct
                  have hz := hinv.zero_case (by rw [← hc0, ← hcf_eq]; exact hcu)
                  omega
              have hinv2 : RbInv w h grid2 := by
                refine ⟨hsz2, hlen2, ?_, ?_, ?_, ?_⟩
                · intro u hu d2 hp
                  by_cases hu1 : u = c
                  · rw [hu1] at hp ⊢
                    rw [hf2_c, add_passage_mem] at hp
                    rcases hp with rfl | hp
                    · refine ⟨by rw [← hn]; exact hnb, ?_⟩
                      rw [← hn, hf2_n, hfadd]
                      rw [has_passage_iff_mem]
                      simp
                    · have hs := hinv.sym c hc d2 (by rw [← hcf_eq]; exact hp)
                      exact ⟨hs.1, hmono2 _ _ hs.2⟩
                  · by_cases hu2 : u = n
                    · rw [hu2] at hp ⊢
                      rw [hf2_n, hfadd] at hp
                      have hd2 : d2 = d.opposite := by
                        rw [has_passage_iff_mem] at hp
                        simpa using hp
                      rw [hd2]
                      have hnoc : n.next d.opposite = c := by
                        rw [hn]; exact next_opposite c d
                      rw [hnoc]
                      refine ⟨hc, ?_⟩
                      rw [hf2_c, opposite_opposite, add_passage_mem]
                      exact Or.inl rfl
                    · rw [hf2_other u hu1 hu2] at hp
                      have hs := hinv.sym u hu d2 hp
                      exact ⟨hs.1, hmono2 _ _ hs.2⟩
                · intro u hu hut
                  have hreach_mono := rb_reach_mono grid grid2
                    (by rw [hsz2, hinv.size]) hmono2
                  have hreach_c : grid2.Reach ⟨0, 0⟩ c := by
                    rcases hcs with rfl | hct
                    · exact Relation.ReflTransGen.refl
                    · exact hreach_mono _ _ (hinv.reach c hc hct)
                  by_cases hu2 : u = n
                  · rw [hu2]
                    refine Relation.ReflTransGen.tail hreach_c ?_
                    rw [hn]
                    refine rb_adj_of w h grid2 hsz2 c hc d ?_
                    rw [hf2_c, add_passage_mem]
                    exact Or.inl rfl
                  · by_cases hu1 : u = c
                    · rw [hu1]; exact hreach_c
                    · rw [hf2_other u hu1 hu2] at hut
                      exact hreach_mono _ _ (hinv.reach u hu hut)
                · intro hcon
                  rw [hstart2] at hcon
                  cases hcon
                · intro _
                  exact hcount2
              have hfuellen : dk.1.length = 4 := by
                rw [hdk]; exact gen_random_order_length rng k
              obtain ⟨hinv3, hmono3, huc3, hpay3, hH13⟩ :=
                ih (fun u => A u ∨ u = n) dk.1 dk.2 grid2 n hinv2 hnb
                  (Or.inr rfl) (Or.inr hn2_t)
                  (by
                    intro u hu hut
                    by_cases hu2 : u = n
                    · exact Or.inl (Or.inr hu2)
                    · by_cases hu1 : u = c
                      · exact Or.inl (Or.inl (by rw [hu1]; exact hA))
                      · rw [hf2_other u hu1 hu2] at hut
                        rcases hH1 u hu hut with hAu | hsat
                        · exact Or.inl (Or.inl hAu)
                        · refine Or.inr ?_
                          intro d3 hd3
                          obtain ⟨d4, hd4⟩ :=
                            (untouched_false_iff _).mp (hsat d3 hd3)
                          rw [untouched_false_iff]
                          exact ⟨d4, hmono2 _ _ hd4⟩)
                  (by rw [hfuellen]; omega)
              have hc3_t :
                  ((rb_carve rng fuel dk.1 dk.2 grid2 n).2.fieldAt c).is_untouched
                    = false := by
                rw [untouched_false_iff]
                refine ⟨d, hmono3 c d ?_⟩
                rw [hf2_c, add_passage_mem]
                exact Or.inl rfl
              have hsat_n : RbSat w h (rb_carve rng fuel dk.1 dk.2 grid2 n).2
                  n := by
                intro d3 hd3
                refine hpay3 d3 ?_ hd3
                rw [hdk]
                exact gen_random_order_mem rng k d3
              obtain ⟨hinv4, hmono4, huc4, hpay4, hH14⟩ :=
                ih A ds (rb_carve rng fuel dk.1 dk.2 grid2 n).1
                  (rb_carve rng fuel dk.1 dk.2 grid2 n).2 c hinv3 hc hA
                  (Or.inr hc3_t)
                  (by
                    intro u hu hut
                    rcases hH13 u hu hut with (hAu | hun) | hsat
                    · exact Or.inl hAu
                    · refine Or.inr ?_
                      rw [hun]
                      exact hsat_n
                    · exact Or.inr hsat)
                  (by omega)
              rw [hstep]
              refine ⟨hinv4, ?_, ?_, ?_, hH14⟩
              · intro u d2 hp
                exact hmono4 u d2 (hmono3 u d2 (hmono2 u d2 hp))
              · omega
              · intro d2 hd2 hin
                rcases List.mem_cons.mp hd2 with rfl | hmem
                · rw [← hn]
                  rw [untouched_false_iff]
                  obtain ⟨d4, hd4⟩ := (untouched_false_iff _).mp hn2_t
                  exact ⟨d4, hmono4 _ _ (hmono3 _ _ hd4)⟩
                · exact hpay4 d2 hmem hin

theorem getD_replicate_self {α : Type} (a : α) :
    ∀ (m i : Nat), (List.replicate m a).getD i a = a := by
  intro m
  induction m with
  | zero => intro i; cases i <;> rfl
  | succ m2 ih =>
      intro i
      cases i with
      | zero => rfl
      | succ j => exact ih j

theorem index_to_cell (w h : Int) (hw : 0 < w) (hh : 0 < h) (i : Nat)
    (hi : i < w.toNat * h.toNat) :
    ∃ c : Coordinates, insideBounds w h c = true ∧
      (c.y * w + c.x).toNat = i := by
  set W := w.toNat with hWdef
  set H := h.toNat with hHdef
  have hWpos : 0 < W := by omega
  have hw2 : w = ((W : Nat) : Int) := by rw [hWdef]; omega
  have hh2 : h = ((H : Nat) : Int) := by rw [hHdef]; omega
  have hmod : i % W < W := Nat.mod_lt _ hWpos
  have hdiv : i / W < H := Nat.div_lt_of_lt_mul hi
  refine ⟨⟨((i % W : Nat) : Int), ((i / W : Nat) : Int)⟩, ?_, ?_⟩
  · rw [insideBounds_iff]
    refine ⟨?_, ?_, ?_, ?_⟩
    · exact Int.natCast_nonneg _
    · show ((i % W : Nat) : Int) < w
      rw [hw2]
      exact_mod_cast hmod
    · exact Int.natCast_nonneg _
    · show ((i / W : Nat) : Int) < h
      rw [hh2]
      exact_mod_cast hdiv
  · show (((i / W : Nat) : Int) * w + ((i % W : Nat) : Int)).toNat = i
    rw [hw2, ← Int.natCast_mul, ← Int.natCast_add, Int.toNat_natCast]
    exact Nat.div_add_mod' i W

theorem touchedCount_full (w h : Int) (hw : 0 < w) (hh : 0 < h)
    (grid : RbGrid) (hsz : grid.size = (w, h))
    (hlen : grid.data.length = w.toNat * h.toNat)
    (hall : ∀ c, insideBounds w h c = true →
      (grid.fieldAt c).is_untouched = false) :
    grid.touchedCount = w.toNat * h.toNat := by
  unfold RbGrid.touchedCount
  rw [← hlen]
  apply List.countP_eq_length.mpr
  intro f hf
  obtain ⟨i, hi, hfi⟩ := List.mem_iff_getElem.mp hf
  obtain ⟨c, hcin, hci⟩ := index_to_cell w h hw hh i (by omega)
  have hfc : grid.fieldAt c = f := by
    rw [fieldAt_eq w h grid hsz c hcin, hci]
    rw [List.getD_eq_getElem _ _ hi]
    exact hfi
  have ht := hall c hcin
  rw [hfc] at ht
  simp [ht]

theorem rb_all_touched (w h : Int) (grid : RbGrid)
    (hstart : (grid.fieldAt ⟨0, 0⟩).is_untouched = false)
    (hsat : ∀ u, insideBounds w h u = true →
      (grid.fieldAt u).is_untouched = false → RbSat w h grid u) :
    ∀ c, insideBounds w h c = true →
      (grid.fieldAt c).is_untouched = false := by
  have key : ∀ N : Nat, ∀ c : Coordinates, (c.x + c.y).toNat = N →
      insideBounds w h c = true →
      (grid.fieldAt c).is_untouched = false := by
    intro N
    induction N using Nat.strong_induction_on with
    | _ N ihN =>
      intro c hN hcin
      obtain ⟨h1, h2, h3, h4⟩ := (insideBounds_iff w h c).mp hcin
      by_cases hx0 : c.x = 0
      · by_cases hy0 : c.y = 0
        · have hc0 : c = ⟨0, 0⟩ := by
            cases c
            simp only [Coordinates.mk.injEq]
            exact ⟨hx0, hy0⟩
          rw [hc0]
          exact hstart
        · set v := c.next .North with hv
          have hvx : v.x = c.x := by rw [hv]; unfold Coordinates.next; simp
          have hvy : v.y = c.y - 1 := by
            rw [hv]; unfold Coordinates.next; simp; omega
          have hvin : insideBounds w h v = true := by
            rw [insideBounds_iff, hvx, hvy]
            omega
          have hvN : (v.x + v.y).toNat < N := by
            rw [hvx, hvy]
            omega
          have hvt := ihN _ hvN v rfl hvin
          have hvc : v.next Direction.South = c := by
            rw [hv]
            exact next_opposite c .North
          have hs := hsat v hvin hvt Direction.South (by rw [hvc]; exact hcin)
          rw [hvc] at hs
          exact hs
      · set v := c.next .West with hv
        have hvx : v.x = c.x - 1 := by
          rw [hv]; unfold Coordinates.next; simp; omega
        have hvy : v.y = c.y := by rw [hv]; unfold Coordinates.next; simp
        have hvin : insideBounds w h v = true := by
          rw [insideBounds_iff, hvx, hvy]
          omega
        have hvN : (v.x + v.y).toNat < N := by
          rw [hvx, hvy]
          omega
        have hvt := ihN _ hvN v rfl hvin
        have hvc : v.next Direction.East = c := by
          rw [hv]
          exact next_opposite c .West
        have hs := hsat v hvin hvt Direction.East (by rw [hvc]; exact hcin)
        rw [hvc] at hs
        exact hs
  intro c hcin
  exact key (c.x + c.y).toNat c rfl hcin

/-- The recursive-backtracking generator always carves a spanning tree of
the grid: the total number of half-passages is twice the number of cells
minus two, and every in-bounds cell is reachable from the origin through
open passages. -/
theorem rb_generate_spec (rng : Nat → Nat) (w h : Int) (hw : 0 < w)
    (hh : 0 < h) :
    (rb_generate rng w h).passageTotal + 2 = 2 * (w.toNat * h.toNat) ∧
      ∀ c, insideBounds w h c = true →
        (rb_generate rng w h).Reach ⟨0, 0⟩ c := by
  set g0 : RbGrid :=
    ⟨(w, h), ⟨0, 0⟩, ⟨0, 0⟩, List.replicate (w.toNat * h.toNat) ⟨[]⟩⟩ with hg0
  have hfa0 : ∀ c, g0.fieldAt c = ⟨[]⟩ := by
    intro c
    unfold RbGrid.fieldAt RbGrid.get_field
    by_cases hcb : g0.are_coordinates_inside c = true
    · rw [if_pos hcb]
      show (g0.data.getD (g0.coords2index c).toNat default) = _
      rw [hg0]
      exact getD_replicate_self _ _ _
    · rw [if_neg hcb]
      rfl
  have hdlen0 : g0.data.length = w.toNat * h.toNat := by
    rw [hg0]
    exact List.length_replicate _ _
  have huc0 : g0.untouchedCount = w.toNat * h.toNat := by
    unfold RbGrid.untouchedCount
    rw [← hdlen0]
    apply List.countP_eq_length.mpr
    intro f hf
    rw [hg0] at hf
    have := List.eq_of_mem_replicate hf
    rw [this]
    rfl
  have hinv0 : RbInv w h g0 := by
    refine ⟨by rw [hg0], hdlen0, ?_, ?_, ?_, ?_⟩
    · intro c hcin d2 hp
      rw [hfa0] at hp
      unfold RbField.has_passage at hp
      simp at hp
    · intro c hcin hct
      rw [hfa0] at hct
      cases hct
    · intro _
      constructor
      · unfold RbGrid.touchedCount
        apply List.countP_eq_zero.mpr
        intro f hf
        rw [hg0] at hf
        have := List.eq_of_mem_replicate hf
        rw [this]
        simp [RbField.is_untouched]
      · unfold RbGrid.passageTotal
        rw [hg0]
        simp
    · intro hcon
      rw [hfa0] at hcon
      cases hcon
  have hin00 : insideBounds w h ⟨0, 0⟩ = true := by
    rw [insideBounds_iff]
    constructor
    · rfl
    · exact ⟨hw, le_refl 0, hh⟩
  obtain ⟨hinvF, hmonoF, hucF, hpayF, hH1F⟩ :=
    rb_carve_spec rng w h (5 * (w * h).toNat + 5) (fun u => u = ⟨0, 0⟩)
      (gen_random_order rng 0).1 (gen_random_order rng 0).2 g0 ⟨0, 0⟩ hinv0
      hin00 rfl (Or.inl rfl)
      (fun u hu hut => absurd hut (by rw [hfa0]; decide))
      (by
        rw [gen_random_order_length, huc0,
          int_toNat_mul w h (le_of_lt hw) (le_of_lt hh)])
  have hgen : rb_generate rng w h =
      (rb_carve rng (5 * (w * h).toNat + 5) (gen_random_order rng 0).1
        (gen_random_order rng 0).2 g0 ⟨0, 0⟩).2 := rfl
  rcases hst : ((rb_carve rng (5 * (w * h).toNat + 5)
      (gen_random_order rng 0).1 (gen_random_order rng 0).2 g0
      ⟨0, 0⟩).2.fieldAt ⟨0, 0⟩).is_untouched with _ | _
  · -- the start was carved: the carving saturated every touched cell
    have hsatF : ∀ u, insideBounds w h u = true →
        ((rb_carve rng (5 * (w * h).toNat + 5) (gen_random_order rng 0).1
          (gen_random_order rng 0).2 g0 ⟨0, 0⟩).2.fieldAt u).is_untouched
          = false →
        RbSat w h (rb_carve rng (5 * (w * h).toNat + 5)
          (gen_random_order rng 0).1 (gen_random_order rng 0).2 g0
          ⟨0, 0⟩).2 u := by
      intro u hu hut
      rcases hH1F u hu hut with h0 | hsat
      · rw [h0]
        intro d3 hd3
        exact hpayF d3 (gen_random_order_mem rng 0 d3) hd3
      · exact hsat
    have hall := rb_all_touched w h _ hst hsatF
    constructor
    · rw [hgen]
      have htc := touchedCount_full w h hw hh _ hinvF.size hinvF.dlen hall
      have hc2 := hinvF.count2 hst
      omega
    · intro c hcin
      rw [hgen]
      exact hinvF.reach c hcin (hall c hcin)
  · -- the start was never carved: the grid must be a single cell
    have hz := hinvF.zero_case hst
    have hall_un : ∀ u, insideBounds w h u = true →
        ((rb_carve rng (5 * (w * h).toNat + 5) (gen_random_order rng 0).1
          (gen_random_order rng 0).2 g0 ⟨0, 0⟩).2.fieldAt u).is_untouched
          = true := by
      intro u hu
      rcases hx : ((rb_carve rng (5 * (w * h).toNat + 5)
          (gen_random_order rng 0).1 (gen_random_order rng 0).2 g0
          ⟨0, 0⟩).2.fieldAt u).is_untouched with _ | _
      · exfalso
        have := touched_countP_pos w h _ hinvF.size hinvF.dlen u hu hx
        omega
      · rfl
    have hw1 : w = 1 := by
      by_contra hcon
      have hein : insideBounds w h (Coordinates.next ⟨0, 0⟩ .East) = true := by
        rw [insideBounds_iff]
        unfold Coordinates.next
        simp
        omega
      have hpc := hpayF .East (gen_random_order_mem rng 0 .East) hein
      rw [hall_un _ hein] at hpc
      cases hpc
    have hh1 : h = 1 := by
      by_contra hcon
      have hein : insideBounds w h (Coordinates.next ⟨0, 0⟩ .South)
          = true := by
        rw [insideBounds_iff]
        unfold Coordinates.next
        simp
        omega
      have hpc := hpayF .South (gen_random_order_mem rng 0 .South) hein
      rw [hall_un _ hein] at hpc
      cases hpc
    constructor
    · rw [hgen]
      have hwh1 : w.toNat * h.toNat = 1 := by rw [hw1, hh1]; rfl
      omega
    · intro c hcin
      have hc1 : c = ⟨0, 0⟩ := by
        obtain ⟨a1, a2, a3, a4⟩ := (insideBounds_iff w h c).mp hcin
        rw [hw1] at a2
        rw [hh1] at a4
        have hx : c.x = 0 := by omega
        have hy : c.y = 0 := by omega
        cases c
        simp only [Coordinates.mk.injEq]
        exact ⟨hx, hy⟩
      rw [hc1]
      exact Relation.ReflTransGen.refl

theorem create_downward_eq (rng : Nat → Nat) (y : Int)
    (sets : List EllersSet) (g : MazeGraph) (k : Nat) :
    create_downward_connections rng y sets g k =
      (List.range sets.length).foldlM (downward_step rng y) (sets, g, k) :=
  rfl

theorem downward_step_empty (rng : Nat → Nat) (y : Int)
    (sets : List EllersSet) (g : MazeGraph) (k : Nat) (i : Nat)
    (hs : (sets.getD i []).isEmpty = true) :
    downward_step rng y (sets, g, k) i = pure (sets, g, k) := by
  unfold downward_step
  simp only [hs]
  rfl

theorem downward_step_go (rng : Nat → Nat) (y : Int) (sets : List EllersSet)
    (g : MazeGraph) (k : Nat) (i : Nat) (c : Coordinates)
    (hs : (sets.getD i []).isEmpty = false)
    (hbot : ((sets.getD i []).filter
      (fun x => decide (x.y = y))).isEmpty = false)
    (hc : c = ((sets.getD i []).filter (fun x => decide (x.y = y))).getD
      (rng k % ((sets.getD i []).filter
        (fun x => decide (x.y = y))).length) default) :
    downward_step rng y (sets, g, k) i =
      pure (sets.set i (setInsert (c.next .South) (sets.getD i [])),
        g.add_edge c (c.next .South), k + 1) := by
  subst hc
  unfold downward_step
  simp only [hs, hbot]
  rfl

/-- One pass of create_downward_connections over any index list: given that
every nonempty slot named by the list holds a member of the current row, the
pass succeeds, only inserts into slots, only adds edges, and gives every
nonempty processed slot a downward connection from one of its current-row
members. -/
theorem create_downward_fold_spec (rng : Nat → Nat) (y : Int) :
    ∀ (L : List Nat) (sets : List EllersSet) (g : MazeGraph) (k : Nat),
      (∀ i ∈ L, sets.getD i [] ≠ [] → ∃ c ∈ sets.getD i [], c.y = y) →
      ∃ (sets2 : List EllersSet) (g2 : MazeGraph) (k2 : Nat),
        L.foldlM (downward_step rng y) (sets, g, k) = .ok (sets2, g2, k2) ∧
        sets2.length = sets.length ∧
        (∀ j, ¬ j ∈ L → sets2.getD j [] = sets.getD j []) ∧
        (∀ a b, g.contains_edge a b = true → g2.contains_edge a b = true) ∧
        (∀ j c, c ∈ sets.getD j [] → c ∈ sets2.getD j []) ∧
        (∀ i ∈ L, sets.getD i [] ≠ [] → ∃ c, c ∈ sets.getD i [] ∧ c.y = y ∧
          g2.contains_edge c (c.next .South) = true ∧
          c.next .South ∈ sets2.getD i []) := by
  intro L
  induction L with
  | nil =>
      intro sets g k _
      exact ⟨sets, g, k, rfl, rfl, fun j _ => rfl, fun a b hab => hab,
        fun j c hc => hc, fun i hi => absurd hi (List.not_mem_nil i)⟩
  | cons i0 L ih =>
      intro sets g k hb
      by_cases hs : (sets.getD i0 []).isEmpty = true
      · obtain ⟨sets2, g2, k2, hfold, hlen, hsame, hmono, hslot, hpay⟩ :=
          ih sets g k (fun i hi => hb i (List.mem_cons_of_mem i0 hi))
        refine ⟨sets2, g2, k2, ?_, hlen, ?_, hmono, hslot, ?_⟩
        · rw [List.foldlM_cons, downward_step_empty rng y sets g k i0 hs]
          simp only [pure_bind]
          exact hfold
        · intro j hj
          exact hsame j (fun hc => hj (List.mem_cons_of_mem i0 hc))
        · intro i hi hne
          rcases List.mem_cons.mp hi with rfl | hi2
          · exact absurd (List.isEmpty_iff.mp hs) hne
          · exact hpay i hi2 hne
      · have hsne : sets.getD i0 [] ≠ [] := by
          intro hc
          rw [hc] at hs
          exact hs rfl
        have hsf : (sets.getD i0 []).isEmpty = false := by
          cases hbe : (sets.getD i0 []).isEmpty
          · rfl
          · exact absurd hbe hs
        obtain ⟨cb, hcb_mem, hcb_y⟩ := hb i0 (List.mem_cons_self i0 L) hsne
        set s := sets.getD i0 [] with hsdef
        set bottom := s.filter (fun c => decide (c.y = y)) with hbot
        have hcb_bot : cb ∈ bottom := by
          rw [hbot, List.mem_filter]
          exact ⟨hcb_mem, decide_eq_true hcb_y⟩
        have hbotne : bottom ≠ [] := by
          intro hc
          rw [hc] at hcb_bot
          cases hcb_bot
        have hbotlen : 0 < bottom.length := List.length_pos.mpr hbotne
        have hbot_empty : bottom.isEmpty = false := by
          cases hbe : bottom.isEmpty
          · rfl
          · exact absurd (List.isEmpty_iff.mp hbe) hbotne
        set c := bottom.getD (rng k % bottom.length) default with hcdef
        have hc_bot : c ∈ bottom := getD_mem_of_lt _ _ _ (Nat.mod_lt _ hbotlen)
        have hc_mem : c ∈ s := (List.mem_filter.mp hc_bot).1
        have hc_y : c.y = y := of_decide_eq_true (List.mem_filter.mp hc_bot).2
        set sets1 := sets.set i0 (setInsert (c.next .South) s) with hsets1
        set g1 := g.add_edge c (c.next .South) with hg1
        have hb1 : ∀ i ∈ L, sets1.getD i [] ≠ [] →
            ∃ x ∈ sets1.getD i [], x.y = y := by
          intro i hi hine
          by_cases hii : i0 = i
          · subst hii
            refine ⟨c, ?_, hc_y⟩
            by_cases hlt : i0 < sets.length
            · rw [hsets1, getD_set_self sets i0 _ hlt, setInsert_mem]
              exact Or.inr hc_mem
            · exfalso
              apply hine
              rw [hsets1, List.getD_eq_default]
              rw [List.length_set]
              omega
          · rw [hsets1, getD_set_ne sets i0 i _ hii] at hine ⊢
            exact hb i (List.mem_cons_of_mem i0 hi) hine
        obtain ⟨sets2, g2, k2, hfold, hlen, hsame, hmono, hslot, hpay⟩ :=
          ih sets1 g1 (k + 1) hb1
        have hstep : ∀ j x, x ∈ sets.getD j [] → x ∈ sets1.getD j [] := by
          intro j x hx
          by_cases hji : i0 = j
          · subst hji
            by_cases hlt : i0 < sets.length
            · rw [hsets1, getD_set_self sets i0 _ hlt, setInsert_mem]
              exact Or.inr hx
            · rw [List.getD_eq_default] at hx
              · cases hx
              · omega
          · rw [hsets1, getD_set_ne sets i0 j _ hji]
            exact hx
        have hi0lt : i0 < sets.length := by
          by_contra hge
          apply hsne
          rw [hsdef, List.getD_eq_default]
          omega
        have hbotf : ((sets.getD i0 []).filter
            (fun x => decide (x.y = y))).isEmpty = false := by
          rw [← hsdef, ← hbot]
          exact hbot_empty
        have hcraw : c = ((sets.getD i0 []).filter
            (fun x => decide (x.y = y))).getD
            (rng k % ((sets.getD i0 []).filter
              (fun x => decide (x.y = y))).length) default := by
          rw [hcdef, hbot, hsdef]
        refine ⟨sets2, g2, k2, ?_, ?_, ?_, ?_, ?_, ?_⟩
        · rw [List.foldlM_cons,
            downward_step_go rng y sets g k i0 c hsf hbotf hcraw]
          simp only [pure_bind]
          rw [← hsdef, ← hsets1, ← hg1]
          exact hfold
        · rw [hlen, hsets1, List.length_set]
        · intro j hj
          rw [hsame j (fun hc => hj (List.mem_cons_of_mem i0 hc)), hsets1,
            getD_set_ne sets i0 j _ (fun hc => hj (hc ▸ List.mem_cons_self i0 L))]
        · intro a b hab
          apply hmono
          rw [hg1]
          exact contains_edge_add_edge_of g c (c.next .South) a b hab
        · intro j x hx
          exact hslot j x (hstep j x hx)
        · intro i hi hine
          rcases List.mem_cons.mp hi with rfl | hi2
          · refine ⟨c, hc_mem, hc_y, ?_, ?_⟩
            · apply hmono
              rw [hg1]
              exact add_edge_contains g c (c.next .South)
            · apply hslot
              rw [hsets1, getD_set_self sets i _ hi0lt, setInsert_mem]
              exact Or.inl rfl
          · by_cases hii : i0 = i
            · subst hii
              refine ⟨c, hc_mem, hc_y, ?_, ?_⟩
              · apply hmono
                rw [hg1]
                exact add_edge_contains g c (c.next .South)
              · apply hslot
                rw [hsets1, getD_set_self sets i0 _ hi0lt, setInsert_mem]
                exact Or.inl rfl
            · have heq : sets1.getD i [] = sets.getD i [] := by
                rw [hsets1, getD_set_ne sets i0 i _ hii]
              obtain ⟨x, hx1, hx2, hx3, hx4⟩ := hpay i hi2 (by rw [heq]; exact hine)
              rw [heq] at hx1
              exact ⟨x, hx1, hx2, hx3, hx4⟩

theorem nodes_fold_nodup (l : MazeGraph) :
    ∀ acc : List Coordinates, acc.Nodup →
      (l.foldl (fun acc e =>
        let acc1 := if e.1 ∈ acc then acc else acc ++ [e.1]
        if e.2 ∈ acc1 then acc1 else acc1 ++ [e.2]) acc).Nodup := by
  induction l with
  | nil => intro acc h; exact h
  | cons e l ih =>
      intro acc h
      rw [List.foldl_cons]
      apply ih
      dsimp only
      by_cases h1 : e.1 ∈ acc
      · rw [if_pos h1]
        by_cases h2 : e.2 ∈ acc
        · rw [if_pos h2]; exact h
        · rw [if_neg h2]; exact nodup_append_singleton _ _ h h2
      · rw [if_neg h1]
        by_cases h2 : e.2 ∈ acc ++ [e.1]
        · rw [if_pos h2]; exact nodup_append_singleton _ _ h h1
        · rw [if_neg h2]
          exact nodup_append_singleton _ _ (nodup_append_singleton _ _ h h1) h2

theorem nodes_nodup (g : MazeGraph) : g.nodes.Nodup :=
  nodes_fold_nodup g [] List.nodup_nil

theorem nodup_indexOf_getElem (l : List Coordinates) (hl : l.Nodup) (i : Nat)
    (hi : i < l.length) : List.indexOf l[i] l = i := by
  have hmem : l[i] ∈ l := List.getElem_mem hi
  have hlt : List.indexOf l[i] l < l.length :=
    List.indexOf_lt_length.mpr hmem
  have heq : l[List.indexOf l[i] l] = l[i] := List.getElem_indexOf hlt
  exact hl.getElem_inj_iff.mp heq

theorem isoUnder_iff (g1 g2 : MazeGraph) (n1 p : List Coordinates) :
    isoUnder g1 g2 n1 p = true ↔
      ∀ i < n1.length, ∀ j < n1.length,
        g1.contains_edge (n1.getD i default) (n1.getD j default) =
          g2.contains_edge (p.getD i default) (p.getD j default) := by
  unfold isoUnder
  simp only [List.all_eq_true, List.mem_range, beq_iff_eq]

theorem is_isomorphic_eq_true_iff (g1 g2 : MazeGraph) :
    is_isomorphic g1 g2 = true ↔
      g1.nodes.length = g2.nodes.length ∧
        ∃ p ∈ g2.nodes.permutations, isoUnder g1 g2 g1.nodes p = true := by
  unfold is_isomorphic
  simp only [Bool.and_eq_true, decide_eq_true_eq, List.any_eq_true]

/-- The permutation search of is_isomorphic succeeds exactly when an
unlabeled isomorphism between the two graphs exists. -/
theorem is_isomorphic_iff_unlabeled (g1 g2 : MazeGraph) :
    is_isomorphic g1 g2 = true ↔ UnlabeledIso g1 g2 := by
  rw [is_isomorphic_eq_true_iff]
  constructor
  · rintro ⟨hlen, p, hpmem, hiso⟩
    have hperm : p.Perm g2.nodes := List.mem_permutations.mp hpmem
    have hplen : p.length = g2.nodes.length := hperm.length_eq
    have hn1 : g1.nodes.Nodup := nodes_nodup g1
    rw [isoUnder_iff] at hiso
    refine ⟨fun x => p.getD (List.indexOf x g1.nodes) default, ?_, ?_⟩
    · have hmap : g1.nodes.map
          (fun x => p.getD (List.indexOf x g1.nodes) default) = p := by
        apply List.ext_getElem
        · rw [List.length_map, hlen, hplen]
        · intro i h1 h2
          rw [List.getElem_map]
          have h1b : i < g1.nodes.length := by simpa using h1
          have hidx : List.indexOf g1.nodes[i] g1.nodes = i :=
            nodup_indexOf_getElem g1.nodes hn1 i h1b
          rw [hidx, List.getD_eq_getElem p default h2]
      rw [hmap]
      exact hperm
    · intro a ha b hb
      obtain ⟨i, hi, hia⟩ := List.mem_iff_getElem.mp ha
      obtain ⟨j, hj, hjb⟩ := List.mem_iff_getElem.mp hb
      subst hia
      subst hjb
      have hidxi : List.indexOf g1.nodes[i] g1.nodes = i :=
        nodup_indexOf_getElem g1.nodes hn1 i hi
      have hidxj : List.indexOf g1.nodes[j] g1.nodes = j :=
        nodup_indexOf_getElem g1.nodes hn1 j hj
      simp only [hidxi, hidxj]
      have h := hiso i hi j hj
      rw [List.getD_eq_getElem g1.nodes default hi,
        List.getD_eq_getElem g1.nodes default hj] at h
      exact h.symm
  · rintro ⟨f, hperm, hadj⟩
    have hlen : g1.nodes.length = g2.nodes.length := by
      have := hperm.length_eq
      rwa [List.length_map] at this
    refine ⟨hlen, g1.nodes.map f, List.mem_permutations.mpr hperm, ?_⟩
    rw [isoUnder_iff]
    intro i hi j hj
    have hi2 : i < (g1.nodes.map f).length := by
      rw [List.length_map]; exact hi
    have hj2 : j < (g1.nodes.map f).length := by
      rw [List.length_map]; exact hj
    rw [List.getD_eq_getElem g1.nodes default hi,
      List.getD_eq_getElem g1.nodes default hj,
      List.getD_eq_getElem _ default hi2,
      List.getD_eq_getElem _ default hj2,
      List.getElem_map, List.getElem_map]
    exact (hadj g1.nodes[i] (List.getElem_mem hi) g1.nodes[j]
      (List.getElem_mem hj)).symm

theorem mazeEq_iff (m1 m2 : Maze) :
    mazeEq m1 m2 = true ↔
      (m1.start = m2.start ∧ m1.goal = m2.goal ∧ m1.size = m2.size ∧
        is_isomorphic m1.graph m2.graph = true) := by
  unfold mazeEq
  simp [Bool.and_eq_true, decide_eq_true_eq, and_assoc]

/-- Claim C6 counterexample: two mazes whose graphs carve different cell
pairs (the single passage joins (0,0)-(1,0) in the first and (1,0)-(2,0) in
the second) compare equal under the PartialEq of Maze, because
petgraph::algo::is_isomorphic compares the graphs as unlabeled graphs; the
graphs are not isomorphic as labeled graphs. -/
theorem c6_counterexample :
    mazeEq ⟨[(⟨0, 0⟩, ⟨1, 0⟩)], ⟨0, 0⟩, ⟨0, 0⟩, (3, 1)⟩
        ⟨[(⟨1, 0⟩, ⟨2, 0⟩)], ⟨0, 0⟩, ⟨0, 0⟩, (3, 1)⟩ = true ∧
      ¬ LabeledIso [(⟨0, 0⟩, ⟨1, 0⟩)] [(⟨1, 0⟩, ⟨2, 0⟩)] := by
  refine ⟨by decide, ?_⟩
  intro hl
  have h := hl ⟨0, 0⟩ ⟨1, 0⟩
  revert h
  decide

/-- Claim C6 as amended: two Maze values are equal under the PartialEq
implementation exactly when their start coordinates, goal coordinates and
sizes match and their connectivity graphs are isomorphic as unlabeled
graphs; node labels are ignored by the graph comparison, so equality does
not require labeled-graph agreement. -/
theorem c6_maze_equality_unlabeled (m1 m2 : Maze) :
    mazeEq m1 m2 = true ↔
      (m1.start = m2.start ∧ m1.goal = m2.goal ∧ m1.size = m2.size ∧
        UnlabeledIso m1.graph m2.graph) := by
  rw [mazeEq_iff, is_isomorphic_iff_unlabeled]

/-- Claim C8: in the vertical connection pass of Ellers algorithm
(create_downward_connections), whenever every nonempty set holds at least
one member of the current row, the pass returns Ok (in particular the
gen_range(1, 0) panic branch is never reached), and every nonempty set
receives at least one downward connection: a member of the current row is
joined by a graph edge to its southern neighbour, which is added to the
same set.  The number of members chosen to connect downward is the source
literal 1, which lies between 1 and the number of current-row members. -/
theorem c8_downward_connections (rng : Nat → Nat) (y : Int) (k : Nat)
    (sets : List EllersSet) (g : MazeGraph)
    (hbottom : ∀ s ∈ sets, s ≠ [] → ∃ c ∈ s, c.y = y) :
    ∃ sets2 g2 k2,
      create_downward_connections rng y sets g k = .ok (sets2, g2, k2) ∧
      sets2.length = sets.length ∧
      ∀ i, i < sets.length → sets.getD i [] ≠ [] →
        ∃ c, c ∈ sets.getD i [] ∧ c.y = y ∧
          g2.contains_edge c (c.next .South) = true ∧
          c.next .South ∈ sets2.getD i [] := by
  obtain ⟨sets2, g2, k2, hfold, hlen, _, _, _, hpay⟩ :=
    create_downward_fold_spec rng y (List.range sets.length) sets g k
      (fun i _ hne => hbottom _ (mem_getD_of_lt_length sets i (by
        by_contra hge
        apply hne
        rw [List.getD_eq_default]
        omega)) hne)
  refine ⟨sets2, g2, k2, ?_, hlen, ?_⟩
  · unfold create_downward_connections
    exact hfold
  · intro i hi hne
    exact hpay i (List.mem_range.mpr hi) hne

/-- Witness for c8_downward_connections at a concrete two-set state. -/
theorem c8_downward_connections_witness :
    (∀ s ∈ [[(⟨0, 0⟩ : Coordinates)], [(⟨1, 0⟩ : Coordinates)]], s ≠ [] →
      ∃ c ∈ s, c.y = 0) ∧
    ∃ sets2 g2 k2,
      create_downward_connections (fun _ => 0) 0
        [[⟨0, 0⟩], [⟨1, 0⟩]] [] 0 = .ok (sets2, g2, k2) ∧
      sets2.length = ([[(⟨0, 0⟩ : Coordinates)], [⟨1, 0⟩]] :
        List EllersSet).length ∧
      ∀ i, i < ([[(⟨0, 0⟩ : Coordinates)], [⟨1, 0⟩]] :
          List EllersSet).length →
        ([[(⟨0, 0⟩ : Coordinates)], [⟨1, 0⟩]] : List EllersSet).getD i [] ≠ [] →
        ∃ c, c ∈ ([[(⟨0, 0⟩ : Coordinates)], [⟨1, 0⟩]] :
            List EllersSet).getD i [] ∧ c.y = 0 ∧
          g2.contains_edge c (c.next .South) = true ∧
          c.next .South ∈ sets2.getD i [] :=
  ⟨by decide, c8_downward_connections (fun _ => 0) 0 0
    [[⟨0, 0⟩], [⟨1, 0⟩]] [] (by decide)⟩

theorem setInsert_nodup (c : Coordinates) (s : EllersSet) (h : s.Nodup) :
    (setInsert c s).Nodup := by
  unfold setInsert
  by_cases hc : c ∈ s
  · rw [if_pos hc]; exact h
  · rw [if_neg hc]; exact List.Nodup.cons hc h

theorem setInsert_length_not_mem (c : Coordinates) (s : EllersSet)
    (h : ¬ c ∈ s) : (setInsert c s).length = s.length + 1 := by
  unfold setInsert
  rw [if_neg h, List.length_cons]

theorem setUnion_mem (s2 : EllersSet) :
    ∀ (s1 : EllersSet) (x : Coordinates),
      x ∈ setUnion s1 s2 ↔ x ∈ s1 ∨ x ∈ s2 := by
  induction s2 with
  | nil => intro s1 x; simp [setUnion]
  | cons c s2 ih =>
      intro s1 x
      show x ∈ setUnion (setInsert c s1) s2 ↔ _
      rw [ih (setInsert c s1) x, setInsert_mem]
      simp only [List.mem_cons]
      tauto

theorem setUnion_nodup (s2 : EllersSet) :
    ∀ s1 : EllersSet, s1.Nodup → (setUnion s1 s2).Nodup := by
  induction s2 with
  | nil => intro s1 h; exact h
  | cons c s2 ih =>
      intro s1 h
      exact ih (setInsert c s1) (setInsert_nodup c s1 h)

theorem setUnion_length (s2 : EllersSet) :
    ∀ s1 : EllersSet, s2.Nodup → (∀ x ∈ s2, ¬ x ∈ s1) →
      (setUnion s1 s2).length = s1.length + s2.length := by
  induction s2 with
  | nil => intro s1 _ _; simp [setUnion]
  | cons c s2 ih =>
      intro s1 hnd hdisj
      show (setUnion (setInsert c s1) s2).length = _
      rw [ih (setInsert c s1) (List.Nodup.of_cons hnd) ?later]
      · rw [setInsert_length_not_mem c s1
          (hdisj c (List.mem_cons_self c s2))]
        rw [List.length_cons]
        omega
      case later =>
        intro x hx
        rw [setInsert_mem]
        rintro (rfl | hx1)
        · exact (List.nodup_cons.mp hnd).1 hx
        · exact hdisj x (List.mem_cons_of_mem c hx) hx1

theorem sum_map_set (l : List EllersSet) :
    ∀ (i : Nat) (a : EllersSet), i < l.length →
      ((l.set i a).map List.length).sum + (l.getD i []).length =
        (l.map List.length).sum + a.length := by
  induction l with
  | nil => intro i a hi; cases hi
  | cons x xs ih =>
      intro i a hi
      cases i with
      | zero => simp [List.set_cons_zero]; omega
      | succ j =>
          simp only [List.set_cons_succ, List.map_cons, List.sum_cons,
            List.getD_cons_succ]
          have := ih j a (by simpa using hi)
          omega

theorem countP_set (l : List EllersSet) (p : EllersSet → Bool) :
    ∀ (i : Nat) (a : EllersSet), i < l.length →
      (l.set i a).countP p + (if p (l.getD i []) then 1 else 0) =
        l.countP p + (if p a then 1 else 0) := by
  induction l with
  | nil => intro i a hi; cases hi
  | cons x xs ih =>
      intro i a hi
      cases i with
      | zero =>
          simp only [List.set_cons_zero, List.countP_cons, List.getD_cons_zero]
          by_cases hx : p x = true
          · by_cases ha : p a = true
            · simp [hx, ha]
            · simp [hx, ha]
          · by_cases ha : p a = true
            · simp [hx, ha]
            · simp [hx, ha]
      | succ j =>
          simp only [List.set_cons_succ, List.countP_cons, List.getD_cons_succ]
          have := ih j a (by simpa using hi)
          omega

theorem findIdx?_isSome_of_pred (p : EllersSet → Bool) :
    ∀ l : List EllersSet, (∃ s ∈ l, p s = true) →
      ∃ j, l.findIdx? p = some j := by
  intro l
  induction l with
  | nil => rintro ⟨s, hs, _⟩; cases hs
  | cons a as ih =>
      rintro ⟨s, hs, hps⟩
      rw [List.findIdx?_cons]
      by_cases hpa : p a = true
      · exact ⟨0, by simp [hpa]⟩
      · simp only [hpa, Bool.false_eq_true, if_false]
        rcases List.mem_cons.mp hs with rfl | hmem
        · exact absurd hps hpa
        · obtain ⟨j, hj⟩ := ih ⟨s, hmem, hps⟩
          exact ⟨j + 1, by simp [hj]⟩

theorem findIdx?_bound_pred (p : EllersSet → Bool) :
    ∀ (l : List EllersSet) (i : Nat), l.findIdx? p = some i →
      i < l.length ∧ p (l.getD i []) = true := by
  intro l i h
  obtain ⟨hlt, hp, _⟩ := List.findIdx?_eq_some_iff_getElem.mp h
  refine ⟨hlt, ?_⟩
  rw [List.getD_eq_getElem l [] hlt]
  exact hp

theorem contains_iff_mem (s : EllersSet) (c : Coordinates) :
    s.contains c = true ↔ c ∈ s := by
  simp

theorem slot_eq_of_mem_both (sets : List EllersSet) (i j : Nat)
    (hi : i < sets.length) (hj : j < sets.length)
    (disj : ∀ i j : Nat, i < sets.length → j < sets.length → i ≠ j →
      ∀ c, c ∈ sets.getD i [] → ¬ c ∈ sets.getD j [])
    (c : Coordinates) (hci : c ∈ sets.getD i []) (hcj : c ∈ sets.getD j []) :
    i = j := by
  by_contra hne
  exact disj i j hi hj hne c hci hcj

/-- join_sets_of_fields under the family invariant: the call succeeds, the
invariant is preserved, and afterwards some slot holds both fields together
with the whole previous slot of the first field. -/
theorem join_sets_of_fields_spec (w y : Int) (sets : List EllersSet)
    (g : MazeGraph) (f1 f2 : Coordinates) (inv : EllerInv w y sets g)
    (hm1 : ∃ i, i < sets.length ∧ f1 ∈ sets.getD i [])
    (hm2 : ∃ i, i < sets.length ∧ f2 ∈ sets.getD i []) :
    ∃ sets2 g2, join_sets_of_fields sets g f1 f2 = .ok (sets2, g2) ∧
      EllerInv w y sets2 g2 ∧
      (∀ a b, g.contains_edge a b = true → g2.contains_edge a b = true) ∧
      ∃ j, j < sets2.length ∧ f1 ∈ sets2.getD j [] ∧ f2 ∈ sets2.getD j [] ∧
        ∀ i, i < sets.length → f1 ∈ sets.getD i [] →
          ∀ c ∈ sets.getD i [], c ∈ sets2.getD j [] := by
  obtain ⟨i1m, hi1m, hf1m⟩ := hm1
  obtain ⟨i2m, hi2m, hf2m⟩ := hm2
  obtain ⟨i1, hidx1⟩ := findIdx?_isSome_of_pred (fun s => s.contains f1) sets
    ⟨sets.getD i1m [], mem_getD_of_lt_length sets i1m hi1m,
      (contains_iff_mem _ f1).mpr hf1m⟩
  obtain ⟨i2, hidx2⟩ := findIdx?_isSome_of_pred (fun s => s.contains f2) sets
    ⟨sets.getD i2m [], mem_getD_of_lt_length sets i2m hi2m,
      (contains_iff_mem _ f2).mpr hf2m⟩
  obtain ⟨hi1, hc1⟩ := findIdx?_bound_pred _ sets i1 hidx1
  obtain ⟨hi2, hc2⟩ := findIdx?_bound_pred _ sets i2 hidx2
  have hf1 : f1 ∈ sets.getD i1 [] := (contains_iff_mem _ f1).mp hc1
  have hf2 : f2 ∈ sets.getD i2 [] := (contains_iff_mem _ f2).mp hc2
  have hstep : join_sets_of_fields sets g f1 f2 =
      (if sets.getD i1 [] = sets.getD i2 [] then pure (sets, g)
       else pure ((sets.set i1 (setUnion (sets.getD i1 []) (sets.getD i2 []))).set i2 [],
         g.add_edge f1 f2)) := by
    unfold join_sets_of_fields
    rw [hidx1, hidx2]
  by_cases heq : sets.getD i1 [] = sets.getD i2 []
  · have hii : i1 = i2 := by
      apply slot_eq_of_mem_both sets i1 i2 hi1 hi2 inv.disj f2
      · rw [heq]; exact hf2
      · exact hf2
    refine ⟨sets, g, ?_, inv, fun a b h => h, i1, hi1, hf1, by rw [heq]; exact hf2, ?_⟩
    · rw [hstep, if_pos heq]
      rfl
    · intro i hi hf1i
      have : i = i1 := slot_eq_of_mem_both sets i i1 hi hi1 inv.disj f1 hf1i hf1
      subst this
      intro c hc
      exact hc
  · have hii : i1 ≠ i2 := by
      intro hc
      subst hc
      exact heq rfl
    set s1 := sets.getD i1 [] with hs1
    set s2 := sets.getD i2 [] with hs2
    set u := setUnion s1 s2 with hu
    set sets2 := (sets.set i1 u).set i2 [] with hsets2
    set g2 := g.add_edge f1 f2 with hg2
    have hdisj12 : ∀ x ∈ s2, ¬ x ∈ s1 := by
      intro x hx2 hx1
      exact inv.disj i1 i2 hi1 hi2 hii x hx1 hx2
    have hlen2 : sets2.length = sets.length := by
      rw [hsets2, List.length_set, List.length_set]
    have hget1 : sets2.getD i1 [] = u := by
      rw [hsets2, getD_set_ne _ i2 i1 _ (Ne.symm hii),
        getD_set_self sets i1 u hi1]
    have hget2 : sets2.getD i2 [] = [] := by
      rw [hsets2, getD_set_self _ i2 [] (by rw [List.length_set]; exact hi2)]
    have hgeto : ∀ j, j ≠ i1 → j ≠ i2 → sets2.getD j [] = sets.getD j [] := by
      intro j hj1 hj2
      rw [hsets2, getD_set_ne _ i2 j _ (Ne.symm hj2),
        getD_set_ne _ i1 j _ (Ne.symm hj1)]
    have humem : ∀ x, x ∈ u ↔ x ∈ s1 ∨ x ∈ s2 := fun x => setUnion_mem s2 s1 x
    have hfresh : g.contains_edge f1 f2 = false := by
      cases hce : g.contains_edge f1 f2
      · rfl
      · exfalso
        rcases (contains_edge_iff_mem _ _ _).mp hce with hm | hm
        · obtain ⟨j, hjlt, hj1, hj2⟩ := inv.edge_set _ hm
          simp only at hj1 hj2
          have e1 : j = i1 := slot_eq_of_mem_both sets j i1 hjlt hi1 inv.disj f1 hj1 hf1
          have e2 : j = i2 := slot_eq_of_mem_both sets j i2 hjlt hi2 inv.disj f2 hj2 hf2
          exact hii (e1 ▸ e2)
        · obtain ⟨j, hjlt, hj1, hj2⟩ := inv.edge_set _ hm
          simp only at hj1 hj2
          have e1 : j = i1 := slot_eq_of_mem_both sets j i1 hjlt hi1 inv.disj f1 hj2 hf1
          have e2 : j = i2 := slot_eq_of_mem_both sets j i2 hjlt hi2 inv.disj f2 hj1 hf2
          exact hii (e1 ▸ e2)
    have hmono : ∀ a b, g.contains_edge a b = true →
        g2.contains_edge a b = true := by
      intro a b hab
      rw [hg2]
      exact contains_edge_add_edge_of g f1 f2 a b hab
    have inv2 : EllerInv w y sets2 g2 := by
      refine ⟨by rw [hlen2, inv.len], ?_, ?_, ?_, ?_, ?_, ?_, ?_⟩
      · intro i hilt
        rw [hlen2] at hilt
        by_cases h1 : i = i1
        · rw [h1, hget1]
          exact setUnion_nodup s2 s1 (inv.nodup i1 hi1)
        · by_cases h2 : i = i2
          · rw [h2, hget2]
            exact List.nodup_nil
          · rw [hgeto i h1 h2]
            exact inv.nodup i hilt
      · intro i j hilt hjlt hne c hci hcj
        rw [hlen2] at hilt hjlt
        by_cases hji1 : j = i1
        · have hii1 : i ≠ i1 := fun hc => hne (hc.trans hji1.symm)
          rw [hji1, hget1, humem] at hcj
          have hie : i ≠ i2 := by
            intro hc
            rw [hc, hget2] at hci
            cases hci
          rw [hgeto i hii1 hie] at hci
          rcases hcj with hcj | hcj
          · exact inv.disj i i1 hilt hi1 hii1 c hci hcj
          · exact inv.disj i i2 hilt hi2 hie c hci hcj
        · by_cases hji2 : j = i2
          · rw [hji2, hget2] at hcj
            cases hcj
          · rw [hgeto j hji1 hji2] at hcj
            by_cases hii1 : i = i1
            · rw [hii1, hget1, humem] at hci
              have hji1s : i1 ≠ j := fun hc => hji1 hc.symm
              have hji2s : i2 ≠ j := fun hc => hji2 hc.symm
              rcases hci with hci | hci
              · exact inv.disj i1 j hi1 hjlt hji1s c hci hcj
              · exact inv.disj i2 j hi2 hjlt hji2s c hci hcj
            · by_cases hii2 : i = i2
              · rw [hii2, hget2] at hci
                cases hci
              · rw [hgeto i hii1 hii2] at hci
                exact inv.disj i j hilt hjlt hne c hci hcj
      · intro c
        constructor
        · rintro ⟨i, hilt, hci⟩
          rw [hlen2] at hilt
          by_cases h1 : i = i1
          · rw [h1, hget1, humem] at hci
            rcases hci with hci | hci
            · exact (inv.mem_iff c).mp ⟨i1, hi1, hci⟩
            · exact (inv.mem_iff c).mp ⟨i2, hi2, hci⟩
          · by_cases h2 : i = i2
            · rw [h2, hget2] at hci
              cases hci
            · rw [hgeto i h1 h2] at hci
              exact (inv.mem_iff c).mp ⟨i, hilt, hci⟩
        · intro hb
          obtain ⟨i, hilt, hci⟩ := (inv.mem_iff c).mpr hb
          by_cases h1 : i = i1
          · rw [h1] at hci
            refine ⟨i1, by rw [hlen2]; exact hi1, ?_⟩
            rw [hget1, humem]
            exact Or.inl hci
          · by_cases h2 : i = i2
            · rw [h2] at hci
              refine ⟨i1, by rw [hlen2]; exact hi1, ?_⟩
              rw [hget1, humem]
              exact Or.inr hci
            · refine ⟨i, by rw [hlen2]; exact hilt, ?_⟩
              rw [hgeto i h1 h2]
              exact hci
      · intro i hilt hne
        rw [hlen2] at hilt
        by_cases h1 : i = i1
        · rw [h1, hget1]
          have hs1ne : s1 ≠ [] := by
            intro hc
            rw [hc] at hf1
            cases hf1
          obtain ⟨c, hcm, hcy⟩ := inv.bottom i1 hi1 hs1ne
          exact ⟨c, (humem c).mpr (Or.inl hcm), hcy⟩
        · by_cases h2 : i = i2
          · rw [h2, hget2] at hne
            exact absurd rfl hne
          · rw [hgeto i h1 h2] at hne ⊢
            exact inv.bottom i hilt hne
      · intro i hilt a ha b hb
        rw [hlen2] at hilt
        have hreach_mono : ∀ x z, g.Reachable x z → g2.Reachable x z := by
          intro x z hxz
          rw [hg2]
          exact reachable_add_edge_of g f1 f2 hxz
        have hbridge : g2.Reachable f1 f2 := by
          rw [hg2]
          exact reachable_add_edge_new g f1 f2
        by_cases h1 : i = i1
        · rw [h1, hget1] at ha hb
          rw [humem] at ha hb
          have hto1 : ∀ x ∈ s1, g2.Reachable f1 x := fun x hx =>
            hreach_mono f1 x (inv.conn i1 hi1 f1 hf1 x hx)
          have hto2 : ∀ x ∈ s2, g2.Reachable f2 x := fun x hx =>
            hreach_mono f2 x (inv.conn i2 hi2 f2 hf2 x hx)
          have hfa : ∀ x, x ∈ s1 ∨ x ∈ s2 → g2.Reachable f1 x := by
            rintro x (hx | hx)
            · exact hto1 x hx
            · exact reachable_trans g2 hbridge (hto2 x hx)
          exact reachable_trans g2 (reachable_symm g2 (hfa a ha)) (hfa b hb)
        · by_cases h2 : i = i2
          · rw [h2, hget2] at ha
            cases ha
          · rw [hgeto i h1 h2] at ha hb
            exact hreach_mono a b (inv.conn i hilt a ha b hb)
      · intro e he
        rw [hg2] at he
        rcases mem_add_edge_elim g f1 f2 e he with he1 | he1
        · obtain ⟨j, hjlt, hj1, hj2⟩ := inv.edge_set e he1
          by_cases hja : j = i1
          · rw [hja] at hj1 hj2
            refine ⟨i1, by rw [hlen2]; exact hi1, ?_, ?_⟩
            · rw [hget1, humem]
              exact Or.inl hj1
            · rw [hget1, humem]
              exact Or.inl hj2
          · by_cases hjb : j = i2
            · rw [hjb] at hj1 hj2
              refine ⟨i1, by rw [hlen2]; exact hi1, ?_, ?_⟩
              · rw [hget1, humem]
                exact Or.inr hj1
              · rw [hget1, humem]
                exact Or.inr hj2
            · refine ⟨j, by rw [hlen2]; exact hjlt, ?_, ?_⟩
              · rw [hgeto j hja hjb]
                exact hj1
              · rw [hgeto j hja hjb]
                exact hj2
        · subst he1
          refine ⟨i1, by rw [hlen2]; exact hi1, ?_, ?_⟩
          · rw [hget1, humem]
            exact Or.inl hf1
          · rw [hget1, humem]
            exact Or.inr hf2
      · have hecount : g2.edgeCount = g.edgeCount + 1 := by
          rw [hg2]
          exact add_edge_edgeCount g f1 f2 hfresh
        have hs1ne : s1 ≠ [] := by
          intro hc
          rw [hc] at hf1
          cases hf1
        have hs2ne : s2 ≠ [] := by
          intro hc
          rw [hc] at hf2
          cases hf2
        have hune : u ≠ [] := by
          intro hc
          have hfu : f1 ∈ u := (humem f1).mpr (Or.inl hf1)
          rw [hc] at hfu
          cases hfu
        have hulen : u.length = s1.length + s2.length := by
          rw [hu]
          exact setUnion_length s2 s1 (inv.nodup i2 hi2) hdisj12
        have hbe : ∀ t : EllersSet, t ≠ [] → (!t.isEmpty) = true := by
          intro t ht
          cases hbt : t.isEmpty
          · rfl
          · exact absurd (List.isEmpty_iff.mp hbt) ht
        have hsum1 := sum_map_set (sets.set i1 u) i2 []
          (by rw [List.length_set]; exact hi2)
        have hsum2 := sum_map_set sets i1 u hi1
        have hcp1 := countP_set (sets.set i1 u) (fun s => !s.isEmpty) i2 []
          (by rw [List.length_set]; exact hi2)
        have hcp2 := countP_set sets (fun s => !s.isEmpty) i1 u hi1
        beta_reduce at hcp1 hcp2
        have hgd : (sets.set i1 u).getD i2 [] = s2 := by
          rw [getD_set_ne sets i1 i2 u hii]
        rw [hgd] at hsum1 hcp1
        rw [← hs1] at hsum2 hcp2
        rw [if_pos (hbe s2 hs2ne)] at hcp1
        rw [if_pos (hbe s1 hs1ne), if_pos (hbe u hune)] at hcp2
        have hif0 : (if (!([] : EllersSet).isEmpty) = true then 1 else 0)
            = 0 := rfl
        rw [hif0] at hcp1
        have hc := inv.count
        rw [hecount]
        rw [← hsets2] at hsum1 hcp1
        simp only [List.length_nil] at hsum1
        omega
    refine ⟨sets2, g2, ?_, inv2, hmono, i1, by rw [hlen2]; exact hi1, ?_, ?_, ?_⟩
    · rw [hstep, if_neg heq]
      rfl
    · rw [hget1, humem]
      exact Or.inl hf1
    · rw [hget1, humem]
      exact Or.inr hf2
    · intro i hilt hf1i
      have : i = i1 := slot_eq_of_mem_both sets i i1 hilt hi1 inv.disj f1 hf1i hf1
      subst this
      intro c hc
      rw [hget1, humem]
      exact Or.inl hc

theorem randomly_join_eq (rng : Nat → Nat) (y : Int) (sets : List EllersSet)
    (g : MazeGraph) (k : Nat) :
    randomly_join_fields rng y sets g k =
      (List.range (sets.length - 1)).foldlM (rjf_step rng y) (sets, g, k) := by
  unfold randomly_join_fields rjf_step
  rfl

theorem rjf_step_yes (rng : Nat → Nat) (y : Int) (sets : List EllersSet)
    (g : MazeGraph) (k : Nat) (ix : Nat) (sets1 : List EllersSet)
    (g1 : MazeGraph) (hr : rng k % 2 = 0)
    (hj : join_sets_of_fields sets g ⟨(ix : Int), y⟩ ⟨(ix : Int) + 1, y⟩ =
      .ok (sets1, g1)) :
    rjf_step rng y (sets, g, k) ix = pure (sets1, g1, k + 1) := by
  unfold rjf_step
  dsimp only
  rw [if_pos hr, hj]
  rfl

theorem rjf_step_no (rng : Nat → Nat) (y : Int) (sets : List EllersSet)
    (g : MazeGraph) (k : Nat) (ix : Nat) (hr : ¬ rng k % 2 = 0) :
    rjf_step rng y (sets, g, k) ix = pure (sets, g, k + 1) := by
  unfold rjf_step
  dsimp only
  rw [if_neg hr]

/-- The horizontal pass of one Ellers row preserves the family invariant
and never fails. -/
theorem rjf_fold_spec (rng : Nat → Nat) (w y : Int) :
    ∀ (L : List Nat) (sets : List EllersSet) (g : MazeGraph) (k : Nat),
      EllerInv w y sets g →
      0 ≤ y →
      (∀ ix ∈ L, ix + 1 < w.toNat) →
      ∃ sets2 g2 k2,
        L.foldlM (rjf_step rng y) (sets, g, k) = .ok (sets2, g2, k2) ∧
        EllerInv w y sets2 g2 := by
  intro L
  induction L with
  | nil =>
      intro sets g k inv _ _
      exact ⟨sets, g, k, rfl, inv⟩
  | cons ix L ih =>
      intro sets g k inv hy hb
      have hbx : ix + 1 < w.toNat := hb ix (List.mem_cons_self ix L)
      have hm1 : ∃ i, i < sets.length ∧
          (⟨(ix : Int), y⟩ : Coordinates) ∈ sets.getD i [] := by
        apply (inv.mem_iff ⟨(ix : Int), y⟩).mpr
        refine ⟨?_, ?_, ?_, ?_⟩
        · exact (by omega : (0 : Int) ≤ (ix : Int))
        · exact (by omega : (ix : Int) < w)
        · exact hy
        · exact le_refl y
      have hm2 : ∃ i, i < sets.length ∧
          (⟨(ix : Int) + 1, y⟩ : Coordinates) ∈ sets.getD i [] := by
        apply (inv.mem_iff ⟨(ix : Int) + 1, y⟩).mpr
        refine ⟨?_, ?_, ?_, ?_⟩
        · exact (by omega : (0 : Int) ≤ (ix : Int) + 1)
        · exact (by omega : (ix : Int) + 1 < w)
        · exact hy
        · exact le_refl y
      by_cases hr : rng k % 2 = 0
      · obtain ⟨sets1, g1, hjoin, inv1, _, _⟩ :=
          join_sets_of_fields_spec w y sets g ⟨(ix : Int), y⟩
            ⟨(ix : Int) + 1, y⟩ inv hm1 hm2
        obtain ⟨sets2, g2, k2, hfold, inv2⟩ := ih sets1 g1 (k + 1) inv1 hy
          (fun i hi => hb i (List.mem_cons_of_mem ix hi))
        refine ⟨sets2, g2, k2, ?_, inv2⟩
        rw [List.foldlM_cons, rjf_step_yes rng y sets g k ix sets1 g1 hr hjoin]
        simp only [pure_bind]
        exact hfold
      · obtain ⟨sets2, g2, k2, hfold, inv2⟩ := ih sets g (k + 1) inv hy
          (fun i hi => hb i (List.mem_cons_of_mem ix hi))
        refine ⟨sets2, g2, k2, ?_, inv2⟩
        rw [List.foldlM_cons, rjf_step_no rng y sets g k ix hr]
        simp only [pure_bind]
        exact hfold

theorem join_last_rows_eq (y : Int) (sets : List EllersSet) (g : MazeGraph) :
    join_last_rows y sets g =
      (List.range (sets.length - 1)).foldlM (jlr_step y) (sets, g) :=
  rfl

/-- The final pass of Ellers algorithm: joining the adjacent pairs of the
last row in order merges the whole row into one slot while preserving the
family invariant. -/
theorem jlr_fold_spec (w y : Int) (hy : 0 ≤ y) :
    ∀ (m a : Nat) (sets : List EllersSet) (g : MazeGraph),
      EllerInv w y sets g →
      a + m + 1 ≤ w.toNat →
      (∃ i, i < sets.length ∧ ∀ x : Nat, x ≤ a →
        (⟨(x : Int), y⟩ : Coordinates) ∈ sets.getD i []) →
      ∃ sets2 g2,
        (List.range' a m).foldlM (jlr_step y) (sets, g) = .ok (sets2, g2) ∧
        EllerInv w y sets2 g2 ∧
        ∃ i, i < sets2.length ∧ ∀ x : Nat, x ≤ a + m →
          (⟨(x : Int), y⟩ : Coordinates) ∈ sets2.getD i [] := by
  intro m
  induction m with
  | zero =>
      intro a sets g inv _ hprog
      exact ⟨sets, g, rfl, inv, hprog⟩
  | succ m ih =>
      intro a sets g inv hm hprog
      obtain ⟨i0, hi0, hx0⟩ := hprog
      have hm2 : ∃ i, i < sets.length ∧
          (⟨(a : Int) + 1, y⟩ : Coordinates) ∈ sets.getD i [] := by
        apply (inv.mem_iff ⟨(a : Int) + 1, y⟩).mpr
        refine ⟨?_, ?_, ?_, ?_⟩
        · exact (by omega : (0 : Int) ≤ (a : Int) + 1)
        · exact (by omega : (a : Int) + 1 < w)
        · exact hy
        · exact le_refl y
      obtain ⟨sets1, g1, hjoin, inv1, _, j, hj, hjf1, hjf2, hmapj⟩ :=
        join_sets_of_fields_spec w y sets g ⟨(a : Int), y⟩
          ⟨(a : Int) + 1, y⟩ inv ⟨i0, hi0, hx0 a (le_refl a)⟩ hm2
      have hcast : ((a + 1 : Nat) : Int) = (a : Int) + 1 := by push_cast; ring
      have hprog1 : ∃ i, i < sets1.length ∧ ∀ x : Nat, x ≤ a + 1 →
          (⟨(x : Int), y⟩ : Coordinates) ∈ sets1.getD i [] := by
        refine ⟨j, hj, ?_⟩
        intro x hx
        by_cases hxa : x ≤ a
        · exact hmapj i0 hi0 (hx0 a (le_refl a)) _ (hx0 x hxa)
        · have hxeq : x = a + 1 := by omega
          subst hxeq
          rw [hcast]
          exact hjf2
      obtain ⟨sets2, g2, hfold, inv2, i2, hi2, hx2⟩ :=
        ih (a + 1) sets1 g1 inv1 (by omega) hprog1
      refine ⟨sets2, g2, ?_, inv2, i2, hi2, ?_⟩
      · rw [List.range'_succ, List.foldlM_cons]
        have hstep : jlr_step y (sets, g) a = pure (sets1, g1) := by
          unfold jlr_step
          exact hjoin
        rw [hstep]
        simp only [pure_bind]
        exact hfold
      · intro x hx
        exact hx2 x (by omega)

theorem next_south (c : Coordinates) :
    c.next .South = ⟨c.x, c.y + 1⟩ := by
  unfold Coordinates.next
  simp

/-- The vertical pass processed over any duplicate-free index list keeps
the invariant, finishing with no indices pending. -/
theorem downward_fold_inv_spec (rng : Nat → Nat) (w y : Int) :
    ∀ L : List Nat, L.Nodup →
      ∀ (sets : List EllersSet) (g : MazeGraph) (k : Nat),
      DownInv w y L sets g →
      ∃ sets2 g2 k2,
        L.foldlM (downward_step rng y) (sets, g, k) = .ok (sets2, g2, k2) ∧
        DownInv w y [] sets2 g2 := by
  intro L
  induction L with
  | nil =>
      intro _ sets g k inv
      exact ⟨sets, g, k, rfl, inv⟩
  | cons i0 L ih =>
      intro hnd sets g k inv
      have hndl : L.Nodup := (List.nodup_cons.mp hnd).2
      have hi0nl : ¬ i0 ∈ L := (List.nodup_cons.mp hnd).1
      by_cases hs : (sets.getD i0 []).isEmpty = true
      · have hinv1 : DownInv w y L sets g := by
          refine ⟨inv.len, inv.nodup, inv.disj, inv.mem_sub, inv.mem_sup,
            inv.conn, inv.edge_set, inv.count, ?_, inv.shadow, ?_, ?_⟩
          · intro i hi
            exact inv.unproc i (List.mem_cons_of_mem i0 hi)
          · intro j hj hjl hne
            by_cases hji : j = i0
            · rw [hji] at hne
              exact absurd (List.isEmpty_iff.mp hs) hne
            · refine inv.procd j hj ?_ hne
              intro hc
              rcases List.mem_cons.mp hc with h | h
              · exact hji h
              · exact hjl h
          · intro i hi
            exact inv.row_bot i (List.mem_cons_of_mem i0 hi)
        obtain ⟨sets2, g2, k2, hfold, hres⟩ := ih hndl sets g k hinv1
        refine ⟨sets2, g2, k2, ?_, hres⟩
        rw [List.foldlM_cons, downward_step_empty rng y sets g k i0 hs]
        simp only [pure_bind]
        exact hfold
      · have hsne : sets.getD i0 [] ≠ [] := by
          intro hc
          rw [hc] at hs
          exact hs rfl
        have hsf : (sets.getD i0 []).isEmpty = false := by
          cases hbe : (sets.getD i0 []).isEmpty
          · rfl
          · exact absurd hbe hs
        have hi0 : i0 < sets.length := by
          by_contra hge
          apply hsne
          rw [List.getD_eq_default]
          omega
        obtain ⟨cb, hcb_mem, hcb_y⟩ :=
          inv.row_bot i0 (List.mem_cons_self i0 L) hsne
        set s := sets.getD i0 [] with hsdef
        set bottom := s.filter (fun c => decide (c.y = y)) with hbot
        have hcb_bot : cb ∈ bottom := by
          rw [hbot, List.mem_filter]
          exact ⟨hcb_mem, decide_eq_true hcb_y⟩
        have hbotne : bottom ≠ [] := by
          intro hc
          rw [hc] at hcb_bot
          cases hcb_bot
        have hbotlen : 0 < bottom.length := List.length_pos.mpr hbotne
        have hbot_empty : bottom.isEmpty = false := by
          cases hbe : bottom.isEmpty
          · rfl
          · exact absurd (List.isEmpty_iff.mp hbe) hbotne
        set c := bottom.getD (rng k % bottom.length) default with hcdef
        have hc_bot : c ∈ bottom := getD_mem_of_lt _ _ _ (Nat.mod_lt _ hbotlen)
        have hc_mem : c ∈ s := (List.mem_filter.mp hc_bot).1
        have hc_y : c.y = y := of_decide_eq_true (List.mem_filter.mp hc_bot).2
        have hc_eta : (⟨c.x, y⟩ : Coordinates) = c := by
          rw [← hc_y]
        set south := c.next Direction.South with hsouth
        have hsouth_eq : south = ⟨c.x, c.y + 1⟩ := next_south c
        have hsouth_y : south.y = y + 1 := by
          rw [hsouth_eq]
          simp only
          omega
        have hsouth_x : south.x = c.x := by
          rw [hsouth_eq]
        have hsouth_ns : ¬ south ∈ s := by
          intro hmem
          have := inv.unproc i0 (List.mem_cons_self i0 L) south hmem
          omega
        have hsouth_nowhere : ∀ j, j < sets.length → ¬ south ∈ sets.getD j [] := by
          intro j hj hmem
          by_cases hji : j = i0
          · rw [hji] at hmem
            exact hsouth_ns hmem
          · have hcj : (⟨south.x, y⟩ : Coordinates) ∈ sets.getD j [] :=
              inv.shadow j hj south hmem hsouth_y
            rw [hsouth_x, hc_eta] at hcj
            exact inv.disj j i0 hj hi0 hji c hcj hc_mem
        have hfresh : g.contains_edge c south = false := by
          cases hce : g.contains_edge c south
          · rfl
          · exfalso
            rcases (contains_edge_iff_mem _ _ _).mp hce with hm | hm
            · obtain ⟨j, hjlt, _, hj2⟩ := inv.edge_set _ hm
              exact hsouth_nowhere j hjlt hj2
            · obtain ⟨j, hjlt, hj1, _⟩ := inv.edge_set _ hm
              exact hsouth_nowhere j hjlt hj1
        set sets1 := sets.set i0 (setInsert south s) with hsets1
        set g1 := g.add_edge c south with hg1
        have hget_i0 : sets1.getD i0 [] = setInsert south s := by
          rw [hsets1, getD_set_self sets i0 _ hi0]
        have hget_o : ∀ j, j ≠ i0 → sets1.getD j [] = sets.getD j [] := by
          intro j hj
          rw [hsets1, getD_set_ne sets i0 j _ (fun hc => hj hc.symm)]
        have hlen1 : sets1.length = sets.length := by
          rw [hsets1, List.length_set]
        have hsins : ∀ x, x ∈ setInsert south s ↔ x = south ∨ x ∈ s :=
          fun x => setInsert_mem south s x
        have hreach_mono : ∀ x z, g.Reachable x z → g1.Reachable x z := by
          intro x z hxz
          rw [hg1]
          exact reachable_add_edge_of g c south hxz
        have hcbounds := inv.mem_sub c ⟨i0, hi0, hc_mem⟩
        have hinv1 : DownInv w y L sets1 g1 := by
          refine ⟨by rw [hlen1, inv.len], ?_, ?_, ?_, ?_, ?_, ?_, ?_, ?_,
            ?_, ?_, ?_⟩
          · intro i hilt
            rw [hlen1] at hilt
            by_cases h1 : i = i0
            · rw [h1, hget_i0]
              exact setInsert_nodup south s (inv.nodup i0 hi0)
            · rw [hget_o i h1]
              exact inv.nodup i hilt
          · intro i j hilt hjlt hne x hxi hxj
            rw [hlen1] at hilt hjlt
            by_cases h1 : i = i0
            · have hj0 : j ≠ i0 := fun hc => hne (h1.trans hc.symm)
              rw [h1, hget_i0, hsins] at hxi
              rw [hget_o j hj0] at hxj
              rcases hxi with rfl | hxi
              · exact hsouth_nowhere j hjlt hxj
              · exact inv.disj i0 j hi0 hjlt (fun hc => hne (h1.trans hc)) x hxi hxj
            · rw [hget_o i h1] at hxi
              by_cases h2 : j = i0
              · rw [h2, hget_i0, hsins] at hxj
                rcases hxj with rfl | hxj
                · exact hsouth_nowhere i hilt hxi
                · exact inv.disj i i0 hilt hi0 h1 x hxi hxj
              · rw [hget_o j h2] at hxj
                exact inv.disj i j hilt hjlt hne x hxi hxj
          · intro x hx
            obtain ⟨i, hilt, hxi⟩ := hx
            rw [hlen1] at hilt
            by_cases h1 : i = i0
            · rw [h1, hget_i0, hsins] at hxi
              rcases hxi with rfl | hxi
              · refine ⟨?_, ?_, ?_, ?_⟩
                · rw [hsouth_x]; exact hcbounds.1
                · rw [hsouth_x]; exact hcbounds.2.1
                · omega
                · omega
              · exact inv.mem_sub x ⟨i0, hi0, hxi⟩
            · rw [hget_o i h1] at hxi
              exact inv.mem_sub x ⟨i, hilt, hxi⟩
          · intro x hx
            obtain ⟨i, hilt, hxi⟩ := inv.mem_sup x hx
            by_cases h1 : i = i0
            · refine ⟨i0, by rw [hlen1]; exact hi0, ?_⟩
              rw [hget_i0, hsins]
              right
              rw [h1] at hxi
              exact hxi
            · refine ⟨i, by rw [hlen1]; exact hilt, ?_⟩
              rw [hget_o i h1]
              exact hxi
          · intro i hilt a ha b hb
            rw [hlen1] at hilt
            have hbridge : g1.Reachable c south := by
              rw [hg1]
              exact reachable_add_edge_new g c south
            by_cases h1 : i = i0
            · rw [h1, hget_i0, hsins] at ha hb
              have hfa : ∀ x, x = south ∨ x ∈ s → g1.Reachable c x := by
                rintro x (rfl | hx)
                · exact hbridge
                · exact hreach_mono c x (inv.conn i0 hi0 c hc_mem x hx)
              exact reachable_trans g1 (reachable_symm g1 (hfa a ha)) (hfa b hb)
            · rw [hget_o i h1] at ha hb
              exact hreach_mono a b (inv.conn i hilt a ha b hb)
          · intro e he
            rw [hg1] at he
            rcases mem_add_edge_elim g c south e he with he1 | he1
            · obtain ⟨j, hjlt, hj1, hj2⟩ := inv.edge_set e he1
              by_cases h1 : j = i0
              · refine ⟨i0, by rw [hlen1]; exact hi0, ?_, ?_⟩
                · rw [hget_i0, hsins]
                  right
                  rw [h1] at hj1
                  exact hj1
                · rw [hget_i0, hsins]
                  right
                  rw [h1] at hj2
                  exact hj2
              · refine ⟨j, by rw [hlen1]; exact hjlt, ?_, ?_⟩
                · rw [hget_o j h1]
                  exact hj1
                · rw [hget_o j h1]
                  exact hj2
            · subst he1
              refine ⟨i0, by rw [hlen1]; exact hi0, ?_, ?_⟩
              · rw [hget_i0, hsins]
                exact Or.inr hc_mem
              · rw [hget_i0, hsins]
                exact Or.inl rfl
          · have hecount : g1.edgeCount = g.edgeCount + 1 := by
              rw [hg1]
              exact add_edge_edgeCount g c south hfresh
            have hilen : (setInsert south s).length = s.length + 1 :=
              setInsert_length_not_mem south s hsouth_ns
            have hins_ne : setInsert south s ≠ [] := by
              intro hc
              have : south ∈ setInsert south s := (hsins south).mpr (Or.inl rfl)
              rw [hc] at this
              cases this
            have hbe : ∀ t : EllersSet, t ≠ [] → (!t.isEmpty) = true := by
              intro t ht
              cases hbt : t.isEmpty
              · rfl
              · exact absurd (List.isEmpty_iff.mp hbt) ht
            have hsum := sum_map_set sets i0 (setInsert south s) hi0
            have hcp := countP_set sets (fun t => !t.isEmpty) i0
              (setInsert south s) hi0
            beta_reduce at hcp
            rw [← hsdef] at hsum hcp
            rw [if_pos (hbe s hsne), if_pos (hbe _ hins_ne)] at hcp
            rw [← hsets1] at hsum hcp
            have hc2 := inv.count
            rw [hecount]
            omega
          · intro i hi
            have hii0 : i ≠ i0 := fun hc => hi0nl (hc ▸ hi)
            rw [hget_o i hii0]
            exact inv.unproc i (List.mem_cons_of_mem i0 hi)
          · intro j hjlt m hm hmy
            rw [hlen1] at hjlt
            by_cases h1 : j = i0
            · rw [h1, hget_i0, hsins] at hm ⊢
              rcases hm with rfl | hm
              · right
                rw [hsouth_x, hc_eta]
                exact hc_mem
              · exfalso
                have := inv.unproc i0 (List.mem_cons_self i0 L) m hm
                omega
            · rw [hget_o j h1] at hm ⊢
              exact inv.shadow j hjlt m hm hmy
          · intro j hjlt hjl hne
            rw [hlen1] at hjlt
            by_cases h1 : j = i0
            · refine ⟨south, ?_, hsouth_y⟩
              rw [h1, hget_i0, hsins]
              exact Or.inl rfl
            · rw [hget_o j h1] at hne ⊢
              refine inv.procd j hjlt ?_ hne
              intro hc
              rcases List.mem_cons.mp hc with h | h
              · exact h1 h
              · exact hjl h
          · intro i hi
            have hii0 : i ≠ i0 := fun hc => hi0nl (hc ▸ hi)
            rw [hget_o i hii0]
            exact inv.row_bot i (List.mem_cons_of_mem i0 hi)
        obtain ⟨sets2, g2, k2, hfold, hres⟩ := ih hndl sets1 g1 (k + 1) hinv1
        have hbotf : ((sets.getD i0 []).filter
            (fun x => decide (x.y = y))).isEmpty = false := by
          rw [← hsdef, ← hbot]
          exact hbot_empty
        have hcraw : c = ((sets.getD i0 []).filter
            (fun x => decide (x.y = y))).getD
            (rng k % ((sets.getD i0 []).filter
              (fun x => decide (x.y = y))).length) default := by
          rw [hcdef, hbot, hsdef]
        refine ⟨sets2, g2, k2, ?_, hres⟩
        rw [List.foldlM_cons,
          downward_step_go rng y sets g k i0 c hsf hbotf hcraw]
        simp only [pure_bind]
        rw [← hsdef, ← hsouth, ← hsets1, ← hg1]
        exact hfold

/-- create_downward_connections under the family invariant: the pass
succeeds and yields the mid-state invariant. -/
theorem create_downward_inv_spec (rng : Nat → Nat) (w y : Int)
    (sets : List EllersSet) (g : MazeGraph) (k : Nat)
    (inv : EllerInv w y sets g) :
    ∃ sets2 g2 k2,
      create_downward_connections rng y sets g k = .ok (sets2, g2, k2) ∧
      EllerMid w y sets2 g2 := by
  have hstart : DownInv w y (List.range sets.length) sets g := by
    refine ⟨inv.len, inv.nodup, inv.disj, ?_, ?_, inv.conn, inv.edge_set,
      inv.count, ?_, ?_, ?_, ?_⟩
    · intro c hc
      have := (inv.mem_iff c).mp hc
      exact ⟨this.1, this.2.1, this.2.2.1, by omega⟩
    · intro c hc
      exact (inv.mem_iff c).mpr hc
    · intro i _ m hm
      have hi2 : i < sets.length := by
        by_contra hge
        rw [List.getD_eq_default] at hm
        · cases hm
        · omega
      exact ((inv.mem_iff m).mp ⟨i, hi2, hm⟩).2.2.2
    · intro j hjlt m hm hmy
      exfalso
      have := ((inv.mem_iff m).mp ⟨j, hjlt, hm⟩).2.2.2
      omega
    · intro j hjlt hjr
      exact absurd (List.mem_range.mpr hjlt) hjr
    · intro i hi
      exact inv.bottom i (List.mem_range.mp hi)
  obtain ⟨sets2, g2, k2, hfold, hres⟩ := downward_fold_inv_spec rng w y
    (List.range sets.length) (List.nodup_range sets.length) sets g k hstart
  refine ⟨sets2, g2, k2, ?_, ?_⟩
  · rw [create_downward_eq]
    exact hfold
  · exact ⟨hres.len, hres.nodup, hres.disj, hres.mem_sub, hres.mem_sup,
      fun j hjlt hne => hres.procd j hjlt (List.not_mem_nil j) hne,
      hres.conn, hres.edge_set, hres.count⟩

theorem mem_iff_getD (l : List EllersSet) (s : EllersSet) (h : s ∈ l) :
    ∃ i, i < l.length ∧ l.getD i [] = s := by
  obtain ⟨i, hi, hg⟩ := List.mem_iff_getElem.mp h
  refine ⟨i, hi, ?_⟩
  rw [List.getD_eq_getElem l [] hi]
  exact hg

/-- When every slot is nonempty, each holds a distinct member of row y+1,
so all width cells of row y+1 are already present: a cell of row y+1 that
is in no slot guarantees an empty slot exists. -/
theorem flesh_pigeonhole (w y : Int) (sets : List EllersSet)
    (hlen : sets.length = w.toNat)
    (disj : ∀ i j : Nat, i < sets.length → j < sets.length → i ≠ j →
      ∀ c, c ∈ sets.getD i [] → ¬ c ∈ sets.getD j [])
    (hsub : ∀ c : Coordinates, (∃ i, i < sets.length ∧ c ∈ sets.getD i []) →
      (0 ≤ c.x ∧ c.x < w ∧ 0 ≤ c.y ∧ c.y ≤ y + 1))
    (hbot : ∀ i, i < sets.length → sets.getD i [] ≠ [] →
      ∃ m ∈ sets.getD i [], m.y = y + 1)
    (hall : ∀ i, i < sets.length → sets.getD i [] ≠ [])
    (ix : Nat) (hix : ix < w.toNat)
    (hmiss : ∀ i, i < sets.length →
      ¬ (⟨(ix : Int), y + 1⟩ : Coordinates) ∈ sets.getD i []) :
    False := by
  set f : Nat → Coordinates := fun i =>
    ((sets.getD i []).find? (fun m => decide (m.y = y + 1))).getD default
    with hf
  have hfspec : ∀ i, i < sets.length →
      f i ∈ sets.getD i [] ∧ (f i).y = y + 1 := by
    intro i hi
    obtain ⟨m, hm, hmy⟩ := hbot i hi (hall i hi)
    have hsome : ((sets.getD i []).find?
        (fun m => decide (m.y = y + 1))).isSome := by
      rw [List.find?_isSome]
      exact ⟨m, hm, decide_eq_true hmy⟩
    obtain ⟨m2, hm2⟩ := Option.isSome_iff_exists.mp hsome
    have hmem2 : m2 ∈ sets.getD i [] := List.mem_of_find?_eq_some hm2
    have hp := List.find?_some hm2
    simp only [decide_eq_true_eq] at hp
    rw [hf]
    simp only [hm2, Option.getD_some]
    exact ⟨hmem2, hp⟩
  set rowList : List Coordinates :=
    (List.range w.toNat).map
      (fun (x : Nat) => (⟨(x : Int), y + 1⟩ : Coordinates)) with hrow
  have hrow_mem : ∀ m : Coordinates, m.y = y + 1 → 0 ≤ m.x → m.x < w →
      m ∈ rowList := by
    intro m hmy hx0 hxw
    rw [hrow, List.mem_map]
    refine ⟨m.x.toNat, List.mem_range.mpr (by omega), ?_⟩
    have hxx : ((m.x.toNat : Nat) : Int) = m.x := by omega
    rw [hxx, ← hmy]
  have hme : (⟨(ix : Int), y + 1⟩ : Coordinates) ∈ rowList := by
    rw [hrow, List.mem_map]
    exact ⟨ix, List.mem_range.mpr hix, rfl⟩
  set cl : List Coordinates := (List.range sets.length).map f with hcl
  have hclnd : cl.Nodup := by
    rw [hcl]
    refine List.Nodup.map_on ?_ (List.nodup_range sets.length)
    intro a ha b hb hab
    rw [List.mem_range] at ha hb
    by_contra hne
    obtain ⟨hfa, _⟩ := hfspec a ha
    obtain ⟨hfb, _⟩ := hfspec b hb
    rw [hab] at hfa
    exact disj b a hb ha (fun hc => hne hc.symm) (f b) hfb hfa
  have hclsub : ∀ m ∈ cl, m ∈ rowList.erase ⟨(ix : Int), y + 1⟩ := by
    intro m hm
    rw [hcl, List.mem_map] at hm
    obtain ⟨i, hi, rfl⟩ := hm
    rw [List.mem_range] at hi
    obtain ⟨hfi_mem, hfi_y⟩ := hfspec i hi
    have hbnds := hsub (f i) ⟨i, hi, hfi_mem⟩
    have hne : f i ≠ ⟨(ix : Int), y + 1⟩ := by
      intro hc
      apply hmiss i hi
      rw [← hc]
      exact hfi_mem
    exact (List.mem_erase_of_ne hne).mpr
      (hrow_mem (f i) hfi_y hbnds.1 hbnds.2.1)
  have hrowlen : rowList.length = w.toNat := by
    rw [hrow, List.length_map, List.length_range]
  have herase_len : (rowList.erase ⟨(ix : Int), y + 1⟩).length =
      rowList.length - 1 := List.length_erase_of_mem hme
  have hle := nodup_subset_length_le cl
    (rowList.erase ⟨(ix : Int), y + 1⟩) hclnd (fun a ha => hclsub a ha)
  have hcllen : cl.length = sets.length := by
    rw [hcl, List.length_map, List.length_range]
  omega

theorem flesh_out_eq (y : Int) (sets : List EllersSet) :
    flesh_out_next_row y sets =
      (List.range sets.length).foldlM (flesh_step y) sets := by
  unfold flesh_out_next_row flesh_step
  rfl

theorem flesh_step_present (y : Int) (sets : List EllersSet) (ix : Nat)
    (h : sets.any (fun s =>
      s.contains (⟨(ix : Int), y + 1⟩ : Coordinates)) = true) :
    flesh_step y sets ix = pure sets := by
  unfold flesh_step
  dsimp only
  rw [if_pos h]

theorem flesh_step_insert (y : Int) (sets : List EllersSet) (ix ie : Nat)
    (h : sets.any (fun s =>
      s.contains (⟨(ix : Int), y + 1⟩ : Coordinates)) = false)
    (hidx : sets.findIdx? (fun s => s.isEmpty) = some ie) :
    flesh_step y sets ix = pure (sets.set ie
      (setInsert ⟨(ix : Int), y + 1⟩ (sets.getD ie []))) := by
  unfold flesh_step
  dsimp only
  rw [if_neg (by rw [h]; exact Bool.false_ne_true), hidx]

/-- The row-fleshing pass over any column list: the mid-state invariant is
preserved, the pass succeeds (the no-empty-set error is unreachable), and
afterwards every processed column of row y+1 lies in some slot. -/
theorem flesh_fold_spec (w y : Int) (g : MazeGraph) (hy : 0 ≤ y) :
    ∀ (L : List Nat) (sets : List EllersSet),
      EllerMid w y sets g →
      (∀ ix ∈ L, ix < w.toNat) →
      (∀ ix : Nat, ix < w.toNat → ¬ ix ∈ L →
        ∃ i, i < sets.length ∧
          (⟨(ix : Int), y + 1⟩ : Coordinates) ∈ sets.getD i []) →
      ∃ sets2,
        L.foldlM (flesh_step y) sets = .ok sets2 ∧
        EllerMid w y sets2 g ∧
        ∀ ix : Nat, ix < w.toNat →
          ∃ i, i < sets2.length ∧
            (⟨(ix : Int), y + 1⟩ : Coordinates) ∈ sets2.getD i [] := by
  intro L
  induction L with
  | nil =>
      intro sets mid _ hcov
      exact ⟨sets, rfl, mid, fun ix hix => hcov ix hix (List.not_mem_nil ix)⟩
  | cons ix0 L ih =>
      intro sets mid hb hcov
      have hb0 : ix0 < w.toNat := hb ix0 (List.mem_cons_self ix0 L)
      by_cases hany : sets.any (fun s =>
          s.contains (⟨(ix0 : Int), y + 1⟩ : Coordinates)) = true
      · have hpres : ∃ i, i < sets.length ∧
            (⟨(ix0 : Int), y + 1⟩ : Coordinates) ∈ sets.getD i [] := by
          rw [List.any_eq_true] at hany
          obtain ⟨s, hsmem, hcs⟩ := hany
          obtain ⟨i, hi, hgi⟩ := mem_iff_getD sets s hsmem
          refine ⟨i, hi, ?_⟩
          rw [hgi]
          exact (contains_iff_mem s _).mp hcs
        obtain ⟨sets2, hfold, mid2, hcov2⟩ := ih sets mid
          (fun i hi => hb i (List.mem_cons_of_mem ix0 hi))
          (by
            intro ix hix hnl
            by_cases hx0 : ix = ix0
            · rw [hx0]
              exact hpres
            · exact hcov ix hix (fun hc => by
                rcases List.mem_cons.mp hc with h | h
                · exact hx0 h
                · exact hnl h))
        refine ⟨sets2, ?_, mid2, hcov2⟩
        rw [List.foldlM_cons, flesh_step_present y sets ix0 hany]
        simp only [pure_bind]
        exact hfold
      · have hanyf : sets.any (fun s =>
            s.contains (⟨(ix0 : Int), y + 1⟩ : Coordinates)) = false := by
          cases hb2 : sets.any (fun s =>
            s.contains (⟨(ix0 : Int), y + 1⟩ : Coordinates))
          · rfl
          · exact absurd hb2 hany
        have hnone : ∀ i, i < sets.length →
            ¬ (⟨(ix0 : Int), y + 1⟩ : Coordinates) ∈ sets.getD i [] := by
          intro i hi hmem
          rw [List.any_eq_false] at hanyf
          exact hanyf (sets.getD i []) (mem_getD_of_lt_length sets i hi)
            ((contains_iff_mem _ _).mpr hmem)
        rcases hidx : sets.findIdx? (fun s => s.isEmpty) with _ | ie
        · exfalso
          have hall : ∀ i, i < sets.length → sets.getD i [] ≠ [] := by
            intro i hi hc
            rw [List.findIdx?_eq_none_iff] at hidx
            have := hidx (sets.getD i []) (mem_getD_of_lt_length sets i hi)
            rw [hc] at this
            cases this
          exact flesh_pigeonhole w y sets mid.len mid.disj mid.mem_sub
            mid.bottom hall ix0 hb0 hnone
        · obtain ⟨hie, hie_p⟩ := findIdx?_bound_pred _ sets ie hidx
          have hie_empty : sets.getD ie [] = [] := List.isEmpty_iff.mp hie_p
          set c : Coordinates := ⟨(ix0 : Int), y + 1⟩ with hcdef
          set sets1 := sets.set ie (setInsert c (sets.getD ie [])) with hsets1
          have hget_ie : sets1.getD ie [] = [c] := by
            rw [hsets1, getD_set_self sets ie _ hie, hie_empty]
            rfl
          have hget_o : ∀ j, j ≠ ie → sets1.getD j [] = sets.getD j [] := by
            intro j hj
            rw [hsets1, getD_set_ne sets ie j _ (fun hc => hj hc.symm)]
          have hlen1 : sets1.length = sets.length := by
            rw [hsets1, List.length_set]
          have hgrow : ∀ j x, x ∈ sets.getD j [] → x ∈ sets1.getD j [] := by
            intro j x hx
            by_cases hj : j = ie
            · rw [hj, hie_empty] at hx
              cases hx
            · rw [hget_o j hj]
              exact hx
          have hcy : c.y = y + 1 := rfl
          have hcx : c.x = (ix0 : Int) := rfl
          have mid1 : EllerMid w y sets1 g := by
            refine ⟨by rw [hlen1, mid.len], ?_, ?_, ?_, ?_, ?_, ?_, ?_, ?_⟩
            · intro i hilt
              rw [hlen1] at hilt
              by_cases h1 : i = ie
              · rw [h1, hget_ie]
                exact List.nodup_singleton c
              · rw [hget_o i h1]
                exact mid.nodup i hilt
            · intro i j hilt hjlt hne x hxi hxj
              rw [hlen1] at hilt hjlt
              by_cases h1 : i = ie
              · rw [h1, hget_ie, List.mem_singleton] at hxi
                subst hxi
                have hj1 : j ≠ ie := fun hc => hne (h1.trans hc.symm)
                rw [hget_o j hj1] at hxj
                exact hnone j hjlt hxj
              · rw [hget_o i h1] at hxi
                by_cases h2 : j = ie
                · rw [h2, hget_ie, List.mem_singleton] at hxj
                  subst hxj
                  exact hnone i hilt hxi
                · rw [hget_o j h2] at hxj
                  exact mid.disj i j hilt hjlt hne x hxi hxj
            · intro x hx
              obtain ⟨i, hilt, hxi⟩ := hx
              rw [hlen1] at hilt
              by_cases h1 : i = ie
              · rw [h1, hget_ie, List.mem_singleton] at hxi
                subst hxi
                refine ⟨?_, ?_, ?_, ?_⟩
                · rw [hcx]; omega
                · rw [hcx]; omega
                · rw [hcy]; omega
                · rw [hcy]
              · rw [hget_o i h1] at hxi
                exact mid.mem_sub x ⟨i, hilt, hxi⟩
            · intro x hx
              obtain ⟨i, hilt, hxi⟩ := mid.mem_sup x hx
              exact ⟨i, by rw [hlen1]; exact hilt, hgrow i x hxi⟩
            · intro i hilt hne
              rw [hlen1] at hilt
              by_cases h1 : i = ie
              · rw [h1, hget_ie]
                exact ⟨c, List.mem_singleton_self c, hcy⟩
              · rw [hget_o i h1] at hne ⊢
                exact mid.bottom i hilt hne
            · intro i hilt a ha b hb2
              rw [hlen1] at hilt
              by_cases h1 : i = ie
              · rw [h1, hget_ie, List.mem_singleton] at ha hb2
                rw [ha, hb2]
                exact reachable_refl g c
              · rw [hget_o i h1] at ha hb2
                exact mid.conn i hilt a ha b hb2
            · intro e he
              obtain ⟨i, hilt, h1, h2⟩ := mid.edge_set e he
              exact ⟨i, by rw [hlen1]; exact hilt, hgrow i e.1 h1,
                hgrow i e.2 h2⟩
            · have hsingle : setInsert c ([] : EllersSet) = [c] := rfl
              have hif1 : (if (!([] : EllersSet).isEmpty) = true
                  then 1 else 0) = 0 := rfl
              have hif2 : (if (!([c] : EllersSet).isEmpty) = true
                  then 1 else 0) = 1 := rfl
              have hsum := sum_map_set sets ie (setInsert c (sets.getD ie []))
                hie
              have hcp := countP_set sets (fun t => !t.isEmpty) ie
                (setInsert c (sets.getD ie [])) hie
              beta_reduce at hcp
              rw [← hsets1] at hsum hcp
              rw [hie_empty, hsingle] at hsum hcp
              simp only [List.length_nil, List.length_singleton] at hsum
              rw [hif1, hif2] at hcp
              have hc2 := mid.count
              omega
          obtain ⟨sets2, hfold, mid2, hcov2⟩ := ih sets1 mid1
            (fun i hi => hb i (List.mem_cons_of_mem ix0 hi))
            (by
              intro ix hix hnl
              by_cases hx0 : ix = ix0
              · refine ⟨ie, by rw [hlen1]; exact hie, ?_⟩
                rw [hx0, hget_ie]
                exact List.mem_singleton_self c
              · obtain ⟨i, hilt, hmem⟩ := hcov ix hix (fun hc => by
                  rcases List.mem_cons.mp hc with h | h
                  · exact hx0 h
                  · exact hnl h)
                exact ⟨i, by rw [hlen1]; exact hilt, hgrow i _ hmem⟩)
          refine ⟨sets2, ?_, mid2, hcov2⟩
          rw [List.foldlM_cons, flesh_step_insert y sets ix0 ie hanyf hidx]
          simp only [pure_bind]
          rw [← hcdef, ← hsets1]
          exact hfold

/-- flesh_out_next_row under the mid-state invariant restores the full
family invariant at the next row. -/
theorem flesh_out_inv_spec (w y : Int) (g : MazeGraph) (hy : 0 ≤ y)
    (sets : List EllersSet) (mid : EllerMid w y sets g) :
    ∃ sets2, flesh_out_next_row y sets = .ok sets2 ∧
      EllerInv w (y + 1) sets2 g := by
  obtain ⟨sets2, hfold, mid2, hcov⟩ := flesh_fold_spec w y g hy
    (List.range sets.length) sets mid
    (fun ix hix => by
      rw [← mid.len]
      exact List.mem_range.mp hix)
    (fun ix hix hnl => absurd (List.mem_range.mpr (by
      rw [mid.len]
      exact hix)) hnl)
  refine ⟨sets2, ?_, ?_⟩
  · rw [flesh_out_eq]
    exact hfold
  · refine ⟨mid2.len, mid2.nodup, mid2.disj, ?_, mid2.bottom, mid2.conn,
      mid2.edge_set, mid2.count⟩
    intro c
    constructor
    · intro hc
      exact mid2.mem_sub c hc
    · intro hbnd
      by_cases hcy : c.y ≤ y
      · exact mid2.mem_sup c ⟨hbnd.1, hbnd.2.1, hbnd.2.2.1, hcy⟩
      · have hcy1 : c.y = y + 1 := by omega
        obtain ⟨i, hilt, hmem⟩ := hcov c.x.toNat (by omega)
        refine ⟨i, hilt, ?_⟩
        have hcast : ((c.x.toNat : Nat) : Int) = c.x := by omega
        have heq : (⟨((c.x.toNat : Nat) : Int), y + 1⟩ : Coordinates) = c := by
          rw [hcast, ← hcy1]
        rw [heq] at hmem
        exact hmem

theorem except_bind_ok {α β : Type} (a : α)
    (f : α → Except GenericGeneratorError β) :
    (Except.ok a >>= f) = f a := rfl

theorem ellers_generate_eq (rng : Nat → Nat) (w h : Int) :
    ellers_generate rng w h = (do
      let r ← (List.range (h - 1).toNat).foldlM (ellers_row_fun rng)
        (init_fields_first_row w, [], 0)
      let r2 ← join_last_rows (h - 1) r.1 r.2.1
      let start : Coordinates := ⟨0, 0⟩
      pure ⟨r2.2, start, find_suitable_goal r2.2 start, (w, h)⟩) := by
  unfold ellers_generate ellers_row_fun
  rfl

/-- One whole row iteration of the Ellers generator advances the family
invariant from row y to row y+1 and never fails. -/
theorem ellers_row_step_spec (rng : Nat → Nat) (w : Int) (y : Nat)
    (sets : List EllersSet) (g : MazeGraph) (k : Nat)
    (inv : EllerInv w (y : Int) sets g) :
    ∃ sets2 g2 k2, ellers_row_fun rng (sets, g, k) y = .ok (sets2, g2, k2) ∧
      EllerInv w ((y : Int) + 1) sets2 g2 := by
  have hy : (0 : Int) ≤ (y : Int) := by omega
  obtain ⟨s1, g1, k1, hfold1, inv1⟩ := rjf_fold_spec rng w (y : Int)
    (List.range (sets.length - 1)) sets g k inv hy
    (by
      intro ix hix
      rw [List.mem_range] at hix
      have := inv.len
      omega)
  have h1 : randomly_join_fields rng (y : Int) sets g k = .ok (s1, g1, k1) := by
    rw [randomly_join_eq]
    exact hfold1
  obtain ⟨s2, g2, k2, h2, mid⟩ :=
    create_downward_inv_spec rng w (y : Int) s1 g1 k1 inv1
  obtain ⟨s3, h3, inv3⟩ := flesh_out_inv_spec w (y : Int) g2 hy s2 mid
  refine ⟨s3, g2, k2, ?_, inv3⟩
  unfold ellers_row_fun
  dsimp only
  rw [h1, except_bind_ok]
  dsimp only
  rw [h2, except_bind_ok]
  dsimp only
  rw [h3, except_bind_ok]
  rfl

/-- The row loop of the Ellers generator over any contiguous row range. -/
theorem ellers_rows_spec (rng : Nat → Nat) (w : Int) :
    ∀ (m a : Nat) (sets : List EllersSet) (g : MazeGraph) (k : Nat),
      EllerInv w (a : Int) sets g →
      ∃ sets2 g2 k2,
        (List.range' a m).foldlM (ellers_row_fun rng) (sets, g, k) =
          .ok (sets2, g2, k2) ∧
        EllerInv w ((a + m : Nat) : Int) sets2 g2 := by
  intro m
  induction m with
  | zero =>
      intro a sets g k inv
      exact ⟨sets, g, k, rfl, inv⟩
  | succ m ih =>
      intro a sets g k inv
      obtain ⟨s1, g1, k1, hstep, inv1⟩ :=
        ellers_row_step_spec rng w a sets g k inv
      have inv1' : EllerInv w ((a + 1 : Nat) : Int) s1 g1 := by
        have hc : ((a + 1 : Nat) : Int) = (a : Int) + 1 := by push_cast; ring
        rw [hc]
        exact inv1
      obtain ⟨s2, g2, k2, hfold, inv2⟩ := ih (a + 1) s1 g1 k1 inv1'
      refine ⟨s2, g2, k2, ?_, ?_⟩
      · rw [List.range'_succ, List.foldlM_cons, hstep, except_bind_ok]
        exact hfold
      · have hc : a + (m + 1) = (a + 1) + m := by omega
        rw [hc]
        exact inv2

theorem sum_map_const_one {α : Type} (l : List α) :
    (l.map (fun _ => (1 : Nat))).sum = l.length := by
  induction l with
  | nil => rfl
  | cons a l ih =>
      simp only [List.map_cons, List.sum_cons, ih, List.length_cons]
      omega

/-- The family invariant holds for the initial first-row singleton sets. -/
theorem init_inv (w : Int) (hw : 0 < w) :
    EllerInv w 0 (init_fields_first_row w) [] := by
  have hlen : (init_fields_first_row w).length = w.toNat := by
    unfold init_fields_first_row
    rw [List.length_map, List.length_range]
  have hgi : ∀ i, i < w.toNat →
      (init_fields_first_row w).getD i [] = [⟨(i : Int), 0⟩] := by
    intro i hi
    unfold init_fields_first_row
    have hi2 : i < ((List.range w.toNat).map
        (fun (x : Nat) => [(⟨(x : Int), 0⟩ : Coordinates)])).length := by
      rw [List.length_map, List.length_range]
      exact hi
    rw [List.getD_eq_getElem _ [] hi2, List.getElem_map, List.getElem_range]
  refine ⟨hlen, ?_, ?_, ?_, ?_, ?_, ?_, ?_⟩
  · intro i hi
    rw [hlen] at hi
    rw [hgi i hi]
    exact List.nodup_singleton _
  · intro i j hi hj hne c hci hcj
    rw [hlen] at hi hj
    rw [hgi i hi, List.mem_singleton] at hci
    rw [hgi j hj, List.mem_singleton] at hcj
    apply hne
    have := hci.symm.trans hcj
    have hxx := congrArg Coordinates.x this
    simp only [Int.natCast_inj] at hxx
    exact hxx
  · intro c
    constructor
    · rintro ⟨i, hi, hci⟩
      rw [hlen] at hi
      rw [hgi i hi, List.mem_singleton] at hci
      subst hci
      refine ⟨?_, ?_, ?_, ?_⟩
      · exact (by omega : (0 : Int) ≤ (i : Int))
      · exact (by omega : (i : Int) < w)
      · exact le_refl 0
      · exact le_refl 0
    · rintro ⟨h1, h2, h3, h4⟩
      have hy0 : c.y = 0 := by omega
      refine ⟨c.x.toNat, ?_, ?_⟩
      · rw [hlen]
        omega
      · rw [hgi c.x.toNat (by omega), List.mem_singleton]
        have hcast : ((c.x.toNat : Nat) : Int) = c.x := by omega
        rw [hcast, ← hy0]
  · intro i hi hne
    rw [hlen] at hi
    rw [hgi i hi]
    exact ⟨⟨(i : Int), 0⟩, List.mem_singleton_self _, rfl⟩
  · intro i hi a ha b hb
    rw [hlen] at hi
    rw [hgi i hi, List.mem_singleton] at ha hb
    rw [ha, hb]
    exact reachable_refl [] _
  · intro e he
    cases he
  · have hcp : (init_fields_first_row w).countP (fun s => !s.isEmpty) =
        (init_fields_first_row w).length := by
      rw [List.countP_eq_length]
      intro s hs
      unfold init_fields_first_row at hs
      rw [List.mem_map] at hs
      obtain ⟨x, _, rfl⟩ := hs
      rfl
    have hsum : ((init_fields_first_row w).map List.length).sum =
        (init_fields_first_row w).length := by
      unfold init_fields_first_row
      rw [List.map_map]
      have : (List.length ∘ fun (x : Nat) =>
          [(⟨(x : Int), 0⟩ : Coordinates)]) = (fun _ => (1 : Nat)) := by
        funext x
        rfl
      rw [this, List.length_map]
      exact sum_map_const_one _
    rw [hcp, hsum]
    have h0 : MazeGraph.edgeCount ([] : MazeGraph) = 0 := rfl
    omega

theorem countP_eq_one_of_unique (l : List EllersSet) :
    ∀ i : Nat, i < l.length → (l.getD i []).isEmpty = false →
      (∀ j, j < l.length → (l.getD j []).isEmpty = false → j = i) →
      l.countP (fun s => !s.isEmpty) = 1 := by
  induction l with
  | nil => intro i hi; cases hi
  | cons x xs ih =>
      intro i hi hne huniq
      rw [List.countP_cons]
      cases i with
      | zero =>
          have hx : (!x.isEmpty) = true := by
            rw [List.getD_cons_zero] at hne
            rw [hne]
            rfl
          have hxs : xs.countP (fun s => !s.isEmpty) = 0 := by
            rw [List.countP_eq_zero]
            intro s hs
            obtain ⟨j, hj, hgj⟩ := mem_iff_getD xs s hs
            have := huniq (j + 1) (by simpa using hj)
            rw [List.getD_cons_succ, hgj] at this
            intro hc
            cases hbs : s.isEmpty
            · exact absurd (this hbs) (by omega)
            · rw [hbs] at hc
              cases hc
          rw [hxs, hx]
          rfl
      | succ i2 =>
          have hx : (!x.isEmpty) = false := by
            cases hbx : x.isEmpty
            · exfalso
              have := huniq 0 (by simp)
              rw [List.getD_cons_zero] at this
              have h0 := this hbx
              omega
            · rfl
          rw [hx]
          simp only [Bool.false_eq_true, if_false, Nat.add_zero]
          rw [List.getD_cons_succ] at hne
          refine ih i2 (by simpa using hi) hne ?_
          intro j hj hjne
          have := huniq (j + 1) (by simpa using hj)
          rw [List.getD_cons_succ] at this
          have h2 := this hjne
          omega

/-- Ellers generate on a positive size succeeds and returns a spanning
tree on the grid: exactly width*height minus one edges, every in-bounds
cell reachable from the start through the graph, for every random
stream. -/
theorem ellers_generate_spec (rng : Nat → Nat) (w h : Int) (hw : 0 < w)
    (hh : 0 < h) :
    ∃ m, ellers_generate rng w h = .ok m ∧
      m.start = ⟨0, 0⟩ ∧ m.size = (w, h) ∧
      m.goal = find_suitable_goal m.graph ⟨0, 0⟩ ∧
      m.graph.edgeCount + 1 = w.toNat * h.toNat ∧
      (∀ c, insideBounds w h c = true → m.graph.Reachable ⟨0, 0⟩ c) := by
  have hinit : EllerInv w ((0 : Nat) : Int) (init_fields_first_row w) [] := by
    have h0 : ((0 : Nat) : Int) = 0 := rfl
    rw [h0]
    exact init_inv w hw
  obtain ⟨s1, g1, k1, hrows, inv1c⟩ := ellers_rows_spec rng w (h - 1).toNat 0
    (init_fields_first_row w) [] 0 hinit
  have hcast : (((0 + (h - 1).toNat : Nat)) : Int) = h - 1 := by omega
  have inv1 : EllerInv w (h - 1) s1 g1 := by
    rw [hcast] at inv1c
    exact inv1c
  have hy : (0 : Int) ≤ h - 1 := by omega
  have hstart1 : ∃ i, i < s1.length ∧
      (⟨0, h - 1⟩ : Coordinates) ∈ s1.getD i [] := by
    apply (inv1.mem_iff ⟨0, h - 1⟩).mpr
    exact ⟨le_refl 0, hw, hy, le_refl (h - 1)⟩
  obtain ⟨i0, hi0, hmem0⟩ := hstart1
  obtain ⟨s2, g2, hjlrf, inv2, i2, hi2, hx2⟩ := jlr_fold_spec w (h - 1) hy
    (w.toNat - 1) 0 s1 g1 inv1 (by
      have := inv1.len
      omega)
    (by
      refine ⟨i0, hi0, ?_⟩
      intro x hx
      have hx0 : x = 0 := by omega
      subst hx0
      have hcc : ((0 : Nat) : Int) = 0 := rfl
      rw [hcc]
      exact hmem0)
  have hjlr : join_last_rows (h - 1) s1 g1 = .ok (s2, g2) := by
    rw [join_last_rows_eq, inv1.len, List.range_eq_range']
    exact hjlrf
  have hne2 : s2.getD i2 [] ≠ [] := by
    intro hc
    have hm := hx2 0 (by omega)
    rw [hc] at hm
    cases hm
  have huniq : ∀ j, j < s2.length → s2.getD j [] ≠ [] → j = i2 := by
    intro j hj hne
    obtain ⟨c, hcm, hcy⟩ := inv2.bottom j hj hne
    have hbnds := (inv2.mem_iff c).mp ⟨j, hj, hcm⟩
    have hmem2 := hx2 c.x.toNat (by omega)
    have hceq : (⟨((c.x.toNat : Nat) : Int), h - 1⟩ : Coordinates) = c := by
      have hcc : ((c.x.toNat : Nat) : Int) = c.x := by omega
      rw [hcc, ← hcy]
    rw [hceq] at hmem2
    exact slot_eq_of_mem_both s2 j i2 hj hi2 inv2.disj c hcm hmem2
  have hcp1 : s2.countP (fun s => !s.isEmpty) = 1 := by
    refine countP_eq_one_of_unique s2 i2 hi2 ?_ ?_
    · cases hbe : (s2.getD i2 []).isEmpty
      · rfl
      · exact absurd (List.isEmpty_iff.mp hbe) hne2
    · intro j hj hjne
      refine huniq j hj ?_
      intro hc
      rw [hc] at hjne
      cases hjne
  have hmemflat : ∀ c : Coordinates,
      c ∈ s2.flatten ↔ insideBounds w h c = true := by
    intro c
    rw [List.mem_flatten]
    constructor
    · rintro ⟨s, hs, hcs⟩
      obtain ⟨i, hi, hgi⟩ := mem_iff_getD s2 s hs
      have hb := (inv2.mem_iff c).mp ⟨i, hi, by rw [hgi]; exact hcs⟩
      rw [insideBounds_iff]
      exact ⟨hb.1, hb.2.1, hb.2.2.1, by omega⟩
    · intro hc
      rw [insideBounds_iff] at hc
      obtain ⟨i, hi, hci⟩ := (inv2.mem_iff c).mpr
        ⟨hc.1, hc.2.1, hc.2.2.1, by omega⟩
      exact ⟨s2.getD i [], mem_getD_of_lt_length s2 i hi, hci⟩
  have hflatnodup : s2.flatten.Nodup := by
    rw [List.nodup_flatten]
    constructor
    · intro l hl
      obtain ⟨i, hi, hgi⟩ := mem_iff_getD s2 l hl
      rw [← hgi]
      exact inv2.nodup i hi
    · rw [List.pairwise_iff_getElem]
      intro i j hi hj hij
      intro c hci hcj
      have h1 : c ∈ s2.getD i [] := by
        rw [List.getD_eq_getElem s2 [] hi]
        exact hci
      have h2 : c ∈ s2.getD j [] := by
        rw [List.getD_eq_getElem s2 [] hj]
        exact hcj
      exact inv2.disj i j hi hj (by omega) c h1 h2
  have hflatlen : s2.flatten.length = w.toNat * h.toNat := by
    have heq := nodup_both_subset_length_eq s2.flatten (cellsList w h)
      hflatnodup (cellsList_nodup w h)
      (fun c hc => (mem_cellsList w h c).mpr ((hmemflat c).mp hc))
      (fun c hc => (hmemflat c).mpr ((mem_cellsList w h c).mp hc))
    rw [heq, cellsList_length]
  have hcount : g2.edgeCount + 1 = w.toNat * h.toNat := by
    have hc := inv2.count
    rw [hcp1] at hc
    rw [← hflatlen, List.length_flatten]
    omega
  have hreach : ∀ c, insideBounds w h c = true →
      g2.Reachable ⟨0, 0⟩ c := by
    intro c hc
    rw [insideBounds_iff] at hc
    obtain ⟨j, hj, hcj⟩ := (inv2.mem_iff c).mpr
      ⟨hc.1, hc.2.1, hc.2.2.1, by omega⟩
    have hj2 : j = i2 := huniq j hj (by
      intro hce
      rw [hce] at hcj
      cases hcj)
    rw [hj2] at hcj
    have hc0 : (⟨0, 0⟩ : Coordinates) ∈ s2.getD i2 [] := by
      obtain ⟨j0, hj0, hcj0⟩ := (inv2.mem_iff ⟨0, 0⟩).mpr
        ⟨le_refl 0, hw, le_refl 0, (by omega : (0 : Int) ≤ h - 1)⟩
      have hj02 := huniq j0 hj0 (by
        intro hce
        rw [hce] at hcj0
        cases hcj0)
      rw [hj02] at hcj0
      exact hcj0
    exact inv2.conn i2 hi2 ⟨0, 0⟩ hc0 c hcj
  refine ⟨⟨g2, ⟨0, 0⟩, find_suitable_goal g2 ⟨0, 0⟩, (w, h)⟩, ?_, rfl, rfl,
    rfl, hcount, hreach⟩
  rw [ellers_generate_eq, List.range_eq_range', hrows, except_bind_ok]
  dsimp only
  rw [hjlr, except_bind_ok]
  rfl

/-- find_unvisited_neighbours collects exactly the in-bounds unvisited
neighbours of the cell. -/
theorem mem_find_unvisited_neighbours (w h : Int) (vis : List Coordinates)
    (c u : Coordinates) :
    u ∈ find_unvisited_neighbours w h vis c ↔
      (∃ d, u = c.next d) ∧ insideBounds w h u = true ∧ ¬ u ∈ vis := by
  unfold find_unvisited_neighbours
  have key : ∀ (ds : List Direction) (acc : List Coordinates),
      u ∈ ds.foldl (fun acc d =>
        let n := c.next d
        if insideBounds w h n && ¬ (n ∈ vis) then acc ++ [n] else acc) acc ↔
      u ∈ acc ∨
        ((∃ d ∈ ds, u = c.next d) ∧ insideBounds w h u = true ∧
          ¬ u ∈ vis) := by
    intro ds
    induction ds with
    | nil => intro acc; simp
    | cons d ds ihd =>
        intro acc
        rw [List.foldl_cons, ihd]
        simp only [List.mem_cons]
        by_cases hcond :
            (insideBounds w h (c.next d) && ¬ ((c.next d) ∈ vis)) = true
        · simp only [hcond, if_true, List.mem_append, List.mem_singleton]
          rcases Bool.and_eq_true_iff.mp hcond with ⟨hb1, hb2⟩
          constructor
          · rintro ((hu | rfl) | hrest)
            · exact Or.inl hu
            · exact Or.inr ⟨⟨d, Or.inl rfl, rfl⟩, hb1, by simpa using hb2⟩
            · obtain ⟨⟨d2, hd2, hud⟩, hi, hv⟩ := hrest
              exact Or.inr ⟨⟨d2, Or.inr hd2, hud⟩, hi, hv⟩
          · rintro (hu | ⟨⟨d2, (rfl | hd2), hud⟩, hi, hv⟩)
            · exact Or.inl (Or.inl hu)
            · exact Or.inl (Or.inr hud)
            · exact Or.inr ⟨⟨d2, hd2, hud⟩, hi, hv⟩
        · simp only [hcond, if_false]
          constructor
          · rintro (hu | hrest)
            · exact Or.inl hu
            · obtain ⟨⟨d2, hd2, hud⟩, hi, hv⟩ := hrest
              exact Or.inr ⟨⟨d2, Or.inr hd2, hud⟩, hi, hv⟩
          · rintro (hu | ⟨⟨d2, (rfl | hd2), hud⟩, hi, hv⟩)
            · exact Or.inl hu
            · exfalso
              apply hcond
              rw [Bool.and_eq_true_iff]
              subst hud
              exact ⟨hi, by simpa using hv⟩
            · exact Or.inr ⟨⟨d2, hd2, hud⟩, hi, hv⟩
  rw [key Direction.all []]
  simp only [List.not_mem_nil, false_or]
  constructor
  · rintro ⟨⟨d, _, hud⟩, hi, hv⟩
    exact ⟨⟨d, hud⟩, hi, hv⟩
  · rintro ⟨⟨d, hud⟩, hi, hv⟩
    exact ⟨⟨d, Direction.mem_all d, hud⟩, hi, hv⟩

theorem gtUnvisited_append (w h : Int) (visited : List Coordinates)
    (n : Coordinates) (hn : insideBounds w h n = true)
    (hnv : ¬ n ∈ visited) :
    gtUnvisited w h (visited ++ [n]) + 1 = gtUnvisited w h visited := by
  unfold gtUnvisited
  have key : ∀ l : List Coordinates, l.Nodup → n ∈ l →
      l.countP (fun c => !(visited ++ [n]).contains c) + 1 =
        l.countP (fun c => !visited.contains c) := by
    intro l
    induction l with
    | nil => intro _ hm; cases hm
    | cons x xs ih =>
        intro hnd hmem
        rw [List.countP_cons, List.countP_cons]
        rcases List.mem_cons.mp hmem with rfl | hxs
        · have hnxs : ¬ n ∈ xs := (List.nodup_cons.mp hnd).1
          have hcongr : xs.countP (fun c => !(visited ++ [n]).contains c) =
              xs.countP (fun c => !visited.contains c) := by
            apply List.countP_congr
            intro a ha
            have hax : a ≠ n := fun e => hnxs (e ▸ ha)
            simp [List.mem_append, hax]
          rw [hcongr]
          simp [hnv]
        · have hxn2 : x ≠ n := fun e => (List.nodup_cons.mp hnd).1 (e ▸ hxs)
          have hpq : ((visited ++ [n]).contains x) = (visited.contains x) := by
            simp [List.mem_append, hxn2]
          rw [hpq]
          have hih := ih (List.nodup_cons.mp hnd).2 hxs
          rcases hb : visited.contains x with _ | _
          · have e1 : (if (!false) = true then 1 else 0) = 1 := rfl
            rw [e1]
            omega
          · have e1 : (if (!true) = true then 1 else 0) = 0 := rfl
            rw [e1]
            omega
  exact key (cellsList w h) (cellsList_nodup w h)
    ((mem_cellsList w h n).mpr hn)

theorem gt_loop_stop (rng : Nat → Nat) (sel w h : Int) (fuel k : Nat)
    (st : GtState) (current goal : Coordinates) (maxq : Nat)
    (hse : st.cellstack.isEmpty = true) :
    gt_loop rng sel w h (fuel + 1) k st current goal maxq = (st, goal) := by
  rw [gt_loop, if_pos hse]

theorem gt_loop_carve (rng : Nat → Nat) (sel w h : Int) (fuel k : Nat)
    (st : GtState) (current goal : Coordinates) (maxq : Nat)
    (hse : st.cellstack.isEmpty = false)
    (hnbs : (find_unvisited_neighbours w h st.visited current).isEmpty
      = false) :
    ∃ g2 q2,
      gt_loop rng sel w h (fuel + 1) k st current goal maxq =
        gt_loop rng sel w h fuel (k + 1)
          ⟨st.cellstack ++ [(find_unvisited_neighbours w h st.visited
              current).getD
            (rng k % (find_unvisited_neighbours w h st.visited
              current).length) default],
           st.visited ++ [(find_unvisited_neighbours w h st.visited
              current).getD
            (rng k % (find_unvisited_neighbours w h st.visited
              current).length) default],
           st.graph.add_edge current
            ((find_unvisited_neighbours w h st.visited current).getD
              (rng k % (find_unvisited_neighbours w h st.visited
                current).length) default)⟩
          ((find_unvisited_neighbours w h st.visited current).getD
            (rng k % (find_unvisited_neighbours w h st.visited
              current).length) default)
          g2 q2 := by
  rw [gt_loop]
  dsimp only
  rw [if_neg (by simp [hse]), if_neg (by simp [hnbs])]
  exact ⟨_, _, rfl⟩

theorem gt_loop_backtrack (rng : Nat → Nat) (w h : Int) (fuel k : Nat)
    (st : GtState) (current goal : Coordinates) (maxq : Nat)
    (hse : st.cellstack.isEmpty = false)
    (hnbs : (find_unvisited_neighbours w h st.visited current).isEmpty
      = true)
    (hcur : current ∈ st.cellstack)
    (hst1 : (st.cellstack.erase current).isEmpty = false) :
    gt_loop rng 2 w h (fuel + 1) k st current goal maxq =
      gt_loop rng 2 w h fuel (k + 1)
        ⟨st.cellstack.erase current, st.visited, st.graph⟩
        ((st.cellstack.erase current).getD
          (rng k % (st.cellstack.erase current).length) default)
        goal maxq := by
  rw [gt_loop]
  dsimp only
  rw [if_neg (by simp [hse]), if_pos hnbs, if_pos hcur,
    if_neg (by simp [hst1]), if_neg (by decide), if_pos rfl]

theorem gt_loop_backtrack_done (rng : Nat → Nat) (w h : Int) (fuel k : Nat)
    (st : GtState) (current goal : Coordinates) (maxq : Nat)
    (hse : st.cellstack.isEmpty = false)
    (hnbs : (find_unvisited_neighbours w h st.visited current).isEmpty
      = true)
    (hcur : current ∈ st.cellstack)
    (hst1 : (st.cellstack.erase current).isEmpty = true) :
    gt_loop rng 2 w h (fuel + 1) k st current goal maxq =
      gt_loop rng 2 w h fuel k
        ⟨st.cellstack.erase current, st.visited, st.graph⟩
        current goal maxq := by
  rw [gt_loop]
  dsimp only
  rw [if_neg (by simp [hse]), if_pos hnbs, if_pos hcur, if_pos hst1]

theorem gt_loop_spec (rng : Nat → Nat) (w h : Int) :
    ∀ (fuel k : Nat) (st : GtState) (current goal : Coordinates)
      (maxq : Nat),
      GtInv w h st →
      (current ∈ st.cellstack ∨ st.cellstack = []) →
      2 * gtUnvisited w h st.visited + st.cellstack.length + 1 ≤ fuel →
      (gt_loop rng 2 w h fuel k st current goal maxq).1.cellstack = [] ∧
        GtInv w h (gt_loop rng 2 w h fuel k st current goal maxq).1 := by
  intro fuel
  induction fuel with
  | zero =>
      intro k st current goal maxq hinv hcur hfuel
      exact absurd hfuel (by omega)
  | succ fuel ih =>
      intro k st current goal maxq hinv hcur hfuel
      rcases hse : st.cellstack.isEmpty with _ | _
      · -- the stack is not empty
        have hstk_ne : st.cellstack ≠ [] := by
          intro e
          rw [e] at hse
          simp at hse
        have hcur2 : current ∈ st.cellstack := by
          rcases hcur with hm | he
          · exact hm
          · exact absurd he hstk_ne
        rcases hnbs : (find_unvisited_neighbours w h st.visited
            current).isEmpty with _ | _
        · -- an unvisited neighbour exists: carve into it
          obtain ⟨g2, q2, hstep⟩ :=
            gt_loop_carve rng 2 w h fuel k st current goal maxq hse hnbs
          rw [hstep]
          have hnbs_ne : find_unvisited_neighbours w h st.visited current
              ≠ [] := by
            intro e
            rw [e] at hnbs
            simp at hnbs
          have hnbs_pos :
              0 < (find_unvisited_neighbours w h st.visited current).length :=
            List.length_pos.mpr hnbs_ne
          have hmem : (find_unvisited_neighbours w h st.visited current).getD
              (rng k % (find_unvisited_neighbours w h st.visited
                current).length) default
              ∈ find_unvisited_neighbours w h st.visited current :=
            getD_mem_of_lt _ _ _ (Nat.mod_lt _ hnbs_pos)
          obtain ⟨⟨ddir, hdn⟩, hnin, hnnv⟩ :=
            (mem_find_unvisited_neighbours w h st.visited current _).mp hmem
          have hcv : current ∈ st.visited := hinv.sub current hcur2
          have hnostack : ¬ (find_unvisited_neighbours w h st.visited
              current).getD (rng k % (find_unvisited_neighbours w h
                st.visited current).length) default ∈ st.cellstack :=
            fun hc => hnnv (hinv.sub _ hc)
          have hnoedge : st.graph.contains_edge current
              ((find_unvisited_neighbours w h st.visited current).getD
                (rng k % (find_unvisited_neighbours w h st.visited
                  current).length) default) = false := by
            rcases hx : st.graph.contains_edge current _ with _ | _
            · rfl
            · exfalso
              rcases (contains_edge_iff_mem _ _ _).mp hx with hm | hm
              · exact hnnv (hinv.epts _ hm).2
              · exact hnnv (hinv.epts _ hm).1
          refine ih (k + 1) _ _ g2 q2 ?_ ?_ ?_
          · refine ⟨?_, ?_, ?_, ?_, ?_, ?_, ?_, ?_, ?_⟩
            · exact nodup_append_singleton _ _ hinv.vnodup hnnv
            · intro v hv
              rcases List.mem_append.mp hv with hv1 | hv1
              · exact hinv.vin v hv1
              · rw [List.mem_singleton] at hv1
                rw [hv1]
                exact hnin
            · intro cc hcc
              rcases List.mem_append.mp hcc with hc1 | hc1
              · exact List.mem_append.mpr (Or.inl (hinv.sub _ hc1))
              · exact List.mem_append.mpr (Or.inr hc1)
            · exact nodup_append_singleton _ _ hinv.snodup hnostack
            · intro v hv d hdin hdnv
              have hdnv2 : ¬ v.next d ∈ st.visited :=
                fun hc => hdnv (List.mem_append.mpr (Or.inl hc))
              rcases List.mem_append.mp hv with hv1 | hv1
              · exact List.mem_append.mpr
                  (Or.inl (hinv.pinv v hv1 d hdin hdnv2))
              · rw [List.mem_singleton] at hv1
                rw [hv1]
                exact List.mem_append.mpr (Or.inr (List.mem_singleton.mpr rfl))
            · exact List.mem_append.mpr (Or.inl hinv.start_mem)
            · show (st.graph.add_edge current _).edgeCount + 1
                = (st.visited ++ [_]).length
              rw [add_edge_edgeCount _ _ _ hnoedge, List.length_append]
              have := hinv.count
              simp only [List.length_singleton]
              omega
            · intro v hv
              rcases List.mem_append.mp hv with hv1 | hv1
              · exact reachable_add_edge_of _ _ _ (hinv.reach v hv1)
              · rw [List.mem_singleton] at hv1
                rw [hv1]
                exact reachable_trans _
                  (reachable_add_edge_of _ _ _ (hinv.reach current hcv))
                  (reachable_add_edge_new _ current _)
            · intro e he
              rcases mem_add_edge_elim _ _ _ _ he with hm | hm
              · obtain ⟨h1, h2⟩ := hinv.epts e hm
                exact ⟨List.mem_append.mpr (Or.inl h1),
                  List.mem_append.mpr (Or.inl h2)⟩
              · rw [hm]
                exact ⟨List.mem_append.mpr (Or.inl hcv),
                  List.mem_append.mpr (Or.inr (List.mem_singleton.mpr rfl))⟩
          · exact Or.inl
              (List.mem_append.mpr (Or.inr (List.mem_singleton.mpr rfl)))
          · have hucnew := gtUnvisited_append w h st.visited _ hnin hnnv
            have hlap : (st.cellstack ++
                [(find_unvisited_neighbours w h st.visited current).getD
                  (rng k % (find_unvisited_neighbours w h st.visited
                    current).length) default]).length
                = st.cellstack.length + 1 := by simp
            dsimp only
            omega
        · -- no unvisited neighbour: drop the cell and pick a new current
          have hno_unvis : ∀ d, insideBounds w h (current.next d) = true →
              current.next d ∈ st.visited := by
            intro d hdb
            by_contra hcon
            have hmem2 : current.next d ∈
                find_unvisited_neighbours w h st.visited current :=
              (mem_find_unvisited_neighbours w h st.visited current
                _).mpr ⟨⟨d, rfl⟩, hdb, hcon⟩
            rw [List.isEmpty_iff.mp hnbs] at hmem2
            cases hmem2
          have hlp : 0 < st.cellstack.length := List.length_pos.mpr hstk_ne
          have hlerase := List.length_erase_of_mem hcur2
          have hinv1 : GtInv w h
              ⟨st.cellstack.erase current, st.visited, st.graph⟩ := by
            refine ⟨hinv.vnodup, hinv.vin, ?_, ?_, ?_, hinv.start_mem,
              hinv.count, hinv.reach, hinv.epts⟩
            · intro cc hcc
              exact hinv.sub cc (List.mem_of_mem_erase hcc)
            · exact hinv.snodup.erase current
            · intro v hv d hdin hdnv
              have hvs := hinv.pinv v hv d hdin hdnv
              have hvne : v ≠ current := by
                intro e
                rw [e] at hdnv hdin
                exact hdnv (hno_unvis d hdin)
              exact (List.mem_erase_of_ne hvne).mpr hvs
          rcases hs1e : (st.cellstack.erase current).isEmpty with _ | _
          · -- the stack is still nonempty: draw the next current cell
            rw [gt_loop_backtrack rng w h fuel k st current goal maxq hse
              hnbs hcur2 hs1e]
            have hs1ne : st.cellstack.erase current ≠ [] := by
              intro e
              rw [e] at hs1e
              simp at hs1e
            have hs1pos : 0 < (st.cellstack.erase current).length :=
              List.length_pos.mpr hs1ne
            refine ih (k + 1) _ _ goal maxq hinv1 ?_ ?_
            · exact Or.inl (getD_mem_of_lt _ _ _ (Nat.mod_lt _ hs1pos))
            · show 2 * gtUnvisited w h st.visited +
                (st.cellstack.erase current).length + 1 ≤ fuel
              omega
          · -- the stack emptied: the next iteration stops
            rw [gt_loop_backtrack_done rng w h fuel k st current goal maxq
              hse hnbs hcur2 hs1e]
            refine ih k _ current goal maxq hinv1 ?_ ?_
            · exact Or.inr (List.isEmpty_iff.mp hs1e)
            · show 2 * gtUnvisited w h st.visited +
                (st.cellstack.erase current).length + 1 ≤ fuel
              omega
      · -- the stack is empty: the loop returns the state unchanged
        rw [gt_loop_stop rng 2 w h fuel k st current goal maxq hse]
        exact ⟨List.isEmpty_iff.mp hse, hinv⟩

/-- The growing-tree generator with the Random selection method always
carves a spanning tree: width times height cells, one less edge, every
in-bounds cell reachable from the origin. -/
theorem gt_generate_spec (rng : Nat → Nat) (w h : Int) (hw : 0 < w)
    (hh : 0 < h) :
    (gt_generate rng 2 w h).start = ⟨0, 0⟩ ∧
      (gt_generate rng 2 w h).size = (w, h) ∧
      (gt_generate rng 2 w h).graph.edgeCount + 1 = w.toNat * h.toNat ∧
      ∀ c, insideBounds w h c = true →
        (gt_generate rng 2 w h).graph.Reachable ⟨0, 0⟩ c := by
  have hin00 : insideBounds w h ⟨0, 0⟩ = true := by
    rw [insideBounds_mk]
    exact ⟨le_refl 0, hw, le_refl 0, hh⟩
  have hinv0 : GtInv w h ⟨[⟨0, 0⟩], [⟨0, 0⟩], []⟩ := by
    refine ⟨List.nodup_singleton _, ?_, fun c hc => hc, List.nodup_singleton _,
      ?_, List.mem_singleton.mpr rfl, rfl, ?_, ?_⟩
    · intro v hv
      rw [List.mem_singleton] at hv
      rw [hv]
      exact hin00
    · intro v hv d hdin hdnv
      exact hv
    · intro v hv
      rw [List.mem_singleton] at hv
      rw [hv]
      exact reachable_refl _ _
    · intro e he
      cases he
  have h_empty : gtUnvisited w h [] = w.toNat * h.toNat := by
    unfold gtUnvisited
    rw [← cellsList_length w h]
    apply List.countP_eq_length.mpr
    intro a _
    simp
  have happ := gtUnvisited_append w h [] ⟨0, 0⟩ hin00 (by simp)
  rw [List.nil_append] at happ
  have hwh : (w * h).toNat = w.toNat * h.toNat :=
    int_toNat_mul w h (le_of_lt hw) (le_of_lt hh)
  obtain ⟨hempty, hinvF⟩ :=
    gt_loop_spec rng w h (2 * (w * h).toNat + 4) 0 ⟨[⟨0, 0⟩], [⟨0, 0⟩], []⟩
      ⟨0, 0⟩ ⟨0, 0⟩ 0 hinv0 (Or.inl (List.mem_singleton.mpr rfl))
      (by
        show 2 * gtUnvisited w h [⟨0, 0⟩] + 1 + 1 ≤ 2 * (w * h).toNat + 4
        omega)
  have hall : ∀ c, insideBounds w h c = true →
      c ∈ (gt_loop rng 2 w h (2 * (w * h).toNat + 4) 0
        ⟨[⟨0, 0⟩], [⟨0, 0⟩], []⟩ ⟨0, 0⟩ ⟨0, 0⟩ 0).1.visited := by
    apply grid_closure w h _ hinvF.start_mem
    intro c hcin hcv d hdin
    by_contra hcon
    have hmem3 := hinvF.pinv c hcv d hdin hcon
    rw [hempty] at hmem3
    cases hmem3
  have hlen := nodup_both_subset_length_eq _ (cellsList w h) hinvF.vnodup
    (cellsList_nodup w h)
    (fun u hu => (mem_cellsList w h u).mpr (hinvF.vin u hu))
    (fun u hu => hall u ((mem_cellsList w h u).mp hu))
  rw [cellsList_length] at hlen
  refine ⟨rfl, rfl, ?_, ?_⟩
  · show (gt_loop rng 2 w h (2 * (w * h).toNat + 4) 0
      ⟨[⟨0, 0⟩], [⟨0, 0⟩], []⟩ ⟨0, 0⟩ ⟨0, 0⟩ 0).1.graph.edgeCount + 1
      = w.toNat * h.toNat
    have := hinvF.count
    omega
  · intro c hcin
    show (gt_loop rng 2 w h (2 * (w * h).toNat + 4) 0
      ⟨[⟨0, 0⟩], [⟨0, 0⟩], []⟩ ⟨0, 0⟩ ⟨0, 0⟩ 0).1.graph.Reachable ⟨0, 0⟩ c
    exact hinvF.reach c (hall c hcin)

theorem is_isomorphic_refl (g : MazeGraph) : is_isomorphic g g = true := by
  rw [is_isomorphic_eq_true_iff]
  refine ⟨rfl, g.nodes, List.mem_permutations.mpr (List.Perm.refl _), ?_⟩
  rw [isoUnder_iff]
  intro i _ j _
  rfl

theorem mazeEq_refl (m : Maze) : mazeEq m m = true := by
  rw [mazeEq_iff]
  exact ⟨rfl, rfl, rfl, is_isomorphic_refl m.graph⟩

/-- Claim C4: with the seed fixed, generation is a pure function of the
seed-derived random stream and the size, so two generator instances
constructed from the identical seed produce identical results; for positive
sizes the fallible generators return Ok, and the produced mazes compare
equal under the PartialEq of Maze, whose graph comparison is the
isomorphism check. -/
theorem c4_generation_deterministic (rng : Nat → Nat) (sel w h : Int)
    (hw : 0 < w) (hh : 0 < h) :
    (ellers_generate rng w h = ellers_generate rng w h ∧
      ∃ m, ellers_generate rng w h = .ok m ∧ mazeEq m m = true) ∧
    (prims_generate rng w h = prims_generate rng w h ∧
      ∃ m, prims_generate rng w h = .ok m ∧ mazeEq m m = true) ∧
    (gt_generate rng sel w h = gt_generate rng sel w h ∧
      mazeEq (gt_generate rng sel w h) (gt_generate rng sel w h) = true) ∧
    rb_generate rng w h = rb_generate rng w h := by
  refine ⟨⟨rfl, ?_⟩, ⟨rfl, ?_⟩, ⟨rfl, mazeEq_refl _⟩, rfl⟩
  · obtain ⟨m, hm, -, -, -, -, -⟩ := ellers_generate_spec rng w h hw hh
    exact ⟨m, hm, mazeEq_refl m⟩
  · obtain ⟨m, hm, -, -, -, -, -⟩ := prims_generate_spec rng w h hw hh
    exact ⟨m, hm, mazeEq_refl m⟩

/-- Witness for c4_generation_deterministic at a concrete stream, selection
method and size. -/
theorem c4_generation_deterministic_witness :
    (0 : Int) < 2 ∧
    ((ellers_generate (fun _ => 0) 2 2 = ellers_generate (fun _ => 0) 2 2 ∧
      ∃ m, ellers_generate (fun _ => 0) 2 2 = .ok m ∧ mazeEq m m = true) ∧
     (prims_generate (fun _ => 0) 2 2 = prims_generate (fun _ => 0) 2 2 ∧
      ∃ m, prims_generate (fun _ => 0) 2 2 = .ok m ∧ mazeEq m m = true) ∧
     (gt_generate (fun _ => 0) 1 2 2 = gt_generate (fun _ => 0) 1 2 2 ∧
      mazeEq (gt_generate (fun _ => 0) 1 2 2)
        (gt_generate (fun _ => 0) 1 2 2) = true) ∧
     rb_generate (fun _ => 0) 2 2 = rb_generate (fun _ => 0) 2 2) :=
  ⟨by decide,
    c4_generation_deterministic (fun _ => 0) 1 2 2 (by decide) (by decide)⟩

theorem are_coordinates_inside_iff (m : Maze) (c : Coordinates) :
    m.are_coordinates_inside c = true ↔
      (0 ≤ c.x ∧ c.x < m.size.1 ∧ 0 ≤ c.y ∧ c.y < m.size.2) := by
  simp [Maze.are_coordinates_inside, Bool.and_eq_true, decide_eq_true_eq,
    and_assoc, ge_iff_le]

/-- Claim C7: for a maze of positive size, get_field returns none exactly
for the coordinates outside the rectangle from (0,0) inclusive to
(width, height) exclusive; every in-bounds coordinate yields some field. -/
theorem c7_get_field_none_iff_outside (m : Maze)
    (hw : 1 ≤ m.size.1) (hh : 1 ≤ m.size.2) (c : Coordinates) :
    m.get_field c = none ↔
      ¬ (0 ≤ c.x ∧ c.x < m.size.1 ∧ 0 ≤ c.y ∧ c.y < m.size.2) := by
  rw [← are_coordinates_inside_iff]
  unfold Maze.get_field
  by_cases hin : m.are_coordinates_inside c = true
  · simp [hin]
  · simp [hin]

/-- Witness for C7 at the one-by-one maze: the in-bounds coordinate (0,0)
yields a field and the out-of-bounds coordinate (1,0) yields none. -/
theorem c7_get_field_none_iff_outside_witness :
    (1 : Int) ≤ 1 ∧
      ((Maze.mk [] ⟨0, 0⟩ ⟨0, 0⟩ (1, 1)).get_field ⟨1, 0⟩ = none ↔
        ¬ (0 ≤ (1 : Int) ∧ (1 : Int) < 1 ∧ 0 ≤ (0 : Int) ∧ (0 : Int) < 1)) :=
  ⟨by decide, c7_get_field_none_iff_outside ⟨[], ⟨0, 0⟩, ⟨0, 0⟩, (1, 1)⟩
    (by decide) (by decide) ⟨1, 0⟩⟩

/-- Claim C10: when the start coordinates equal the goal coordinates, the
field returned at those coordinates has field type Start, never Goal: the
start check comes first in get_field. -/
theorem c10_start_precedence (m : Maze) (hsg : m.start = m.goal)
    (hin : m.are_coordinates_inside m.start = true) :
    ∃ f, m.get_field m.start = some f ∧ f.field_type = FieldType.Start := by
  unfold Maze.get_field
  rw [hin]
  simp

/-- Witness for C10 at a concrete one-by-one maze with start = goal. -/
theorem c10_start_precedence_witness :
    ((Maze.mk [] ⟨0, 0⟩ ⟨0, 0⟩ (1, 1)).start =
        (Maze.mk [] ⟨0, 0⟩ ⟨0, 0⟩ (1, 1)).goal) ∧
      ∃ f, (Maze.mk [] ⟨0, 0⟩ ⟨0, 0⟩ (1, 1)).get_field ⟨0, 0⟩ = some f ∧
        f.field_type = FieldType.Start :=
  ⟨rfl, c10_start_precedence ⟨[], ⟨0, 0⟩, ⟨0, 0⟩, (1, 1)⟩ rfl (by decide)⟩

/-- Claim C2 (code evaluated at the failing inputs): the claimed
invalid-input error does not exist (the error enum has only the
InternalError variant) and Maze::new only debug_asserts positivity.  Prims
generator, asked for a width 0, height 1 maze, returns Ok with a
degenerate partially built Maze, for every random stream (the frontier
stays empty so the stream is never consulted).  Asked for a width 2,
height -1 maze, it panics inside Maze::new: the negative i32 product
sign-extends to a capacity of about 2^64 and the graph allocation aborts
with capacity overflow (modelled as none).  Neither failing input produces
an invalid-input error. -/
theorem c2_prims_nonpositive_size_returns_maze (rng : Nat → Nat) :
    prims_generate_run rng 0 1 = some (.ok ⟨[], ⟨0, 0⟩, ⟨0, 0⟩, (0, 1)⟩) ∧
      prims_generate_run rng 2 (-1) = none :=
  ⟨rfl, rfl⟩

/-- Claim C3 (code evaluated at the failing input): the breadth-first goal
selection never marks the start as visited, so the start is re-enqueued and
re-dequeued; on the two-cell path graph it returns the start itself, and
the Ellers generator on a 1 by 2 maze consequently produces goal = start
although the cell (0,1) is strictly farther (distance one, joined by the
single edge). -/
theorem c3_find_suitable_goal_returns_start :
    find_suitable_goal [(⟨0, 0⟩, ⟨0, 1⟩)] ⟨0, 0⟩ = ⟨0, 0⟩ ∧
      ellers_generate (fun _ => 0) 1 2 =
        .ok ⟨[(⟨0, 0⟩, ⟨0, 1⟩)], ⟨0, 0⟩, ⟨0, 0⟩, (1, 2)⟩ ∧
      MazeGraph.contains_edge [(⟨0, 0⟩, ⟨0, 1⟩)] ⟨0, 0⟩ ⟨0, 1⟩ = true ∧
      (⟨0, 1⟩ : Coordinates) ≠ ⟨0, 0⟩ := by
  refine ⟨by decide, rfl, by decide, by decide⟩

/-- Claim C5 counterexample: a concrete carve-loop state in which the
chosen frontier cell (5,5) has zero visited neighbours; the loop clears the
frontier and returns Ok with the graph still empty (the frontier cell was
never connected), instead of surfacing an internal error. -/
theorem c5_counterexample :
    find_visited_neighbours 10 10 [] ⟨5, 5⟩ = [] ∧
      prims_loop (fun _ => 0) 10 10 5 0 ⟨[⟨5, 5⟩], [], []⟩ =
        .ok (1, ⟨[], [], []⟩) := by
  exact ⟨by decide, by decide⟩

/-- Claim C5 as amended: whenever the chosen frontier cell has zero
already-visited neighbours, Prims carve loop clears the frontier and
terminates with Ok on the state carved so far (possibly an incomplete
maze); no error is surfaced. -/
theorem c5_no_visited_neighbours_silently_ok (rng : Nat → Nat) (w h : Int)
    (k fuel : Nat) (st : PrimsState) (hfr : st.frontier.isEmpty = false)
    (hnb : find_visited_neighbours w h st.visited
      (st.frontier.getD (rng k % st.frontier.length) default) = []) :
    prims_loop rng w h (fuel + 2) k st = .ok (k + 1, ⟨[], st.visited, st.graph⟩) := by
  show prims_loop rng w h (fuel + 1 + 1) k st = _
  unfold prims_loop
  rw [hfr]
  simp only [Bool.false_eq_true, if_false, hnb]
  unfold prims_loop
  simp

/-- Witness for the amended C5 at the concrete state of the
counterexample. -/
theorem c5_no_visited_neighbours_silently_ok_witness :
    (([⟨5, 5⟩] : List Coordinates).isEmpty = false) ∧
      prims_loop (fun _ => 1) 10 10 2 0 ⟨[⟨5, 5⟩], [], []⟩ =
        .ok (1, ⟨[], [], []⟩) :=
  ⟨by decide,
    c5_no_visited_neighbours_silently_ok (fun _ => 1) 10 10 0 0
      ⟨[⟨5, 5⟩], [], []⟩ (by decide) (by decide)⟩

end Mazegen
